import Mathlib

/-!
# Dijkstra's algorithm (dense and binary-heap variants): model and verification

Shallow embedding of `Dijkstra's_Algorithm.c`.

* C `int` values are `Int`; the only arithmetic that can leave the 32-bit range is
  the sum `dist[u] + graph->adj[u][v]`, modelled by `addInt` (wraparound to 32 bits).
* C arrays are total maps `Int → α` indexed by the C `int` index; a write `a[k] = x`
  is `setAt a k x`.  Cells outside the declared bounds are simply other cells of the map.
* `for (v = 0; v < n; v++)` loops are `forLoop body n.toNat`; loops whose trip count is
  not syntactically bounded (`heapify`, the `while` loops) take a fuel argument and
  return `none` when it is exhausted.
-/

set_option autoImplicit false

namespace Dijkstra

/-! ## Constants and machine arithmetic -/

/-- The constant `INF` (`#define INF INT_MAX`). -/
def INF : Int := 2147483647

/-- The constant `MAX_VERTICES` (`#define MAX_VERTICES 100`). -/
def MAX_VERTICES : Int := 100

/-- Two's-complement wraparound of a mathematical integer to a 32-bit `int`. -/
def wrap32 (x : Int) : Int := (x + 2147483648) % 4294967296 - 2147483648

/-- C `int` addition `a + b`. -/
def addInt (a b : Int) : Int := wrap32 (a + b)

/-- Array write `a[k] = x`. -/
def setAt {α : Type} (a : Int → α) (k : Int) (x : α) : Int → α :=
  fun i => if i = k then x else a i

/-- The loop `for (int i = 0; i < n; i++) s = body(i, s)`; `forLoop body k s` is the
state after the iterations `i = 0 .. k-1`. -/
def forLoop {σ : Type} (body : Int → σ → σ) : Nat → σ → σ
  | 0, s => s
  | k + 1, s => body (k : Int) (forLoop body k s)

/-! ## Graph -/

/-- The struct `Graph`: `int vertices; int adj[MAX_VERTICES][MAX_VERTICES];`. -/
structure Graph where
  vertices : Int
  adj : Int → Int → Int

/-- Function `createGraph`; `mem` is the content of the freshly allocated matrix. -/
def createGraph (mem : Int → Int → Int) (vertices : Int) : Graph :=
  { vertices := vertices
    adj := forLoop (fun i adj =>
             forLoop (fun j adj => setAt adj i (setAt (adj i) j (if i = j then 0 else INF)))
               vertices.toNat adj)
           vertices.toNat mem }

/-- Function `addEdge`. -/
def addEdge (g : Graph) (src dest weight : Int) : Graph :=
  { g with adj := setAt g.adj src (setAt (g.adj src) dest weight) }

/-- Function `addUndirectedEdge`. -/
def addUndirectedEdge (g : Graph) (src dest weight : Int) : Graph :=
  let adj1 := setAt g.adj src (setAt (g.adj src) dest weight)
  { g with adj := setAt adj1 dest (setAt (adj1 dest) src weight) }

/-! ## Dense variant -/

/-- The local arrays of `dijkstra` and `findShortestPath`. -/
structure DState where
  dist : Int → Int
  visited : Int → Bool
  parent : Int → Int

/-- Function `minDistance`: the accumulator is the pair `(min, min_index)`. -/
def minDistance (dist : Int → Int) (visited : Int → Bool) (vertices : Int) : Int :=
  (forLoop (fun v (acc : Int × Int) =>
      if visited v = false ∧ dist v < acc.1 then (dist v, v) else acc)
    vertices.toNat (INF, -1)).2

/-- Initialisation loop of `dijkstra` / `findShortestPath`, then `dist[src] = 0`. -/
def initDense (g : Graph) (src : Int) : DState :=
  let s := forLoop (fun i (s : DState) =>
      { dist := setAt s.dist i INF, visited := setAt s.visited i false,
        parent := setAt s.parent i (-1) })
    g.vertices.toNat { dist := fun _ => 0, visited := fun _ => false, parent := fun _ => 0 }
  { s with dist := setAt s.dist src 0 }

/-- Body of the inner `for (v ...)` loop of `dijkstra` / `findShortestPath`. -/
def relaxDense (g : Graph) (u : Int) (v : Int) (s : DState) : DState :=
  if s.visited v = false ∧ g.adj u v ≠ INF ∧ s.dist u ≠ INF ∧
      addInt (s.dist u) (g.adj u v) < s.dist v then
    { s with dist := setAt s.dist v (addInt (s.dist u) (g.adj u v))
             parent := setAt s.parent v u }
  else s

/-- The `for (count ...)` loop of `dijkstra`; the first argument is the number of
rounds still allowed. -/
def dijkstraLoop (g : Graph) : Nat → DState → DState
  | 0, s => s
  | k + 1, s =>
    let u := minDistance s.dist s.visited g.vertices
    if u = -1 then s
    else
      dijkstraLoop g k
        (forLoop (relaxDense g u) g.vertices.toNat { s with visited := setAt s.visited u true })

/-- Function `dijkstra`, up to the call of `printResults`: the arrays when the loop has
ended. -/
def dijkstra (g : Graph) (src : Int) : DState :=
  dijkstraLoop g (g.vertices - 1).toNat (initDense g src)

/-! ## Indexed binary min-heap -/

/-- The struct `HeapNode`: `int vertex; int distance;`. -/
structure HeapNode where
  vertex : Int
  distance : Int
deriving DecidableEq

/-- The struct `MinHeap`: `HeapNode data[MAX_VERTICES]; int size; int pos[MAX_VERTICES];`. -/
structure MinHeap where
  data : Int → HeapNode
  size : Int
  pos : Int → Int

/-- The call `swap(&data[i], &data[j])`. -/
def swap (data : Int → HeapNode) (i j : Int) : Int → HeapNode :=
  setAt (setAt data i (data j)) j (data i)

/-- Function `heapify` (sift-down); one unit of fuel per call. -/
def heapify : Nat → MinHeap → Int → Option MinHeap
  | 0, _, _ => none
  | fuel + 1, heap, idx =>
    let left := 2 * idx + 1
    let right := 2 * idx + 2
    let smallest :=
      if left < heap.size ∧ (heap.data left).distance < (heap.data idx).distance
      then left else idx
    let smallest :=
      if right < heap.size ∧ (heap.data right).distance < (heap.data smallest).distance
      then right else smallest
    if smallest ≠ idx then
      let pos := setAt heap.pos (heap.data smallest).vertex idx
      let pos := setAt pos (heap.data idx).vertex smallest
      heapify fuel { heap with pos := pos, data := swap heap.data idx smallest } smallest
    else some heap

/-- Function `extractMin`: the returned node and the heap after the call. -/
def extractMin (fuel : Nat) (heap : MinHeap) : Option (HeapNode × MinHeap) :=
  if heap.size = 0 then some ({ vertex := -1, distance := INF }, heap)
  else
    let root := heap.data 0
    let lastNode := heap.data (heap.size - 1)
    let data := setAt heap.data 0 lastNode
    let pos := setAt heap.pos lastNode.vertex 0
    let pos := setAt pos root.vertex (-1)
    (heapify fuel { data := data, size := heap.size - 1, pos := pos } 0).map
      (fun h => (root, h))

/-- The `while` loop of `decreaseKey` (sift-up); for `i > 0` the C quotient
`(i-1)/2` is the floor quotient. -/
def siftUp : Nat → MinHeap → Int → Option MinHeap
  | 0, _, _ => none
  | fuel + 1, heap, i =>
    if i > 0 ∧ (heap.data i).distance < (heap.data ((i - 1) / 2)).distance then
      let pos := setAt heap.pos (heap.data i).vertex ((i - 1) / 2)
      let pos := setAt pos (heap.data ((i - 1) / 2)).vertex i
      siftUp fuel { heap with pos := pos, data := swap heap.data i ((i - 1) / 2) }
        ((i - 1) / 2)
    else some heap

/-- Function `decreaseKey`. -/
def decreaseKey (fuel : Nat) (heap : MinHeap) (vertex newDist : Int) : Option MinHeap :=
  let i := heap.pos vertex
  siftUp fuel
    { heap with data := setAt heap.data i { vertex := (heap.data i).vertex, distance := newDist } }
    i

/-- Function `isInMinHeap`. -/
def isInMinHeap (heap : MinHeap) (vertex : Int) : Bool :=
  decide (heap.pos vertex < heap.size)

/-- Function `createMinHeap`; the freshly allocated block holds zeros outside what the
loop writes. -/
def createMinHeap (capacity : Int) : MinHeap :=
  forLoop (fun i (h : MinHeap) =>
      { h with pos := setAt h.pos i i
               data := setAt h.data i { vertex := i, distance := INF } })
    capacity.toNat
    { data := fun _ => { vertex := 0, distance := 0 }, size := 0, pos := fun _ => 0 }

/-! ## Heap variant -/

/-- The local arrays of `dijkstraWithHeap` together with the heap. -/
structure HState where
  dist : Int → Int
  parent : Int → Int
  heap : MinHeap

/-- Initialisation of `dijkstraWithHeap` up to (excluding) the `while` loop. -/
def initHeap (fuel : Nat) (g : Graph) (src : Int) : Option HState :=
  let s := forLoop (fun v (s : HState) =>
      { dist := setAt s.dist v INF
        parent := setAt s.parent v (-1)
        heap := { s.heap with
                  data := setAt s.heap.data v { vertex := v, distance := INF } } })
    g.vertices.toNat
    { dist := fun _ => 0, parent := fun _ => 0, heap := createMinHeap g.vertices }
  let dist := setAt s.dist src 0
  let data := setAt s.heap.data src { vertex := (s.heap.data src).vertex, distance := 0 }
  (decreaseKey fuel { s.heap with data := data, size := g.vertices } src 0).map
    (fun h => { dist := dist, parent := s.parent, heap := h })

/-- Body of the inner `for (v ...)` loop of `dijkstraWithHeap`. -/
def relaxHeap (fuel : Nat) (g : Graph) (u : Int) (v : Int) (s : Option HState) :
    Option HState :=
  s.bind fun s =>
    if g.adj u v ≠ INF ∧ isInMinHeap s.heap v = true ∧ s.dist u ≠ INF ∧
        addInt (s.dist u) (g.adj u v) < s.dist v then
      let dist := setAt s.dist v (addInt (s.dist u) (g.adj u v))
      (decreaseKey fuel s.heap v (dist v)).map
        (fun h => { dist := dist, parent := setAt s.parent v u, heap := h })
    else some s

/-- The `while (heap->size > 0)` loop of `dijkstraWithHeap`; `hfuel` is the fuel handed
to the heap operations, the second argument bounds the number of iterations. -/
def heapLoop (hfuel : Nat) (g : Graph) : Nat → HState → Option HState
  | 0, _ => none
  | fuel + 1, s =>
    if s.heap.size > 0 then
      (extractMin hfuel s.heap).bind fun r =>
        (forLoop (relaxHeap hfuel g r.1.vertex) g.vertices.toNat
            (some { s with heap := r.2 })).bind
          (heapLoop hfuel g fuel)
    else some s

/-- Function `dijkstraWithHeap`, up to the call of `printResults`: the state when the `while`
loop has ended. -/
def dijkstraWithHeap (fuel : Nat) (g : Graph) (src : Int) : Option HState :=
  (initHeap fuel g src).bind (heapLoop fuel g fuel)

/-! ## Specific-pair variant -/

/-- The `for (count ...)` loop of `findShortestPath` (early exit on `u == dest`). -/
def findLoop (g : Graph) (dest : Int) : Nat → DState → DState
  | 0, s => s
  | k + 1, s =>
    let u := minDistance s.dist s.visited g.vertices
    if u = -1 ∨ u = dest then s
    else
      findLoop g dest k
        (forLoop (relaxDense g u) g.vertices.toNat { s with visited := setAt s.visited u true })

/-- The loop `while (current != -1) { tempPath[pathLength++] = current; ... }`;
the result lists `tempPath[0 .. pathLength-1]`.  The fuel is the number of cells of
`tempPath` still free. -/
def walkBack (parent : Int → Int) : Nat → Int → Option (List Int)
  | 0, current => if current ≠ -1 then none else some []
  | fuel + 1, current =>
    if current ≠ -1 then (walkBack parent fuel (parent current)).map (fun t => current :: t)
    else some []

/-- Function `findShortestPath`: the returned `int` and the cells `path[0 .. pathLength-1]`
written by the reversing loop (`[]` when `-1` is returned).  `none` when the walk
would run past the `MAX_VERTICES` cells of `tempPath`. -/
def findShortestPath (g : Graph) (src dest : Int) : Option (Int × List Int) :=
  let s := findLoop g dest (g.vertices - 1).toNat (initDense g src)
  if s.dist dest = INF then some (-1, [])
  else
    (walkBack s.parent MAX_VERTICES.toNat dest).map
      (fun tempPath => ((tempPath.length : Int), tempPath.reverse))

/-! # Specification vocabulary and proof-side definitions -/

/-! ## Graph-level specification vocabulary -/

/-- Every adjacency entry between in-range vertices is non-negative (so it is either a
non-negative weight or `INF`). -/
def NonNegWeights (g : Graph) : Prop :=
  ∀ i j : Int, 0 ≤ i → i < g.vertices → 0 ≤ j → j < g.vertices → 0 ≤ g.adj i j

/-- The sum `sumTo f k = f 0 + ... + f (k-1)`. -/
def sumTo (f : Int → Int) : Nat → Int
  | 0 => 0
  | k + 1 => sumTo f k + f (k : Int)

/-- The weight an adjacency entry contributes to the total: `INF` entries are absent
edges and contribute nothing. -/
def edgeWeight (g : Graph) (i j : Int) : Int :=
  if g.adj i j = INF then 0 else g.adj i j

/-- Sum of the edge weights in row `i` of the adjacency matrix. -/
def rowWeight (g : Graph) (i : Int) : Int :=
  sumTo (fun j => edgeWeight g i j) g.vertices.toNat

/-- Sum of all edge weights (all non-`INF` adjacency entries). -/
def totalWeight (g : Graph) : Int :=
  sumTo (fun i => rowWeight g i) g.vertices.toNat

/-- The precondition shared by the contract claims: between 1 and `MAX_VERTICES`
vertices, non-negative weights, total weight below `INT_MAX`. -/
def WellFormed (g : Graph) : Prop :=
  1 ≤ g.vertices ∧ g.vertices ≤ MAX_VERTICES ∧ NonNegWeights g ∧ totalWeight g < INF

/-- A directed walk in the adjacency matrix, as the list of its vertices: all vertices
in range, every consecutive pair joined by an entry other than `INF`. -/
def IsWalk (g : Graph) : List Int → Prop
  | [] => False
  | [a] => 0 ≤ a ∧ a < g.vertices
  | a :: b :: rest => 0 ≤ a ∧ a < g.vertices ∧ g.adj a b ≠ INF ∧ IsWalk g (b :: rest)

/-- Total weight of a walk: the sum of the adjacency entries of its consecutive pairs. -/
def walkWeight (g : Graph) : List Int → Int
  | [] => 0
  | [_] => 0
  | a :: b :: rest => g.adj a b + walkWeight g (b :: rest)

/-- The list `p` is a directed path from `s` to `t`. -/
def IsPath (g : Graph) (s t : Int) (p : List Int) : Prop :=
  IsWalk g p ∧ p.head? = some s ∧ p.getLast? = some t

/-- Vertex `t` is reachable from `s`. -/
def Reachable (g : Graph) (s t : Int) : Prop := ∃ p, IsPath g s t p

/-- The number `d` is the minimum total weight over all directed paths from `s` to `t`. -/
def IsMinDist (g : Graph) (s t d : Int) : Prop :=
  (∃ p, IsPath g s t p ∧ walkWeight g p = d) ∧ ∀ p, IsPath g s t p → d ≤ walkWeight g p

/-! ## Invariant of the selection/relaxation loops -/

/-- Total weight of the rows of the settled vertices. -/
def settledWeight (g : Graph) (S : Int → Bool) : Int :=
  sumTo (fun x => if S x = true then rowWeight g x else 0) g.vertices.toNat

/-- Number of in-range vertices below `m` that are not settled. -/
def unsettledCount (S : Int → Bool) : Nat → Nat
  | 0 => 0
  | m + 1 => unsettledCount S m + (if S (m : Int) = true then 0 else 1)

/-- The loop invariant shared by the three variants.  `S` is the set of settled
(selected) vertices, `time v` the round in which `v` was settled, `k` the number of
rounds started, `u` the vertex of the current round and `j` the number of vertices the
inner loop has already treated (`j = vertices` between rounds). -/
structure Inv (g : Graph) (src : Int) (S : Int → Bool) (time : Int → Nat) (k : Nat)
    (u j : Int) (dist parent : Int → Int) : Prop where
  dist_src : dist src = 0
  parent_src : parent src = -1
  dist_range : ∀ v, 0 ≤ v → v < g.vertices → 0 ≤ dist v ∧ dist v ≤ INF
  parent_inf : ∀ v, 0 ≤ v → v < g.vertices → dist v = INF → parent v = -1
  parent_edge : ∀ v, 0 ≤ v → v < g.vertices → dist v ≠ INF → v ≠ src →
    0 ≤ parent v ∧ parent v < g.vertices ∧ S (parent v) = true ∧
    g.adj (parent v) v ≠ INF ∧ dist (parent v) ≠ INF ∧
    dist v = dist (parent v) + g.adj (parent v) v ∧
    (S v = true → time (parent v) < time v)
  time_lt : ∀ v, 0 ≤ v → v < g.vertices → S v = true → time v < k
  relaxed : ∀ x, 0 ≤ x → x < g.vertices → S x = true → dist x ≠ INF →
    ∀ v, 0 ≤ v → v < g.vertices → g.adj x v ≠ INF → (x = u → v < j) →
    dist v ≤ dist x + g.adj x v
  settled_le : ∀ x, 0 ≤ x → x < g.vertices → S x = true →
    ∀ v, 0 ≤ v → v < g.vertices → S v = false → dist x ≤ dist v
  latest : ∀ x, 0 ≤ x → x < g.vertices → S x = true → dist x ≤ dist u
  bound_settled : ∀ x, 0 ≤ x → x < g.vertices → S x = true → dist x ≠ INF →
    dist x + rowWeight g x ≤ settledWeight g S
  bound_unsettled : ∀ v, 0 ≤ v → v < g.vertices → S v = false → dist v ≠ INF →
    dist v ≤ settledWeight g S
  src_first : S src = false → ∀ v, 0 ≤ v → v < g.vertices → v ≠ src → dist v = INF
  count : unsettledCount S g.vertices.toNat + k = g.vertices.toNat

/-- The relaxation test and update common to the three inner loops (without the
variant-specific guard on `v`). -/
def relaxCore (g : Graph) (u v : Int) (dp : (Int → Int) × (Int → Int)) :
    (Int → Int) × (Int → Int) :=
  if g.adj u v ≠ INF ∧ dp.1 u ≠ INF ∧ addInt (dp.1 u) (g.adj u v) < dp.1 v then
    (setAt dp.1 v (addInt (dp.1 u) (g.adj u v)), setAt dp.2 v u)
  else dp

/-! ## Heap predicates -/

/-- Heap order: every parent slot holds a distance no larger than its child slots
(children of `p` at `2p+1` and `2p+2`). -/
def HeapOrder (h : MinHeap) : Prop :=
  ∀ p c : Int, 0 ≤ p → c < h.size → (c = 2 * p + 1 ∨ c = 2 * p + 2) →
    (h.data p).distance ≤ (h.data c).distance

/-- The position index agrees with the array layout. -/
def PosConsistent (h : MinHeap) : Prop :=
  ∀ i : Int, 0 ≤ i → i < h.size → h.pos (h.data i).vertex = i

/-- The vertices stored in `data[0..size)` are pairwise distinct. -/
def DistinctVertices (h : MinHeap) : Prop :=
  ∀ i j : Int, 0 ≤ i → i < h.size → 0 ≤ j → j < h.size →
    (h.data i).vertex = (h.data j).vertex → i = j

/-- The nodes stored in `data[0..size)`, in slot order. -/
def slots (h : MinHeap) : List HeapNode :=
  (List.range h.size.toNat).map (fun k : Nat => h.data (k : Int))

/-- Vertex `v` is stored in some slot of `data[0..size)`. -/
def Present (h : MinHeap) (v : Int) : Prop :=
  ∃ i : Int, 0 ≤ i ∧ i < h.size ∧ (h.data i).vertex = v

/-- The heap after the two `pos` writes and the `swap` of slots `a` and `b`. -/
def swapNodes (h : MinHeap) (a b : Int) : MinHeap :=
  { h with pos := setAt (setAt h.pos (h.data a).vertex b) (h.data b).vertex a
           data := swap h.data b a }

/-- The slot chosen by the two comparisons of `heapify`. -/
def smallestOf (heap : MinHeap) (idx : Int) : Int :=
  let left := 2 * idx + 1
  let right := 2 * idx + 2
  let smallest :=
    if left < heap.size ∧ (heap.data left).distance < (heap.data idx).distance
    then left else idx
  if right < heap.size ∧ (heap.data right).distance < (heap.data smallest).distance
  then right else smallest

/-- Heap order holds for every parent other than `idx`, and the children of `idx`
are not below the parent of `idx`. -/
def OrderExceptDown (h : MinHeap) (idx : Int) : Prop :=
  (∀ p c : Int, 0 ≤ p → c < h.size → (c = 2 * p + 1 ∨ c = 2 * p + 2) → p ≠ idx →
    (h.data p).distance ≤ (h.data c).distance) ∧
  (∀ q c : Int, 0 ≤ q → c < h.size → (idx = 2 * q + 1 ∨ idx = 2 * q + 2) →
    (c = 2 * idx + 1 ∨ c = 2 * idx + 2) → (h.data q).distance ≤ (h.data c).distance)

/-- Heap order holds for every child other than `i`, and the children of `i` are not
below the parent of `i`. -/
def OrderExceptUp (h : MinHeap) (i : Int) : Prop :=
  (∀ p c : Int, 0 ≤ p → c < h.size → (c = 2 * p + 1 ∨ c = 2 * p + 2) → c ≠ i →
    (h.data p).distance ≤ (h.data c).distance) ∧
  (∀ q c : Int, 0 ≤ q → c < h.size → (i = 2 * q + 1 ∨ i = 2 * q + 2) →
    (c = 2 * i + 1 ∨ c = 2 * i + 2) → (h.data q).distance ≤ (h.data c).distance)

/-- The heap after the store `heap->data[i].distance = newDist` of `decreaseKey`. -/
def setKey (h : MinHeap) (i newDist : Int) : MinHeap :=
  { h with data := setAt h.data i { vertex := (h.data i).vertex, distance := newDist } }

/-- The heap handed to `heapify` by `extractMin`. -/
def removeRoot (h : MinHeap) : MinHeap :=
  { data := setAt h.data 0 (h.data (h.size - 1))
    size := h.size - 1
    pos := setAt (setAt h.pos (h.data (h.size - 1)).vertex 0) (h.data 0).vertex (-1) }

/-! ## End-of-run properties -/

/-- A good parent chain for `v`: it starts at `v`, and read backwards it is a path from
`src` to `v` of weight `dist v`. -/
def GoodChain (g : Graph) (src : Int) (dist : Int → Int) (v : Int) (c : List Int) : Prop :=
  c.head? = some v ∧ IsPath g src v c.reverse ∧ walkWeight g c.reverse = dist v

/-- Closure of the distance table under the edges: what holds when a full run ends. -/
def Closed (g : Graph) (dist : Int → Int) : Prop :=
  ∀ x v, 0 ≤ x → x < g.vertices → 0 ≤ v → v < g.vertices → dist x ≠ INF →
    g.adj x v ≠ INF → dist v ≠ INF ∧ dist v ≤ dist x + g.adj x v

/-- The end-of-run condition of the dense loops: either no unsettled vertex has a finite
distance, or at most one vertex is unsettled. -/
def Exhausted (g : Graph) (S : Int → Bool) (dist : Int → Int) : Prop :=
  (∀ v, 0 ≤ v → v < g.vertices → S v = false → dist v = INF) ∨
    unsettledCount S g.vertices.toNat ≤ 1

/-- The distance table holds the shortest-path distances from `src`: a reachable vertex
has a finite entry equal to the minimum path weight, an unreachable one has `INF`. -/
def ShortestFrom (g : Graph) (src : Int) (dist : Int → Int) : Prop :=
  ∀ v, 0 ≤ v → v < g.vertices →
    (Reachable g src v → dist v ≠ INF ∧ IsMinDist g src v (dist v)) ∧
    (¬ Reachable g src v → dist v = INF)

/-! ## Invariant of the heap inside the heap variant -/

/-- The heap holds exactly the unsettled vertices, keyed by their current distance, and
is a well-formed indexed min-heap; `k` vertices have been extracted. -/
structure HeapInv (g : Graph) (S : Int → Bool) (dist : Int → Int) (h : MinHeap) (k : Nat) :
    Prop where
  size_k : h.size + (k : Int) = g.vertices
  size_nonneg : 0 ≤ h.size
  pos_ok : PosConsistent h
  order : HeapOrder h
  node_ok : ∀ i, 0 ≤ i → i < h.size → 0 ≤ (h.data i).vertex ∧
    (h.data i).vertex < g.vertices ∧ (h.data i).distance = dist (h.data i).vertex
  settled_iff : ∀ v, 0 ≤ v → v < g.vertices → (S v = true ↔ h.pos v = -1)
  present_of_unsettled : ∀ v, 0 ≤ v → v < g.vertices → S v = false → Present h v

/-! ## Concrete inputs -/

/-- The graph `graph1` built by `main` (Example 1). -/
def graph1 : Graph :=
  addEdge (addEdge (addEdge (addEdge (addEdge (addEdge (addEdge (addEdge (addEdge
    (createGraph (fun _ _ => 0) 6) 0 1 4) 0 2 2) 1 2 1) 1 3 5) 2 3 8) 2 4 10) 3 4 2) 3 5 6)
    4 5 3

/-- A five-vertex graph in which vertices 1 and 3 are both at distance 2 from vertex 0
and both reach vertex 4 by an edge of weight 1. -/
def tieGraph : Graph :=
  addEdge (addEdge (addEdge (addEdge (addEdge
    (createGraph (fun _ _ => 0) 5) 0 3 2) 0 2 1) 2 1 1) 1 4 1) 3 4 1

/-- A two-vertex graph whose two edge weights are below `INT_MAX` but add up to more. -/
def wrapGraph : Graph :=
  addEdge (addEdge (createGraph (fun _ _ => 0) 2) 0 1 1073741824) 1 0 1073741825

/-- A three-slot heap holding vertices 0, 1, 2 with keys 1, 5, 3. -/
def sampleHeap : MinHeap :=
  { data := fun i => if i = 0 then { vertex := 0, distance := 1 }
                     else if i = 1 then { vertex := 1, distance := 5 }
                     else { vertex := 2, distance := 3 }
    size := 3
    pos := fun v => v }

/-- Vertex `p` is a valid shortest-path predecessor of `v` for the table `dist`. -/
def ValidPred (g : Graph) (dist : Int → Int) (v p : Int) : Prop :=
  0 ≤ p ∧ p < g.vertices ∧ g.adj p v ≠ INF ∧ dist p ≠ INF ∧ dist v = dist p + g.adj p v

/-! ## Evaluation helpers -/

/-- The term `forceNat n k` is `k n`; the match reduces `n` to a numeral before `k`
runs. -/
def forceNat {α : Type} (n : Nat) (k : Nat → α) : α :=
  match n with
  | 0 => k 0
  | m + 1 => k (m + 1)

/-- The term `strict x k` is `k x`; the match reduces `x` to a numeral before `k` runs,
the way the C assignment `int u = minNode.vertex;` evaluates its right-hand side once. -/
def strict {α : Type} (x : Int) (k : Int → α) : α :=
  match x with
  | Int.ofNat n => forceNat n (fun m => k (Int.ofNat m))
  | Int.negSucc n => forceNat n (fun m => k (Int.negSucc m))

/-- The loop `heapLoop` with the extracted vertex evaluated once per iteration; equal
to `heapLoop` (`heapLoop_eq_strict`) and used to evaluate runs on concrete graphs. -/
def heapLoopStrict (hfuel : Nat) (g : Graph) : Nat → HState → Option HState
  | 0, _ => none
  | fuel + 1, s =>
    if s.heap.size > 0 then
      (extractMin hfuel s.heap).bind fun r =>
        strict r.1.vertex fun u =>
          (forLoop (relaxHeap hfuel g u) g.vertices.toNat
              (some { s with heap := r.2 })).bind
            (heapLoopStrict hfuel g fuel)
    else some s

/-! ## Sequences of edge insertions -/

/-- One call of `addEdge` (`undirected = false`) or `addUndirectedEdge`
(`undirected = true`) with its three `int` arguments. -/
structure EdgeOp where
  undirected : Bool
  src : Int
  dest : Int
  weight : Int

/-- The graph after one edge-insertion call. -/
def applyOp (g : Graph) (op : EdgeOp) : Graph :=
  if op.undirected = true then addUndirectedEdge g op.src op.dest op.weight
  else addEdge g op.src op.dest op.weight

/-- The graph after a sequence of edge-insertion calls, in order. -/
def applyOps (g : Graph) : List EdgeOp → Graph
  | [] => g
  | op :: rest => applyOps (applyOp g op) rest

/-- A two-vertex graph with the single edge `0 → 1` of weight `-5`. -/
def negGraph : Graph :=
  addEdge (createGraph (fun _ _ => 0) 2) 0 1 (-5)

/-- The edge insertions performed by `main` on `graph1`, in order. -/
def graph1Ops : List EdgeOp :=
  [⟨false, 0, 1, 4⟩, ⟨false, 0, 2, 2⟩, ⟨false, 1, 2, 1⟩, ⟨false, 1, 3, 5⟩, ⟨false, 2, 3, 8⟩,
   ⟨false, 2, 4, 10⟩, ⟨false, 3, 4, 2⟩, ⟨false, 3, 5, 6⟩, ⟨false, 4, 5, 3⟩]

/-! ## Points of the runs -/

/-- Body of the `while` loop of `dijkstraWithHeap`: one extraction followed by the inner
`for` loop. -/
def heapRound (hfuel : Nat) (g : Graph) (s : HState) : Option HState :=
  (extractMin hfuel s.heap).bind fun r =>
    forLoop (relaxHeap hfuel g r.1.vertex) g.vertices.toNat (some { s with heap := r.2 })

/-- The state of `dijkstraWithHeap` at the head of its `while` loop after `k` iterations
(the state stays as it is once the loop has exited). -/
def loopHead (hfuel : Nat) (g : Graph) (src : Int) : Nat → Option HState
  | 0 => initHeap hfuel g src
  | k + 1 =>
    (loopHead hfuel g src k).bind fun s =>
      if s.heap.size > 0 then heapRound hfuel g s else some s

/-- The point of the run of `dijkstraWithHeap` just before the inner loop treats vertex
`j` in iteration `k` (counted from 0): the extracted vertex `u` and the state there.
`none` when the `while` loop has exited before iteration `k`. -/
def relaxPoint (hfuel : Nat) (g : Graph) (src : Int) (k j : Nat) : Option (Int × HState) :=
  (loopHead hfuel g src k).bind fun s =>
    if s.heap.size > 0 then
      (extractMin hfuel s.heap).bind fun r =>
        (forLoop (relaxHeap hfuel g r.1.vertex) j (some { s with heap := r.2 })).map
          (fun t => (r.1.vertex, t))
    else none

/-- The test of the `if` in the inner loop of `dijkstraWithHeap`, for the extracted
vertex `u` and the vertex `v`. -/
def RelaxTest (g : Graph) (t : HState) (u v : Int) : Prop :=
  g.adj u v ≠ INF ∧ isInMinHeap t.heap v = true ∧ t.dist u ≠ INF ∧
    addInt (t.dist u) (g.adj u v) < t.dist v

/-- Precondition of `decreaseKey(heap, v, d)`: `v` is stored in the valid slot `pos[v]`
and `d` is strictly below its current key. -/
def DecreaseKeyPre (h : MinHeap) (v d : Int) : Prop :=
  0 ≤ h.pos v ∧ h.pos v < h.size ∧ (h.data (h.pos v)).vertex = v ∧
    d < (h.data (h.pos v)).distance

/-- The sum `dist[u] + adj[u][v]` does not overflow: it lies between 0 and the total
weight, is below `INF`, and the 32-bit sum equals the mathematical sum. -/
def SumOK (g : Graph) (dist : Int → Int) (u v : Int) : Prop :=
  0 ≤ dist u + g.adj u v ∧ dist u + g.adj u v ≤ totalWeight g ∧
    dist u + g.adj u v < INF ∧ addInt (dist u) (g.adj u v) = dist u + g.adj u v

/-! ## Structural invariant of the parent array (no assumption on the weights) -/

/-- What the selection/relaxation loops keep true of `dist` and `parent` whatever the
adjacency entries are.  `S` is the set of visited vertices, `time v` the round in which
`v` was selected, `k` the number of selections so far: a vertex other than `src` with a
finite distance has a visited parent, selected before it. -/
structure PInv (g : Graph) (src : Int) (S : Int → Bool) (time : Int → Nat) (k : Nat)
    (dist parent : Int → Int) : Prop where
  dist_src : dist src = 0
  parent_src : parent src = -1
  dist_le : ∀ v, 0 ≤ v → v < g.vertices → dist v ≤ INF
  src_first : S src = false → ∀ v, 0 ≤ v → v < g.vertices → v ≠ src → dist v = INF
  parent_some : ∀ v, 0 ≤ v → v < g.vertices → v ≠ src → dist v ≠ INF →
    0 ≤ parent v ∧ parent v < g.vertices ∧ S (parent v) = true ∧
    (S v = true → time (parent v) < time v)
  settled_finite : ∀ v, 0 ≤ v → v < g.vertices → S v = true → dist v ≠ INF
  time_lt : ∀ v, 0 ≤ v → v < g.vertices → S v = true → time v < k
  count : unsettledCount S g.vertices.toNat + k = g.vertices.toNat

/-! # Lemmas -/

/-! ## Basic facts -/

@[simp] theorem setAt_same {α : Type} (a : Int → α) (k : Int) (x : α) : setAt a k x k = x := by
  simp [setAt]

theorem setAt_ne {α : Type} (a : Int → α) {k i : Int} (x : α) (h : i ≠ k) :
    setAt a k x i = a i := by
  simp [setAt, h]

theorem setAt_apply {α : Type} (a : Int → α) (k i : Int) (x : α) :
    setAt a k x i = if i = k then x else a i := rfl

theorem swap_apply (data : Int → HeapNode) (i j k : Int) :
    swap data i j k = if k = j then data i else if k = i then data j else data k := rfl

/-! ## Heap slots and swaps -/

theorem PosConsistent.distinct {h : MinHeap} (hp : PosConsistent h) : DistinctVertices h := by
  intro i j hi hi' hj hj' hv
  have h1 := hp i hi hi'
  have h2 := hp j hj hj'
  rw [hv] at h1
  omega

theorem mem_slots {h : MinHeap} {x : HeapNode} :
    x ∈ slots h ↔ ∃ i : Int, 0 ≤ i ∧ i < h.size ∧ h.data i = x := by
  unfold slots
  simp only [List.mem_map, List.mem_range]
  constructor
  · rintro ⟨k, hk, rfl⟩
    exact ⟨k, by omega, by omega, rfl⟩
  · rintro ⟨i, hi, hi', rfl⟩
    exact ⟨i.toNat, by omega, by rw [Int.toNat_of_nonneg hi]⟩

theorem swap_comm (data : Int → HeapNode) (i j : Int) : swap data i j = swap data j i := by
  funext k
  simp only [swap_apply]
  split_ifs <;> simp_all

theorem range_map_swap_perm (data : Int → HeapNode) (m : Nat) (a b : Int)
    (ha : 0 ≤ a) (ha' : a < m) (hb : 0 ≤ b) (hb' : b < m) :
    ((List.range m).map (fun k : Nat => swap data a b (k : Int))).Perm
      ((List.range m).map (fun k : Nat => data (k : Int))) := by
  let s : Nat → Nat := fun k => if (k : Int) = b then a.toNat else if (k : Int) = a then b.toNat else k
  have hs : ∀ k : Nat, swap data a b (k : Int) = data ((s k : Nat) : Int) := by
    intro k
    simp only [swap_apply, s]
    split_ifs with h1 h2
    · rw [Int.toNat_of_nonneg ha]
    · rw [Int.toNat_of_nonneg hb]
    · rfl
  have hmap : (List.range m).map (fun k : Nat => swap data a b (k : Int))
      = ((List.range m).map s).map (fun k : Nat => data (k : Int)) := by
    rw [List.map_map]
    apply List.map_congr_left
    intro k _
    exact hs k
  rw [hmap]
  apply List.Perm.map
  have hinv : ∀ k : Nat, s (s k) = k := by
    intro k
    simp only [s]
    split_ifs <;> omega
  have hlt : ∀ k : Nat, k < m → s k < m := by
    intro k hk
    simp only [s]
    split_ifs <;> omega
  have hnd : (List.map s (List.range m)).Nodup := by
    apply List.Nodup.map_on _ (List.nodup_range m)
    intro x _ y _ hxy
    have := congrArg s hxy
    rwa [hinv, hinv] at this
  rw [List.perm_ext_iff_of_nodup hnd (List.nodup_range m)]
  intro x
  simp only [List.mem_map, List.mem_range]
  constructor
  · rintro ⟨k, hk, rfl⟩
    exact hlt k hk
  · intro hx
    exact ⟨s x, hlt x hx, hinv x⟩

theorem swapNodes_size (h : MinHeap) (a b : Int) : (swapNodes h a b).size = h.size := rfl

theorem swapNodes_slots (h : MinHeap) (a b : Int) (ha : 0 ≤ a) (ha' : a < h.size)
    (hb : 0 ≤ b) (hb' : b < h.size) : (slots (swapNodes h a b)).Perm (slots h) := by
  unfold slots
  simp only [swapNodes]
  exact range_map_swap_perm h.data h.size.toNat b a hb (by omega) ha (by omega)

theorem swapNodes_posConsistent (h : MinHeap) (a b : Int) (ha : 0 ≤ a) (ha' : a < h.size)
    (hb : 0 ≤ b) (hb' : b < h.size) (hab : a ≠ b) (hp : PosConsistent h) :
    PosConsistent (swapNodes h a b) := by
  have hd := hp.distinct
  intro i hi hi'
  simp only [swapNodes] at hi' ⊢
  have hva : (h.data a).vertex ≠ (h.data b).vertex := fun e => hab (hd a b ha ha' hb hb' e)
  by_cases hia : i = a
  · subst hia
    simp [swap_apply, setAt_apply]
  · by_cases hib : i = b
    · subst hib
      simp [swap_apply, setAt_apply, hva, hia]
    · have h1 : (h.data i).vertex ≠ (h.data a).vertex := fun e => hia (hd i a hi hi' ha ha' e)
      have h2 : (h.data i).vertex ≠ (h.data b).vertex := fun e => hib (hd i b hi hi' hb hb' e)
      simp [swap_apply, setAt_apply, hia, hib, h1, h2, hp i hi hi']

theorem swapNodes_pos_absent (h : MinHeap) (a b : Int) (ha : 0 ≤ a) (ha' : a < h.size)
    (hb : 0 ≤ b) (hb' : b < h.size) (v : Int) (hv : ¬ Present h v) :
    (swapNodes h a b).pos v = h.pos v := by
  have h1 : v ≠ (h.data a).vertex := fun e => hv ⟨a, ha, ha', e.symm⟩
  have h2 : v ≠ (h.data b).vertex := fun e => hv ⟨b, hb, hb', e.symm⟩
  simp [swapNodes, setAt_apply, h1, h2]

theorem present_of_perm {h h' : MinHeap} (hperm : (slots h').Perm (slots h)) (v : Int) :
    Present h' v ↔ Present h v := by
  have key : ∀ g : MinHeap, Present g v ↔ ∃ x ∈ slots g, x.vertex = v := by
    intro g
    constructor
    · rintro ⟨i, hi, hi', e⟩
      exact ⟨g.data i, mem_slots.2 ⟨i, hi, hi', rfl⟩, e⟩
    · rintro ⟨x, hx, e⟩
      obtain ⟨i, hi, hi', rfl⟩ := mem_slots.1 hx
      exact ⟨i, hi, hi', e⟩
  rw [key, key]
  constructor
  · rintro ⟨x, hx, e⟩
    exact ⟨x, hperm.mem_iff.1 hx, e⟩
  · rintro ⟨x, hx, e⟩
    exact ⟨x, hperm.mem_iff.2 hx, e⟩

/-! ## heapify (sift-down) -/

theorem heapify_succ (fuel : Nat) (h : MinHeap) (idx : Int) :
    heapify (fuel + 1) h idx =
      if smallestOf h idx ≠ idx then
        heapify fuel (swapNodes h (smallestOf h idx) idx) (smallestOf h idx)
      else some h := rfl

theorem smallestOf_cases (h : MinHeap) (idx : Int) :
    smallestOf h idx = idx ∨
      ((smallestOf h idx = 2 * idx + 1 ∨ smallestOf h idx = 2 * idx + 2) ∧
        smallestOf h idx < h.size) := by
  unfold smallestOf
  simp only
  split_ifs with h1 h2 h3 <;> simp_all

theorem smallestOf_le (h : MinHeap) (idx : Int) :
    (h.data (smallestOf h idx)).distance ≤ (h.data idx).distance ∧
    (2 * idx + 1 < h.size →
      (h.data (smallestOf h idx)).distance ≤ (h.data (2 * idx + 1)).distance) ∧
    (2 * idx + 2 < h.size →
      (h.data (smallestOf h idx)).distance ≤ (h.data (2 * idx + 2)).distance) := by
  unfold smallestOf
  simp only
  split_ifs with h1 h2 h3
  · refine ⟨by omega, fun _ => by omega, fun _ => le_refl _⟩
  · refine ⟨by omega, fun _ => le_refl _, fun h4 => ?_⟩
    have := not_and.1 h2 h4
    omega
  · refine ⟨?_, fun h4 => ?_, fun _ => le_refl _⟩
    · omega
    · have := not_and.1 h1 h4
      omega
  · refine ⟨le_refl _, fun h4 => ?_, fun h4 => ?_⟩
    · have := not_and.1 h1 h4
      omega
    · have := not_and.1 h3 h4
      omega

theorem orderExceptDown_swap (h : MinHeap) (idx : Int) (hidx : 0 ≤ idx)
    (hne : smallestOf h idx ≠ idx) (ho : OrderExceptDown h idx) :
    OrderExceptDown (swapNodes h (smallestOf h idx) idx) (smallestOf h idx) := by
  obtain ⟨ho1, ho2⟩ := ho
  have hc := smallestOf_cases h idx
  obtain ⟨hl0, hl1, hl2⟩ := smallestOf_le h idx
  have hsm : (smallestOf h idx = 2 * idx + 1 ∨ smallestOf h idx = 2 * idx + 2) ∧
      smallestOf h idx < h.size := by
    rcases hc with hc | hc
    · exact absurd hc hne
    · exact hc
  generalize smallestOf h idx = sm at *
  obtain ⟨hsm1, hsm2⟩ := hsm
  constructor
  · intro p c hp hc' hpc hpsm
    simp only [swapNodes] at hc' ⊢
    by_cases hpi : p = idx
    · subst hpi
      have e1 : swap h.data p sm p = h.data sm := by
        simp [swap_apply, hne.symm]
      rw [e1]
      by_cases hcs : c = sm
      · subst hcs
        have e2 : swap h.data p c c = h.data p := by simp [swap_apply]
        rw [e2]; exact hl0
      · have hcp : c ≠ p := by omega
        have e2 : swap h.data p sm c = h.data c := by simp [swap_apply, hcs, hcp]
        rw [e2]
        rcases hpc with hpc | hpc
        · subst hpc; exact hl1 hc'
        · subst hpc; exact hl2 hc'
    · have e1 : swap h.data idx sm p = h.data p := by simp [swap_apply, hpsm, hpi]
      rw [e1]
      by_cases hci : c = idx
      · subst hci
        have e2 : swap h.data c sm c = h.data sm := by simp [swap_apply, hne.symm]
        rw [e2]
        exact ho2 p sm hp hsm2 hpc hsm1
      · have hcs : c ≠ sm := by omega
        have e2 : swap h.data idx sm c = h.data c := by simp [swap_apply, hcs, hci]
        rw [e2]
        exact ho1 p c hp hc' hpc hpi
  · intro q c hq hc' hqs hcs
    simp only [swapNodes] at hc' ⊢
    have hqi : q = idx := by omega
    subst hqi
    have e1 : swap h.data q sm q = h.data sm := by simp [swap_apply, hne.symm]
    have hc1 : c ≠ sm := by omega
    have hc2 : c ≠ q := by omega
    have e2 : swap h.data q sm c = h.data c := by simp [swap_apply, hc1, hc2]
    rw [e1, e2]
    exact ho1 sm c (by omega) hc' hcs hne

theorem heapOrder_of_exceptDown (h : MinHeap) (idx : Int)
    (he : smallestOf h idx = idx) (ho : OrderExceptDown h idx) : HeapOrder h := by
  obtain ⟨-, hl1, hl2⟩ := smallestOf_le h idx
  rw [he] at hl1 hl2
  intro p c hp hc hpc
  by_cases hpi : p = idx
  · subst hpi
    rcases hpc with hpc | hpc
    · subst hpc; exact hl1 hc
    · subst hpc; exact hl2 hc
  · exact ho.1 p c hp hc hpc hpi

/-- What one call of `heapify` at a slot `idx ≥ 0` achieves, for enough fuel. -/
theorem heapify_spec (fuel : Nat) : ∀ (h : MinHeap) (idx : Int), 0 ≤ idx →
    (h.size - idx).toNat < fuel →
    ∃ h', heapify fuel h idx = some h' ∧ h'.size = h.size ∧
      (slots h').Perm (slots h) ∧
      (PosConsistent h → PosConsistent h') ∧
      (∀ v, ¬ Present h v → h'.pos v = h.pos v) ∧
      (OrderExceptDown h idx → HeapOrder h') := by
  induction fuel with
  | zero => intro h idx _ hf; omega
  | succ fuel ih =>
    intro h idx hidx hf
    rw [heapify_succ]
    by_cases he : smallestOf h idx = idx
    · rw [if_neg (not_not.2 he)]
      exact ⟨h, rfl, rfl, List.Perm.refl _, id, fun _ _ => rfl,
        heapOrder_of_exceptDown h idx he⟩
    · rw [if_pos he]
      have hsm : (smallestOf h idx = 2 * idx + 1 ∨ smallestOf h idx = 2 * idx + 2) ∧
          smallestOf h idx < h.size := by
        rcases smallestOf_cases h idx with hc | hc
        · exact absurd hc he
        · exact hc
      have hs0 : 0 ≤ smallestOf h idx := by omega
      have hi' : idx < h.size := by omega
      obtain ⟨h', e, hsz, hperm, hpc, hpos, hord⟩ :=
        ih (swapNodes h (smallestOf h idx) idx) (smallestOf h idx) hs0
          (by rw [swapNodes_size]; omega)
      have hperm0 := swapNodes_slots h (smallestOf h idx) idx hs0 hsm.2 hidx hi'
      refine ⟨h', e, by rw [hsz, swapNodes_size], hperm.trans hperm0, ?_, ?_, ?_⟩
      · intro hp
        exact hpc (swapNodes_posConsistent h _ _ hs0 hsm.2 hidx hi' he hp)
      · intro v hv
        rw [hpos v (fun hpr => hv ((present_of_perm hperm0 v).1 hpr))]
        exact swapNodes_pos_absent h _ _ hs0 hsm.2 hidx hi' v hv
      · intro ho
        exact hord (orderExceptDown_swap h idx hidx he ho)

/-! ## siftUp and decreaseKey -/

theorem siftUp_succ (fuel : Nat) (h : MinHeap) (i : Int) :
    siftUp (fuel + 1) h i =
      if i > 0 ∧ (h.data i).distance < (h.data ((i - 1) / 2)).distance then
        siftUp fuel (swapNodes h i ((i - 1) / 2)) ((i - 1) / 2)
      else some h := by
  simp only [siftUp, swapNodes, swap_comm h.data ((i - 1) / 2) i]

theorem orderExceptUp_swap (h : MinHeap) (i : Int) (hi : 0 < i) (hi' : i < h.size)
    (hlt : (h.data i).distance < (h.data ((i - 1) / 2)).distance) (ho : OrderExceptUp h i) :
    OrderExceptUp (swapNodes h i ((i - 1) / 2)) ((i - 1) / 2) := by
  obtain ⟨ho1, ho2⟩ := ho
  have hpar : i = 2 * ((i - 1) / 2) + 1 ∨ i = 2 * ((i - 1) / 2) + 2 := by omega
  have hpar0 : 0 ≤ (i - 1) / 2 := by omega
  generalize (i - 1) / 2 = par at *
  have hpi : par ≠ i := by omega
  have ei : swap h.data par i i = h.data par := by simp [swap_apply]
  have epar : swap h.data par i par = h.data i := by simp [swap_apply, hpi]
  have eo : ∀ k, k ≠ i → k ≠ par → swap h.data par i k = h.data k := by
    intro k h1 h2; simp [swap_apply, h1, h2]
  constructor
  · intro p c hp hc hpc hcpar
    simp only [swapNodes] at hc ⊢
    by_cases hci : c = i
    · subst hci
      have : p = par := by omega
      subst this
      rw [ei, epar]; omega
    · rw [eo c hci hcpar]
      by_cases hpp : p = par
      · subst hpp
        rw [epar]
        have := ho1 p c hp hc hpc hci
        omega
      · by_cases hpi' : p = i
        · subst hpi'
          rw [ei]
          exact ho2 par c hpar0 hc hpar hpc
        · rw [eo p hpi' hpp]
          exact ho1 p c hp hc hpc hci
  · intro q c hq hc hqp hcp
    simp only [swapNodes] at hc ⊢
    have hq1 : q ≠ i := by omega
    have hq2 : q ≠ par := by omega
    rw [eo q hq1 hq2]
    have h1 := ho1 q par hq (by omega) hqp hpi
    by_cases hci : c = i
    · subst hci
      rw [ei]; exact h1
    · have hc2 : c ≠ par := by omega
      rw [eo c hci hc2]
      have := ho1 par c hpar0 hc hcp hci
      omega

theorem heapOrder_of_exceptUp (h : MinHeap) (i : Int)
    (hn : ¬ (i > 0 ∧ (h.data i).distance < (h.data ((i - 1) / 2)).distance))
    (ho : OrderExceptUp h i) : HeapOrder h := by
  intro p c hp hc hpc
  by_cases hci : c = i
  · subst hci
    have e : (c - 1) / 2 = p := by omega
    rw [e] at hn
    have := not_and.1 hn (by omega)
    omega
  · exact ho.1 p c hp hc hpc hci

/-- What the `while` loop of `decreaseKey` achieves from slot `i`, for enough fuel. -/
theorem siftUp_spec (fuel : Nat) : ∀ (h : MinHeap) (i : Int), 0 ≤ i → i < h.size →
    i.toNat < fuel →
    ∃ h', siftUp fuel h i = some h' ∧ h'.size = h.size ∧
      (slots h').Perm (slots h) ∧
      (PosConsistent h → PosConsistent h') ∧
      (∀ v, ¬ Present h v → h'.pos v = h.pos v) ∧
      (OrderExceptUp h i → HeapOrder h') := by
  induction fuel with
  | zero => intro h i _ _ hf; omega
  | succ fuel ih =>
    intro h i hi hi' hf
    rw [siftUp_succ]
    by_cases hc : i > 0 ∧ (h.data i).distance < (h.data ((i - 1) / 2)).distance
    · rw [if_pos hc]
      have hp0 : 0 ≤ (i - 1) / 2 := by omega
      have hp1 : (i - 1) / 2 < h.size := by omega
      have hne : i ≠ (i - 1) / 2 := by omega
      obtain ⟨h', e, hsz, hperm, hpc, hpos, hord⟩ :=
        ih (swapNodes h i ((i - 1) / 2)) ((i - 1) / 2) hp0
          (by rw [swapNodes_size]; exact hp1) (by omega)
      have hperm0 := swapNodes_slots h i ((i - 1) / 2) hi hi' hp0 hp1
      refine ⟨h', e, by rw [hsz, swapNodes_size], hperm.trans hperm0, ?_, ?_, ?_⟩
      · intro hp
        exact hpc (swapNodes_posConsistent h _ _ hi hi' hp0 hp1 hne hp)
      · intro v hv
        rw [hpos v (fun hpr => hv ((present_of_perm hperm0 v).1 hpr))]
        exact swapNodes_pos_absent h _ _ hi hi' hp0 hp1 v hv
      · intro ho
        exact hord (orderExceptUp_swap h i hc.1 hi' hc.2 ho)
    · rw [if_neg hc]
      exact ⟨h, rfl, rfl, List.Perm.refl _, id, fun _ _ => rfl, heapOrder_of_exceptUp h i hc⟩

theorem decreaseKey_eq (fuel : Nat) (h : MinHeap) (v newDist : Int) :
    decreaseKey fuel h v newDist = siftUp fuel (setKey h (h.pos v) newDist) (h.pos v) := rfl

theorem setKey_vertex (h : MinHeap) (i newDist k : Int) :
    ((setKey h i newDist).data k).vertex = (h.data k).vertex := by
  simp only [setKey, setAt_apply]
  split_ifs with e
  · rw [e]
  · rfl

theorem setKey_posConsistent (h : MinHeap) (i newDist : Int) (hp : PosConsistent h) :
    PosConsistent (setKey h i newDist) := by
  intro k hk hk'
  rw [setKey_vertex]
  exact hp k hk hk'

theorem setKey_present (h : MinHeap) (i newDist v : Int) :
    Present (setKey h i newDist) v ↔ Present h v := by
  unfold Present
  simp only [setKey_vertex]
  rfl

theorem setKey_orderExceptUp (h : MinHeap) (i newDist : Int) (hi : 0 ≤ i) (hi' : i < h.size)
    (hle : newDist ≤ (h.data i).distance) (ho : HeapOrder h) :
    OrderExceptUp (setKey h i newDist) i := by
  have hdle : ∀ k, ((setKey h i newDist).data k).distance ≤ (h.data k).distance := by
    intro k
    simp only [setKey, setAt_apply]
    split_ifs with e
    · rw [e]; exact hle
    · exact le_refl _
  have hdeq : ∀ k, k ≠ i → (setKey h i newDist).data k = h.data k := by
    intro k hk
    simp [setKey, setAt_apply, hk]
  constructor
  · intro p c hp hc hpc hci
    rw [hdeq c hci]
    exact le_trans (hdle p) (ho p c hp hc hpc)
  · intro q c hq hc hqi hci
    have hc1 : c ≠ i := by omega
    have hq1 : q ≠ i := by omega
    rw [hdeq c hc1, hdeq q hq1]
    exact le_trans (ho q i hq hi' hqi) (ho i c hi hc hci)

/-! ## extractMin -/

theorem root_le (h : MinHeap) (ho : HeapOrder h) :
    ∀ (n : Nat) (i : Int), i.toNat ≤ n → 0 ≤ i → i < h.size →
      (h.data 0).distance ≤ (h.data i).distance := by
  intro n
  induction n with
  | zero =>
    intro i h1 h2 _
    have : i = 0 := by omega
    subst this; exact le_refl _
  | succ n ih =>
    intro i h1 h2 h3
    by_cases h0 : i = 0
    · subst h0; exact le_refl _
    · have hp := ih ((i - 1) / 2) (by omega) (by omega) (by omega)
      have := ho ((i - 1) / 2) i (by omega) h3 (by omega)
      omega

theorem range_map_extract (d : Int → HeapNode) (k : Nat) :
    (d 0 :: (List.range k).map (fun j : Nat => setAt d 0 (d (k : Int)) (j : Int))).Perm
      ((List.range (k + 1)).map (fun j : Nat => d (j : Int))) := by
  cases k with
  | zero => simp [List.range_succ]
  | succ k =>
    rw [List.range_succ (k + 1), List.map_append, List.range_succ_eq_map, List.map_cons,
      List.map_cons, List.map_map, List.map_map]
    have e : (List.range k).map ((fun j : Nat => setAt d 0 (d ((k + 1 : Nat) : Int)) (j : Int)) ∘ Nat.succ)
        = (List.range k).map ((fun j : Nat => d (j : Int)) ∘ Nat.succ) := by
      apply List.map_congr_left
      intro j _
      simp only [Function.comp, Nat.succ_eq_add_one]
      apply setAt_ne
      omega
    rw [e]
    simp only [setAt_same, List.map_cons, List.map_nil, Nat.cast_zero, List.cons_append]
    exact List.Perm.cons _ (List.perm_append_singleton _ _).symm

theorem extractMin_eq (fuel : Nat) (h : MinHeap) (hs : h.size ≠ 0) :
    extractMin fuel h = (heapify fuel (removeRoot h) 0).map (fun h' => (h.data 0, h')) := by
  simp only [extractMin, if_neg hs, removeRoot]

theorem removeRoot_slots (h : MinHeap) (hs : 0 < h.size) :
    (h.data 0 :: slots (removeRoot h)).Perm (slots h) := by
  unfold slots removeRoot
  simp only
  obtain ⟨k, hk⟩ : ∃ k : Nat, h.size.toNat = k + 1 := ⟨h.size.toNat - 1, by omega⟩
  have e1 : (h.size - 1).toNat = k := by omega
  have e2 : h.size - 1 = (k : Int) := by omega
  rw [hk, e1, e2]
  exact range_map_extract h.data k

theorem removeRoot_present (h : MinHeap) (v : Int) (hpr : Present (removeRoot h) v) :
    Present h v := by
  obtain ⟨i, hi, hi', e⟩ := hpr
  simp only [removeRoot, setAt_apply] at hi' e
  split_ifs at e with h0
  · exact ⟨h.size - 1, by omega, by omega, e⟩
  · exact ⟨i, hi, by omega, e⟩

theorem removeRoot_posConsistent (h : MinHeap) (hp : PosConsistent h) :
    PosConsistent (removeRoot h) ∧ ¬ Present (removeRoot h) (h.data 0).vertex := by
  have hd := hp.distinct
  constructor
  · intro i hi hi'
    simp only [removeRoot] at hi' ⊢
    have hr : (h.data (h.size - 1)).vertex ≠ (h.data 0).vertex := by
      intro e
      have := hd _ _ (by omega) (by omega) (by omega) (by omega) e
      omega
    by_cases h0 : i = 0
    · subst h0
      simp [setAt_apply, hr]
    · have h1 : (h.data i).vertex ≠ (h.data 0).vertex := by
        intro e
        exact h0 (hd _ _ hi (by omega) (by omega) (by omega) e)
      have h2 : (h.data i).vertex ≠ (h.data (h.size - 1)).vertex := by
        intro e
        have := hd _ _ hi (by omega) (by omega) (by omega) e
        omega
      simp only [setAt_apply, if_neg h0, if_neg h1, if_neg h2]
      exact hp i hi (by omega)
  · rintro ⟨i, hi, hi', e⟩
    simp only [removeRoot, setAt_apply] at hi' e
    split_ifs at e with h0
    · have := hd _ _ (by omega) (by omega) (by omega) (by omega) e
      omega
    · exact h0 (hd _ _ hi (by omega) (by omega) (by omega) e)

theorem removeRoot_orderExceptDown (h : MinHeap) (ho : HeapOrder h) :
    OrderExceptDown (removeRoot h) 0 := by
  constructor
  · intro p c hp hc hpc hp0
    simp only [removeRoot] at hc ⊢
    have hc0 : c ≠ 0 := by omega
    rw [setAt_ne _ _ hp0, setAt_ne _ _ hc0]
    exact ho p c hp (by omega) hpc
  · intro q c hq _ hq0 _
    omega

/-- What `extractMin` achieves on a non-empty heap, for enough fuel. -/
theorem extractMin_spec (fuel : Nat) (h : MinHeap) (hs : 0 < h.size)
    (hf : h.size.toNat ≤ fuel) :
    ∃ h', extractMin fuel h = some (h.data 0, h') ∧ h'.size = h.size - 1 ∧
      (h.data 0 :: slots h').Perm (slots h) ∧
      (PosConsistent h → PosConsistent h' ∧ h'.pos (h.data 0).vertex = -1) ∧
      (∀ v, ¬ Present h v → h'.pos v = h.pos v) ∧
      (HeapOrder h → HeapOrder h') := by
  obtain ⟨h', e, hsz, hperm, hpc, hpos, hord⟩ :=
    heapify_spec fuel (removeRoot h) 0 (le_refl _) (by simp only [removeRoot]; omega)
  refine ⟨h', ?_, by rw [hsz]; rfl, ?_, ?_, ?_, ?_⟩
  · rw [extractMin_eq fuel h (by omega), e]; rfl
  · exact (List.Perm.cons _ hperm).trans (removeRoot_slots h hs)
  · intro hp
    obtain ⟨h1, h2⟩ := removeRoot_posConsistent h hp
    refine ⟨hpc h1, ?_⟩
    rw [hpos _ h2]
    simp [removeRoot]
  · intro v hv
    rw [hpos v (fun hpr => hv (removeRoot_present h v hpr))]
    have h1 : v ≠ (h.data 0).vertex := fun e => hv ⟨0, le_refl _, hs, e.symm⟩
    have h2 : v ≠ (h.data (h.size - 1)).vertex :=
      fun e => hv ⟨h.size - 1, by omega, by omega, e.symm⟩
    simp [removeRoot, setAt_apply, h1, h2]
  · intro ho
    exact hord (removeRoot_orderExceptDown h ho)

/-! ## Arithmetic and summation lemmas -/

theorem wrap32_eq {x : Int} (h0 : -2147483648 ≤ x) (h1 : x < 2147483648) : wrap32 x = x := by
  unfold wrap32; omega

theorem addInt_eq {a b : Int} (h0 : 0 ≤ a + b) (h1 : a + b < INF) : addInt a b = a + b := by
  unfold addInt
  unfold INF at h1
  exact wrap32_eq (by omega) (by omega)

theorem sumTo_nonneg (f : Int → Int) (m : Nat) (hf : ∀ i : Int, 0 ≤ i → i < m → 0 ≤ f i) :
    0 ≤ sumTo f m := by
  induction m with
  | zero => simp [sumTo]
  | succ m ih =>
    simp only [sumTo]
    have h1 := ih (fun i h0 h1 => hf i h0 (by push_cast; omega))
    have h2 := hf m (by omega) (by push_cast; omega)
    omega

theorem sumTo_mono (f f' : Int → Int) (m : Nat)
    (hf : ∀ i : Int, 0 ≤ i → i < m → f i ≤ f' i) : sumTo f m ≤ sumTo f' m := by
  induction m with
  | zero => simp [sumTo]
  | succ m ih =>
    simp only [sumTo]
    have h1 := ih (fun i h0 h1 => hf i h0 (by push_cast; omega))
    have h2 := hf m (by omega) (by push_cast; omega)
    omega

theorem sumTo_term_le (f : Int → Int) (m : Nat) (hf : ∀ i : Int, 0 ≤ i → i < m → 0 ≤ f i)
    (j : Int) (hj : 0 ≤ j) (hj' : j < m) : f j ≤ sumTo f m := by
  induction m with
  | zero => omega
  | succ m ih =>
    simp only [sumTo]
    have hnn := sumTo_nonneg f m (fun i h0 h1 => hf i h0 (by push_cast; omega))
    have h2 := hf m (by omega) (by push_cast; omega)
    by_cases e : j = m
    · subst e; omega
    · have := ih (fun i h0 h1 => hf i h0 (by push_cast; omega)) (by push_cast at hj'; omega)
      omega

theorem sumTo_bump (f f' : Int → Int) (m : Nat) (u c : Int) (hu : 0 ≤ u) (hu' : u < m)
    (h1 : f' u = f u + c) (h2 : ∀ i, i ≠ u → f' i = f i) :
    sumTo f' m = sumTo f m + c := by
  induction m with
  | zero => omega
  | succ m ih =>
    simp only [sumTo]
    by_cases e : u = m
    · have hs : sumTo f' m = sumTo f m := by
        apply le_antisymm
        · exact sumTo_mono _ _ _ (fun i _ hi => by rw [h2 i (by omega)])
        · exact sumTo_mono _ _ _ (fun i _ hi => by rw [h2 i (by omega)])
      rw [hs, ← e, h1]; omega
    · have := ih (by push_cast at hu'; omega)
      rw [this, h2 (m : Int) (fun e' => e e'.symm)]; omega

theorem edgeWeight_nonneg (g : Graph) (hg : NonNegWeights g) (i j : Int) (hi : 0 ≤ i)
    (hi' : i < g.vertices) (hj : 0 ≤ j) (hj' : j < g.vertices) : 0 ≤ edgeWeight g i j := by
  unfold edgeWeight
  split_ifs
  · exact le_refl _
  · exact hg i j hi hi' hj hj'

theorem rowWeight_nonneg (g : Graph) (hg : NonNegWeights g) (i : Int) (hi : 0 ≤ i)
    (hi' : i < g.vertices) : 0 ≤ rowWeight g i :=
  sumTo_nonneg _ _ (fun j hj hj' => edgeWeight_nonneg g hg i j hi hi' hj (by omega))

theorem adj_le_rowWeight (g : Graph) (hg : NonNegWeights g) (i j : Int) (hi : 0 ≤ i)
    (hi' : i < g.vertices) (hj : 0 ≤ j) (hj' : j < g.vertices) (he : g.adj i j ≠ INF) :
    g.adj i j ≤ rowWeight g i := by
  have := sumTo_term_le (fun j => edgeWeight g i j) g.vertices.toNat
    (fun j hj hj' => edgeWeight_nonneg g hg i j hi hi' hj (by omega)) j hj (by omega)
  simp only [edgeWeight, if_neg he] at this
  exact this

theorem settledWeight_le_total (g : Graph) (hg : NonNegWeights g) (S : Int → Bool) :
    settledWeight g S ≤ totalWeight g := by
  apply sumTo_mono
  intro i hi hi'
  split_ifs
  · exact le_refl _
  · exact rowWeight_nonneg g hg i hi (by omega)

theorem settledWeight_settle (g : Graph) (S : Int → Bool) (u : Int) (hu : 0 ≤ u)
    (hu' : u < g.vertices) (hS : S u = false) :
    settledWeight g (setAt S u true) = settledWeight g S + rowWeight g u := by
  apply sumTo_bump _ _ _ u _ hu (by omega)
  · simp [hS]
  · intro i hi
    simp [setAt_apply, hi]

theorem unsettledCount_settle (S : Int → Bool) (u : Int) (hu : 0 ≤ u) (hS : S u = false)
    (m : Nat) :
    unsettledCount (setAt S u true) m + (if u < m then 1 else 0) = unsettledCount S m := by
  induction m with
  | zero => simp [unsettledCount]; omega
  | succ m ih =>
    simp only [unsettledCount, setAt_apply]
    by_cases e : (m : Int) = u
    · subst e
      simp only [if_true, hS] at ih ⊢
      simp at ih ⊢
      omega
    · simp only [if_neg e]
      split_ifs at ih ⊢ <;> (push_cast at *; omega)

theorem unsettled_unique (S : Int → Bool) (m : Nat) (h : unsettledCount S m ≤ 1)
    (a b : Int) (ha : 0 ≤ a) (ha' : a < m) (hSa : S a = false)
    (hb : 0 ≤ b) (hb' : b < m) (hSb : S b = false) : a = b := by
  have pos : ∀ (m : Nat) (a : Int), 0 ≤ a → a < m → S a = false → 1 ≤ unsettledCount S m := by
    intro m
    induction m with
    | zero => intro a h0 h1; omega
    | succ m ih =>
      intro a h0 h1 hS
      simp only [unsettledCount]
      by_cases e : a = m
      · subst e; simp [hS]
      · have := ih a h0 (by push_cast at h1; omega) hS
        omega
  induction m with
  | zero => omega
  | succ m ih =>
    simp only [unsettledCount] at h
    by_cases ea : a = m
    · by_cases eb : b = m
      · omega
      · have := pos m b hb (by push_cast at hb'; omega) hSb
        rw [← ea] at h
        simp [hSa] at h
        omega
    · by_cases eb : b = m
      · have := pos m a ha (by push_cast at ha'; omega) hSa
        rw [← eb] at h
        simp [hSb] at h
        omega
      · exact ih (by omega) (by push_cast at ha'; omega) (by push_cast at hb'; omega)

/-! ## The invariant is preserved by selection and relaxation -/

theorem Inv.select {g : Graph} {src : Int} {S : Int → Bool} {time : Int → Nat} {k : Nat}
    {u0 : Int} {dist parent : Int → Int} (hg : NonNegWeights g)
    (hinv : Inv g src S time k u0 g.vertices dist parent)
    (u : Int) (hu : 0 ≤ u) (hu' : u < g.vertices) (hS : S u = false)
    (hmin : ∀ v, 0 ≤ v → v < g.vertices → S v = false → dist u ≤ dist v) :
    Inv g src (setAt S u true) (setAt time u k) (k + 1) u 0 dist parent := by
  have hW := settledWeight_settle g S u hu hu' hS
  have hR := rowWeight_nonneg g hg u hu hu'
  have hSne : ∀ x, S x = true → x ≠ u := by
    intro x hx e
    rw [e, hS] at hx
    exact Bool.false_ne_true hx
  have hS' : ∀ x, setAt S u true x = true → x ≠ u → S x = true := by
    intro x hx hxu
    rwa [setAt_ne _ _ hxu] at hx
  have hSf : ∀ x, setAt S u true x = false → x ≠ u ∧ S x = false := by
    intro x hx
    have hxu : x ≠ u := by
      intro e
      rw [e, setAt_same] at hx
      exact Bool.noConfusion hx
    exact ⟨hxu, by rwa [setAt_ne _ _ hxu] at hx⟩
  exact {
    dist_src := hinv.dist_src
    parent_src := hinv.parent_src
    dist_range := hinv.dist_range
    parent_inf := hinv.parent_inf
    parent_edge := by
      intro v hv hv' hd hvs
      obtain ⟨h1, h2, h3, h4, h5, h6, h7⟩ := hinv.parent_edge v hv hv' hd hvs
      have hpu := hSne _ h3
      refine ⟨h1, h2, ?_, h4, h5, h6, ?_⟩
      · rw [setAt_ne _ _ hpu]; exact h3
      · intro hSv
        rw [setAt_ne _ _ hpu]
        by_cases hvu : v = u
        · have e : setAt time u k v = k := by rw [hvu, setAt_same]
          rw [e]
          exact hinv.time_lt _ h1 h2 h3
        · rw [setAt_ne _ _ hvu]
          exact h7 (hS' v hSv hvu)
    time_lt := by
      intro v hv hv' hSv
      by_cases hvu : v = u
      · rw [hvu, setAt_same]; omega
      · rw [setAt_ne _ _ hvu]
        have := hinv.time_lt v hv hv' (hS' v hSv hvu)
        omega
    relaxed := by
      intro x hx hx' hSx hd v hv hv' he hxu
      by_cases hxu' : x = u
      · have := hxu hxu'
        omega
      · exact hinv.relaxed x hx hx' (hS' x hSx hxu') hd v hv hv' he (fun _ => hv')
    settled_le := by
      intro x hx hx' hSx v hv hv' hSv
      obtain ⟨_, hSv'⟩ := hSf v hSv
      by_cases hxu' : x = u
      · rw [hxu']; exact hmin v hv hv' hSv'
      · exact hinv.settled_le x hx hx' (hS' x hSx hxu') v hv hv' hSv'
    latest := by
      intro x hx hx' hSx
      by_cases hxu' : x = u
      · rw [hxu']
      · exact hinv.settled_le x hx hx' (hS' x hSx hxu') u hu hu' hS
    bound_settled := by
      intro x hx hx' hSx hd
      rw [hW]
      by_cases hxu' : x = u
      · subst hxu'
        have := hinv.bound_unsettled x hx hx' hS hd
        omega
      · have := hinv.bound_settled x hx hx' (hS' x hSx hxu') hd
        omega
    bound_unsettled := by
      intro v hv hv' hSv hd
      rw [hW]
      have := hinv.bound_unsettled v hv hv' (hSf v hSv).2 hd
      omega
    src_first := by
      intro hs v hv hv' hvs
      exact hinv.src_first (hSf src hs).2 v hv hv' hvs
    count := by
      have h1 := unsettledCount_settle S u hu hS g.vertices.toNat
      have h2 := hinv.count
      rw [if_pos (by omega)] at h1
      omega }

theorem Inv.sum_bounds {g : Graph} {src : Int} {S : Int → Bool} {time : Int → Nat} {k : Nat}
    {u j : Int} {dist parent : Int → Int} (hg : NonNegWeights g) (ht : totalWeight g < INF)
    (hinv : Inv g src S time k u j dist parent)
    (x : Int) (hx : 0 ≤ x) (hx' : x < g.vertices) (hSx : S x = true) (hd : dist x ≠ INF)
    (v : Int) (hv : 0 ≤ v) (hv' : v < g.vertices) (he : g.adj x v ≠ INF) :
    0 ≤ dist x + g.adj x v ∧ dist x + g.adj x v ≤ settledWeight g S ∧
      dist x + g.adj x v < INF ∧ addInt (dist x) (g.adj x v) = dist x + g.adj x v := by
  have h1 := (hinv.dist_range x hx hx').1
  have h2 := hg x v hx hx' hv hv'
  have h3 := adj_le_rowWeight g hg x v hx hx' hv hv' he
  have h4 := hinv.bound_settled x hx hx' hSx hd
  have h5 := settledWeight_le_total g hg S
  refine ⟨by omega, by omega, by omega, addInt_eq (by omega) (by omega)⟩

theorem Inv.relax {g : Graph} {src : Int} {S : Int → Bool} {time : Int → Nat} {k : Nat}
    {u j : Int} {dist parent : Int → Int} (hg : NonNegWeights g) (ht : totalWeight g < INF)
    (hinv : Inv g src S time k u j dist parent)
    (hu : 0 ≤ u) (hu' : u < g.vertices) (hSu : S u = true)
    (hj : 0 ≤ j) (hj' : j < g.vertices) :
    Inv g src S time k u (j + 1) (relaxCore g u j (dist, parent)).1
        (relaxCore g u j (dist, parent)).2 ∧
      (S j = true → relaxCore g u j (dist, parent) = (dist, parent)) := by
  by_cases hc : g.adj u j ≠ INF ∧ dist u ≠ INF ∧ addInt (dist u) (g.adj u j) < dist j
  · -- the relaxation fires
    obtain ⟨he, hd, hlt⟩ := hc
    obtain ⟨hs0, hsW, hsI, hadd⟩ := hinv.sum_bounds hg ht u hu hu' hSu hd j hj hj' he
    rw [hadd] at hlt
    have hSj : S j = false := by
      by_contra hcon
      have hSj : S j = true := by simpa using hcon
      have := hinv.latest j hj hj' hSj
      have := hg u j hu hu' hj hj'
      omega
    have hju : j ≠ u := by
      intro e; rw [e, hSu] at hSj; exact Bool.noConfusion hSj
    have hjs : j ≠ src := by
      intro e
      have := hinv.dist_src
      rw [← e] at this
      omega
    have hr : relaxCore g u j (dist, parent)
        = (setAt dist j (dist u + g.adj u j), setAt parent j u) := by
      simp only [relaxCore]
      rw [if_pos ⟨he, hd, by rw [hadd]; exact hlt⟩, hadd]
    rw [hr]
    show Inv g src S time k u (j + 1) (setAt dist j (dist u + g.adj u j)) (setAt parent j u) ∧ _
    have hSne : ∀ x, S x = true → x ≠ j := by
      intro x hx e
      rw [e, hSj] at hx
      exact Bool.false_ne_true hx
    refine ⟨?_, fun h => by rw [hSj] at h; exact Bool.noConfusion h⟩
    exact {
      dist_src := by
        show setAt dist j _ src = 0
        rw [setAt_ne _ _ (Ne.symm hjs)]; exact hinv.dist_src
      parent_src := by
        show setAt parent j _ src = -1
        rw [setAt_ne _ _ (Ne.symm hjs)]; exact hinv.parent_src
      dist_range := by
        intro v hv hv'
        show 0 ≤ setAt dist j _ v ∧ setAt dist j _ v ≤ INF
        by_cases e : v = j
        · rw [e, setAt_same]; omega
        · rw [setAt_ne _ _ e]; exact hinv.dist_range v hv hv'
      parent_inf := by
        intro v hv hv'
        show setAt dist j _ v = INF → setAt parent j _ v = -1
        by_cases e : v = j
        · rw [e, setAt_same]; intro h; omega
        · rw [setAt_ne _ _ e, setAt_ne _ _ e]; exact hinv.parent_inf v hv hv'
      parent_edge := by
        intro v hv hv'
        show setAt dist j _ v ≠ INF → v ≠ src → _
        by_cases e : v = j
        · subst e
          intro _ _
          show 0 ≤ setAt parent v u v ∧ setAt parent v u v < g.vertices ∧
            S (setAt parent v u v) = true ∧ g.adj (setAt parent v u v) v ≠ INF ∧
            setAt dist v _ (setAt parent v u v) ≠ INF ∧
            setAt dist v _ v = setAt dist v _ (setAt parent v u v) + g.adj (setAt parent v u v) v ∧
            (S v = true → time (setAt parent v u v) < time v)
          rw [setAt_same, setAt_same, setAt_ne _ _ (Ne.symm hju)]
          refine ⟨hu, hu', hSu, he, hd, rfl, ?_⟩
          intro h; rw [hSj] at h; exact Bool.noConfusion h
        · intro h1 h2
          rw [setAt_ne _ _ e] at h1
          obtain ⟨h3, h4, h5, h6, h7, h8, h9⟩ := hinv.parent_edge v hv hv' h1 h2
          show 0 ≤ setAt parent j u v ∧ setAt parent j u v < g.vertices ∧
            S (setAt parent j u v) = true ∧ g.adj (setAt parent j u v) v ≠ INF ∧
            setAt dist j _ (setAt parent j u v) ≠ INF ∧
            setAt dist j _ v = setAt dist j _ (setAt parent j u v) + g.adj (setAt parent j u v) v ∧
            (S v = true → time (setAt parent j u v) < time v)
          rw [setAt_ne _ _ e, setAt_ne _ _ e, setAt_ne _ _ (hSne _ h5)]
          exact ⟨h3, h4, h5, h6, h7, h8, h9⟩
      time_lt := hinv.time_lt
      relaxed := by
        intro x hx hx' hSx hdx v hv hv' hev hxu
        show setAt dist j _ v ≤ setAt dist j _ x + g.adj x v
        have hxj := hSne x hSx
        rw [setAt_ne _ _ hxj] at hdx ⊢
        by_cases e : v = j
        · subst e
          rw [setAt_same]
          by_cases hxu' : x = u
          · rw [hxu']
          · have := hinv.relaxed x hx hx' hSx hdx v hv hv' hev (fun h => absurd h hxu')
            omega
        · rw [setAt_ne _ _ e]
          exact hinv.relaxed x hx hx' hSx hdx v hv hv' hev (fun h => by have := hxu h; omega)
      settled_le := by
        intro x hx hx' hSx v hv hv' hSv
        show setAt dist j _ x ≤ setAt dist j _ v
        rw [setAt_ne _ _ (hSne x hSx)]
        by_cases e : v = j
        · rw [e, setAt_same]
          have := hinv.latest x hx hx' hSx
          have := hg u j hu hu' hj hj'
          omega
        · rw [setAt_ne _ _ e]
          exact hinv.settled_le x hx hx' hSx v hv hv' hSv
      latest := by
        intro x hx hx' hSx
        show setAt dist j _ x ≤ setAt dist j _ u
        rw [setAt_ne _ _ (hSne x hSx), setAt_ne _ _ (Ne.symm hju)]
        exact hinv.latest x hx hx' hSx
      bound_settled := by
        intro x hx hx' hSx
        show setAt dist j _ x ≠ INF → setAt dist j _ x + _ ≤ _
        rw [setAt_ne _ _ (hSne x hSx)]
        exact hinv.bound_settled x hx hx' hSx
      bound_unsettled := by
        intro v hv hv' hSv
        show setAt dist j _ v ≠ INF → setAt dist j _ v ≤ _
        by_cases e : v = j
        · rw [e, setAt_same]; intro _; exact hsW
        · rw [setAt_ne _ _ e]; exact hinv.bound_unsettled v hv hv' hSv
      src_first := by
        intro hs v hv hv' hvs
        have := hinv.src_first hs u hu hu' (fun e => by rw [e, hs] at hSu; exact Bool.noConfusion hSu)
        exact absurd this hd
      count := hinv.count }
  · -- no relaxation
    have hr : relaxCore g u j (dist, parent) = (dist, parent) := by
      simp only [relaxCore]
      rw [if_neg hc]
    rw [hr]
    show Inv g src S time k u (j + 1) dist parent ∧ _
    refine ⟨?_, fun _ => rfl⟩
    exact {
      dist_src := hinv.dist_src
      parent_src := hinv.parent_src
      dist_range := hinv.dist_range
      parent_inf := hinv.parent_inf
      parent_edge := hinv.parent_edge
      time_lt := hinv.time_lt
      relaxed := by
        intro x hx hx' hSx hdx v hv hv' hev hxu
        by_cases e : x = u ∧ v = j
        · obtain ⟨e1, e2⟩ := e
          subst e1; subst e2
          obtain ⟨_, _, _, hadd⟩ := hinv.sum_bounds hg ht x hx hx' hSx hdx v hv hv' hev
          rw [hadd] at hc
          by_contra hcon
          exact hc ⟨hev, hdx, by omega⟩
        · exact hinv.relaxed x hx hx' hSx hdx v hv hv' hev
            (fun h => by
              have := hxu h
              have : v ≠ j := fun h' => e ⟨h, h'⟩
              omega)
      settled_le := hinv.settled_le
      latest := hinv.latest
      bound_settled := hinv.bound_settled
      bound_unsettled := hinv.bound_unsettled
      src_first := hinv.src_first
      count := hinv.count }

/-! ## Walks -/

theorem isWalk_head_range {g : Graph} : ∀ {p : List Int} {a : Int}, IsWalk g p →
    p.head? = some a → 0 ≤ a ∧ a < g.vertices := by
  intro p a hw hh
  match p, hw, hh with
  | [x], hw, hh =>
    simp only [List.head?_cons, Option.some.injEq] at hh
    subst hh; exact hw
  | x :: y :: rest, hw, hh =>
    simp only [List.head?_cons, Option.some.injEq] at hh
    subst hh; exact ⟨hw.1, hw.2.1⟩

theorem isWalk_last_range {g : Graph} : ∀ (p : List Int) {a : Int}, IsWalk g p →
    p.getLast? = some a → 0 ≤ a ∧ a < g.vertices := by
  intro p
  induction p with
  | nil => intro a hw; exact absurd hw id
  | cons x rest ih =>
    intro a hw hl
    cases rest with
    | nil =>
      simp only [List.getLast?_singleton, Option.some.injEq] at hl
      subst hl; exact hw
    | cons y rest' =>
      rw [List.getLast?_cons_cons] at hl
      exact ih hw.2.2.2 hl

theorem walkWeight_nonneg {g : Graph} (hg : NonNegWeights g) : ∀ (p : List Int), IsWalk g p →
    0 ≤ walkWeight g p := by
  intro p
  induction p with
  | nil => intro hw; exact absurd hw id
  | cons x rest ih =>
    intro hw
    cases rest with
    | nil => exact le_refl _
    | cons y rest' =>
      have hy := isWalk_head_range hw.2.2.2 rfl
      have h1 := hg x y hw.1 hw.2.1 hy.1 hy.2
      have h2 := ih hw.2.2.2
      simp only [walkWeight]
      omega

theorem isWalk_snoc {g : Graph} : ∀ (p : List Int) (a b : Int), IsWalk g p →
    p.getLast? = some a → 0 ≤ b → b < g.vertices → g.adj a b ≠ INF →
    IsWalk g (p ++ [b]) ∧ walkWeight g (p ++ [b]) = walkWeight g p + g.adj a b ∧
      (p ++ [b]).head? = p.head? := by
  intro p
  induction p with
  | nil => intro a b hw; exact absurd hw id
  | cons x rest ih =>
    intro a b hw hl hb hb' he
    cases rest with
    | nil =>
      simp only [List.getLast?_singleton, Option.some.injEq] at hl
      subst hl
      refine ⟨⟨hw.1, hw.2, he, hb, hb'⟩, ?_, rfl⟩
      simp [walkWeight]
    | cons y rest' =>
      rw [List.getLast?_cons_cons] at hl
      obtain ⟨h1, h2, _⟩ := ih a b hw.2.2.2 hl hb hb' he
      refine ⟨⟨hw.1, hw.2.1, hw.2.2.1, h1⟩, ?_, rfl⟩
      show g.adj x y + walkWeight g (y :: rest' ++ [b]) = g.adj x y + walkWeight g (y :: rest') + _
      rw [h2]; omega

/-! ## Walking the parent links -/

theorem walkBack_length (parent : Int → Int) : ∀ (fuel : Nat) (v : Int) (c : List Int),
    walkBack parent fuel v = some c → c.length ≤ fuel := by
  intro fuel
  induction fuel with
  | zero =>
    intro v c h
    simp only [walkBack] at h
    split_ifs at h
    simp only [Option.some.injEq] at h
    subst h; simp
  | succ f ih =>
    intro v c h
    simp only [walkBack] at h
    split_ifs at h with hv
    · cases hr : walkBack parent f (parent v) with
      | none => rw [hr] at h; simp at h
      | some t =>
        rw [hr] at h
        simp only [Option.map_some', Option.some.injEq] at h
        subst h
        have := ih _ _ hr
        simp only [List.length_cons]; omega
    · simp only [Option.some.injEq] at h
      subst h; simp

theorem walkBack_mono (parent : Int → Int) : ∀ (fuel : Nat) (v : Int) (c : List Int),
    walkBack parent fuel v = some c → ∀ fuel', fuel ≤ fuel' → walkBack parent fuel' v = some c := by
  intro fuel
  induction fuel with
  | zero =>
    intro v c h fuel' _
    simp only [walkBack] at h
    split_ifs at h with hv
    cases fuel' with
    | zero => simp only [walkBack, if_neg hv]; exact h
    | succ f' => simp only [walkBack, if_neg hv]; exact h
  | succ f ih =>
    intro v c h fuel' hle
    obtain ⟨f', rfl⟩ : ∃ f', fuel' = f' + 1 := ⟨fuel' - 1, by omega⟩
    simp only [walkBack] at h ⊢
    split_ifs at h ⊢ with hv
    · cases hr : walkBack parent f (parent v) with
      | none => rw [hr] at h; simp at h
      | some t =>
        rw [hr] at h
        rw [ih _ _ hr f' (by omega)]
        exact h
    · exact h

theorem Inv.chain {g : Graph} {src : Int} {S : Int → Bool} {time : Int → Nat} {k : Nat}
    {u j : Int} {dist parent : Int → Int}
    (hinv : Inv g src S time k u j dist parent) (hs : 0 ≤ src) (hs' : src < g.vertices) :
    ∀ (t : Nat) (v : Int), 0 ≤ v → v < g.vertices → dist v ≠ INF →
      (S v = true → time v ≤ t) → (S v = false → k ≤ t) →
      ∃ c, walkBack parent (t + 1) v = some c ∧ GoodChain g src dist v c := by
  intro t
  induction t with
  | zero =>
    intro v hv hv' hd h1 h2
    by_cases hvs : v = src
    · subst hvs
      refine ⟨[v], ?_, rfl, ?_, ?_⟩
      · simp only [walkBack]
        rw [if_pos (by omega), hinv.parent_src]
        simp
      · exact ⟨⟨hv, hv'⟩, rfl, rfl⟩
      · simp [walkWeight, hinv.dist_src]
    · exfalso
      obtain ⟨p0, p1, p2, _, _, _, p6⟩ := hinv.parent_edge v hv hv' hd hvs
      have := hinv.time_lt _ p0 p1 p2
      cases hSv : S v with
      | true => have := p6 hSv; have := h1 hSv; omega
      | false => have := h2 hSv; omega
  | succ t ih =>
    intro v hv hv' hd h1 h2
    by_cases hvs : v = src
    · subst hvs
      refine ⟨[v], ?_, rfl, ?_, ?_⟩
      · simp only [walkBack]
        rw [if_pos (by omega), hinv.parent_src]
        simp [walkBack]
      · exact ⟨⟨hv, hv'⟩, rfl, rfl⟩
      · simp [walkWeight, hinv.dist_src]
    · obtain ⟨p0, p1, p2, p3, p4, p5, p6⟩ := hinv.parent_edge v hv hv' hd hvs
      have hlt := hinv.time_lt _ p0 p1 p2
      have hpt : time (parent v) ≤ t := by
        cases hSv : S v with
        | true => have := p6 hSv; have := h1 hSv; omega
        | false => have := h2 hSv; omega
      obtain ⟨c, hc, hh, ⟨hw, hwh, hwl⟩, hww⟩ := ih (parent v) p0 p1 p4 (fun _ => hpt)
        (fun h => by rw [p2] at h; exact Bool.noConfusion h)
      have hlast : c.reverse.getLast? = some (parent v) := by
        rw [List.getLast?_reverse]; exact hh
      obtain ⟨s1, s2, s3⟩ := isWalk_snoc c.reverse (parent v) v hw hlast hv hv' p3
      refine ⟨v :: c, ?_, rfl, ?_, ?_⟩
      · rw [walkBack, if_pos (by omega), hc]; rfl
      · rw [List.reverse_cons]
        exact ⟨s1, by rw [s3]; exact hwh, by simp⟩
      · rw [List.reverse_cons, s2, hww, p5]

theorem unsettledCount_pos (S : Int → Bool) : ∀ (m : Nat) (a : Int), 0 ≤ a → a < m →
    S a = false → 1 ≤ unsettledCount S m := by
  intro m
  induction m with
  | zero => intro a h0 h1; omega
  | succ m ih =>
    intro a h0 h1 hS
    simp only [unsettledCount]
    by_cases e : a = m
    · subst e; simp [hS]
    · have := ih a h0 (by push_cast at h1; omega) hS
      omega

/-- Every vertex with a finite distance has a good parent chain of at most `vertices`
entries. -/
theorem Inv.chain_exists {g : Graph} {src : Int} {S : Int → Bool} {time : Int → Nat} {k : Nat}
    {u j : Int} {dist parent : Int → Int}
    (hinv : Inv g src S time k u j dist parent) (hs : 0 ≤ src) (hs' : src < g.vertices)
    (v : Int) (hv : 0 ≤ v) (hv' : v < g.vertices) (hd : dist v ≠ INF)
    (fuel : Nat) (hf : g.vertices.toNat ≤ fuel) :
    ∃ c, walkBack parent fuel v = some c ∧ c.length ≤ g.vertices.toNat ∧
      GoodChain g src dist v c := by
  have hcount := hinv.count
  obtain ⟨c, hc, hgood⟩ := hinv.chain hs hs' (g.vertices.toNat - 1) v hv hv' hd
    (fun h => by have := hinv.time_lt v hv hv' h; omega)
    (fun h => by have := unsettledCount_pos S g.vertices.toNat v hv (by omega) h; omega)
  have e : g.vertices.toNat - 1 + 1 = g.vertices.toNat := by omega
  rw [e] at hc
  exact ⟨c, walkBack_mono _ _ _ _ hc fuel hf, walkBack_length _ _ _ _ hc, hgood⟩

/-! ## Lower bounds -/

theorem Closed.walk_lower {g : Graph} {dist : Int → Int} (hc : Closed g dist) :
    ∀ (p : List Int) (a v : Int), IsWalk g p → p.head? = some a → p.getLast? = some v →
      dist a ≠ INF → dist v ≠ INF ∧ dist v ≤ dist a + walkWeight g p := by
  intro p
  induction p with
  | nil => intro a v hw; exact absurd hw id
  | cons x rest ih =>
    intro a v hw hh hl hd
    simp only [List.head?_cons, Option.some.injEq] at hh
    subst hh
    cases rest with
    | nil =>
      simp only [List.getLast?_singleton, Option.some.injEq] at hl
      subst hl
      exact ⟨hd, by simp [walkWeight]⟩
    | cons y rest' =>
      rw [List.getLast?_cons_cons] at hl
      have hy := isWalk_head_range hw.2.2.2 rfl
      obtain ⟨h1, h2⟩ := hc x y hw.1 hw.2.1 hy.1 hy.2 hd hw.2.2.1
      obtain ⟨h3, h4⟩ := ih y v hw.2.2.2 rfl hl h1
      refine ⟨h3, ?_⟩
      simp only [walkWeight]
      omega

theorem Inv.closed {g : Graph} {src : Int} {S : Int → Bool} {time : Int → Nat} {k : Nat}
    {u : Int} {dist parent : Int → Int} (hg : NonNegWeights g) (ht : totalWeight g < INF)
    (hinv : Inv g src S time k u g.vertices dist parent) (he : Exhausted g S dist) :
    Closed g dist := by
  intro x v hx hx' hv hv' hd hev
  cases hSx : S x with
  | true =>
    obtain ⟨_, _, h3, _⟩ := hinv.sum_bounds hg ht x hx hx' hSx hd v hv hv' hev
    have := hinv.relaxed x hx hx' hSx hd v hv hv' hev (fun _ => hv')
    exact ⟨by omega, this⟩
  | false =>
    rcases he with he | he
    · exact absurd (he x hx hx' hSx) hd
    · have hw := hg x v hx hx' hv hv'
      cases hSv : S v with
      | true =>
        have := hinv.settled_le v hv hv' hSv x hx hx' hSx
        have := (hinv.dist_range x hx hx').2
        exact ⟨by omega, by omega⟩
      | false =>
        have := unsettled_unique S _ he x v hx (by omega) hSx hv (by omega) hSv
        subst this
        exact ⟨hd, by omega⟩

theorem reachable_of_goodChain {g : Graph} {src : Int} {dist : Int → Int} {v : Int}
    {c : List Int} (h : GoodChain g src dist v c) : Reachable g src v :=
  ⟨c.reverse, h.2.1⟩

theorem Inv.shortest {g : Graph} {src : Int} {S : Int → Bool} {time : Int → Nat} {k : Nat}
    {u : Int} {dist parent : Int → Int} (hg : NonNegWeights g) (ht : totalWeight g < INF)
    (hinv : Inv g src S time k u g.vertices dist parent) (hs : 0 ≤ src)
    (hs' : src < g.vertices) (he : Exhausted g S dist) : ShortestFrom g src dist := by
  have hc := hinv.closed hg ht he
  have hsrc : dist src ≠ INF := by rw [hinv.dist_src]; decide
  intro v hv hv'
  have hlow : ∀ p, IsPath g src v p → dist v ≠ INF ∧ dist v ≤ walkWeight g p := by
    intro p hp
    have := hc.walk_lower p src v hp.1 hp.2.1 hp.2.2 hsrc
    rw [hinv.dist_src] at this
    exact ⟨this.1, by omega⟩
  constructor
  · rintro ⟨p, hp⟩
    have hd := (hlow p hp).1
    obtain ⟨c, _, _, hgood⟩ := hinv.chain_exists hs hs' v hv hv' hd _ (le_refl _)
    exact ⟨hd, ⟨c.reverse, hgood.2.1, hgood.2.2⟩, fun q hq => (hlow q hq).2⟩
  · intro hnr
    by_contra hd
    obtain ⟨c, _, _, hgood⟩ := hinv.chain_exists hs hs' v hv hv' hd _ (le_refl _)
    exact hnr (reachable_of_goodChain hgood)

theorem ShortestFrom.unique {g : Graph} {src : Int} {d1 d2 : Int → Int}
    (h1 : ShortestFrom g src d1) (h2 : ShortestFrom g src d2) (v : Int) (hv : 0 ≤ v)
    (hv' : v < g.vertices) : d1 v = d2 v := by
  by_cases hr : Reachable g src v
  · obtain ⟨_, ⟨p1, hp1, hw1⟩, hl1⟩ := (h1 v hv hv').1 hr
    obtain ⟨_, ⟨p2, hp2, hw2⟩, hl2⟩ := (h2 v hv hv').1 hr
    have := hl1 p2 hp2
    have := hl2 p1 hp1
    omega
  · rw [(h1 v hv hv').2 hr, (h2 v hv hv').2 hr]

/-! ## Dense variant -/

theorem forLoop_succ {σ : Type} (body : Int → σ → σ) (k : Nat) (s : σ) :
    forLoop body (k + 1) s = body (k : Int) (forLoop body k s) := rfl

theorem minDistance_aux (dist : Int → Int) (visited : Int → Bool) (m : Nat) :
    let acc := forLoop (fun v (acc : Int × Int) =>
      if visited v = false ∧ dist v < acc.1 then (dist v, v) else acc) m (INF, -1)
    (acc.2 = -1 ∧ acc.1 = INF ∧
        ∀ v, 0 ≤ v → v < (m : Int) → visited v = false → INF ≤ dist v) ∨
      (0 ≤ acc.2 ∧ acc.2 < (m : Int) ∧ visited acc.2 = false ∧ acc.1 = dist acc.2 ∧
        acc.1 < INF ∧ ∀ v, 0 ≤ v → v < (m : Int) → visited v = false → acc.1 ≤ dist v) := by
  induction m with
  | zero =>
    left
    exact ⟨rfl, rfl, fun v h0 h1 => by simp at h1; omega⟩
  | succ m ih =>
    simp only [forLoop_succ]
    generalize forLoop (fun v (acc : Int × Int) =>
      if visited v = false ∧ dist v < acc.1 then (dist v, v) else acc) m (INF, -1) = acc at ih ⊢
    simp only at ih
    by_cases hc : visited (m : Int) = false ∧ dist (m : Int) < acc.1
    · rw [if_pos hc]
      right
      refine ⟨?_, ?_, hc.1, rfl, ?_, ?_⟩
      · show (0 : Int) ≤ (m : Int)
        omega
      · show (m : Int) < ((m + 1 : Nat) : Int)
        push_cast; omega
      · show dist (m : Int) < INF
        rcases ih with ih | ih
        · have := ih.2.1; omega
        · have := ih.2.2.2.2.1; omega
      · intro v h0 h1 hv
        show dist (m : Int) ≤ dist v
        by_cases e : v = m
        · rw [e]
        · rcases ih with ih | ih
          · have := ih.2.2 v h0 (by push_cast at h1; omega) hv
            have := ih.2.1
            omega
          · have := ih.2.2.2.2.2 v h0 (by push_cast at h1; omega) hv
            omega
    · simp only [if_neg hc]
      have hm : visited (m : Int) = false → acc.1 ≤ dist (m : Int) := by
        intro h
        have := not_and.1 hc h
        omega
      rcases ih with ih | ih
      · left
        refine ⟨ih.1, ih.2.1, ?_⟩
        intro v h0 h1 hv
        by_cases e : v = m
        · rw [e] at hv ⊢
          have := hm hv
          have := ih.2.1
          omega
        · exact ih.2.2 v h0 (by push_cast at h1; omega) hv
      · right
        refine ⟨ih.1, by push_cast; omega, ih.2.2.1, ih.2.2.2.1, ih.2.2.2.2.1, ?_⟩
        intro v h0 h1 hv
        by_cases e : v = m
        · rw [e] at hv ⊢
          exact hm hv
        · exact ih.2.2.2.2.2 v h0 (by push_cast at h1; omega) hv

theorem minDistance_spec (dist : Int → Int) (visited : Int → Bool) (n : Int) :
    (minDistance dist visited n = -1 ∧
        ∀ v, 0 ≤ v → v < n → visited v = false → INF ≤ dist v) ∨
      (0 ≤ minDistance dist visited n ∧ minDistance dist visited n < n ∧
        visited (minDistance dist visited n) = false ∧
        dist (minDistance dist visited n) < INF ∧
        ∀ v, 0 ≤ v → v < n → visited v = false →
          dist (minDistance dist visited n) ≤ dist v) := by
  have h := minDistance_aux dist visited n.toNat
  simp only at h
  unfold minDistance
  generalize forLoop (fun v (acc : Int × Int) =>
      if visited v = false ∧ dist v < acc.1 then (dist v, v) else acc) n.toNat (INF, -1) = acc at h ⊢
  rcases h with h | h
  · left
    exact ⟨h.1, fun v h0 h1 hv => h.2.2 v h0 (by omega) hv⟩
  · right
    obtain ⟨h1, h2, h3, h4, h5, h6⟩ := h
    refine ⟨h1, by omega, h3, by omega, ?_⟩
    intro v h0 hv hvv
    have := h6 v h0 (by omega) hvv
    omega

theorem relaxDense_eq (g : Graph) (u v : Int) (s : DState) :
    relaxDense g u v s =
      if s.visited v = false then
        { s with dist := (relaxCore g u v (s.dist, s.parent)).1
                 parent := (relaxCore g u v (s.dist, s.parent)).2 }
      else s := by
  unfold relaxDense relaxCore
  by_cases h1 : s.visited v = false
  · by_cases h2 : g.adj u v ≠ INF ∧ s.dist u ≠ INF ∧ addInt (s.dist u) (g.adj u v) < s.dist v
    · rw [if_pos ⟨h1, h2⟩, if_pos h1, if_pos h2]
    · rw [if_neg (fun h => h2 h.2), if_pos h1, if_neg h2]
  · rw [if_neg (fun h => h1 h.1), if_neg h1]

theorem relaxDense_loop {g : Graph} {src : Int} {time : Int → Nat} {k : Nat} {u : Int}
    (hg : NonNegWeights g) (ht : totalWeight g < INF) (s : DState)
    (hinv : Inv g src s.visited time k u 0 s.dist s.parent)
    (hu : 0 ≤ u) (hu' : u < g.vertices) (hSu : s.visited u = true) :
    ∀ m : Nat, (m : Int) ≤ g.vertices →
      (forLoop (relaxDense g u) m s).visited = s.visited ∧
      Inv g src s.visited time k u (m : Int) (forLoop (relaxDense g u) m s).dist
        (forLoop (relaxDense g u) m s).parent := by
  intro m
  induction m with
  | zero => intro _; exact ⟨rfl, hinv⟩
  | succ m ih =>
    intro hm
    obtain ⟨hv, hi⟩ := ih (by push_cast at hm; omega)
    rw [forLoop_succ, relaxDense_eq]
    generalize forLoop (relaxDense g u) m s = sm at hv hi ⊢
    obtain ⟨h1, h2⟩ := hi.relax hg ht hu hu' hSu (by omega) (by push_cast at hm; omega)
    by_cases hvis : sm.visited (m : Int) = false
    · rw [if_pos hvis]
      refine ⟨hv, ?_⟩
      push_cast
      exact h1
    · rw [if_neg hvis]
      refine ⟨hv, ?_⟩
      have ht : s.visited (m : Int) = true := by
        rw [hv] at hvis; simpa using hvis
      rw [h2 ht] at h1
      push_cast
      exact h1

/-- One round of the dense loop from a state satisfying the invariant. -/
theorem dense_round {g : Graph} {src : Int} {time : Int → Nat} {k : Nat} {u0 : Int}
    (hg : NonNegWeights g) (ht : totalWeight g < INF) (s : DState)
    (hinv : Inv g src s.visited time k u0 g.vertices s.dist s.parent)
    (u : Int) (hu : 0 ≤ u) (hu' : u < g.vertices) (hS : s.visited u = false)
    (hmin : ∀ v, 0 ≤ v → v < g.vertices → s.visited v = false → s.dist u ≤ s.dist v) :
    let s' := forLoop (relaxDense g u) g.vertices.toNat
      { s with visited := setAt s.visited u true }
    s'.visited = setAt s.visited u true ∧
      Inv g src s'.visited (setAt time u k) (k + 1) u g.vertices s'.dist s'.parent := by
  intro s'
  have h1 := hinv.select hg u hu hu' hS hmin
  have h2 := relaxDense_loop hg ht { s with visited := setAt s.visited u true } h1 hu hu'
    (by simp) g.vertices.toNat (by omega)
  have e : ((g.vertices.toNat : Nat) : Int) = g.vertices := by omega
  rw [e] at h2
  refine ⟨h2.1, ?_⟩
  show Inv g src s'.visited _ _ _ _ _ _
  rw [show s'.visited = setAt s.visited u true from h2.1]
  exact h2.2

theorem dijkstraLoop_spec {g : Graph} {src : Int} (hg : NonNegWeights g)
    (ht : totalWeight g < INF) :
    ∀ (r : Nat) (s : DState) (time : Int → Nat) (k : Nat) (u0 : Int),
      Inv g src s.visited time k u0 g.vertices s.dist s.parent →
      unsettledCount s.visited g.vertices.toNat ≤ r + 1 →
      ∃ time' k' u', Inv g src (dijkstraLoop g r s).visited time' k' u' g.vertices
          (dijkstraLoop g r s).dist (dijkstraLoop g r s).parent ∧
        Exhausted g (dijkstraLoop g r s).visited (dijkstraLoop g r s).dist := by
  intro r
  induction r with
  | zero =>
    intro s time k u0 hinv hc
    exact ⟨time, k, u0, hinv, Or.inr hc⟩
  | succ r ih =>
    intro s time k u0 hinv hc
    simp only [dijkstraLoop]
    rcases minDistance_spec s.dist s.visited g.vertices with ⟨h1, h2⟩ | ⟨h1, h2, h3, h4, h5⟩
    · rw [if_pos h1]
      refine ⟨time, k, u0, hinv, Or.inl ?_⟩
      intro v hv hv' hS
      have := h2 v hv hv' hS
      have := (hinv.dist_range v hv hv').2
      omega
    · rw [if_neg (by omega)]
      obtain ⟨e1, e2⟩ := dense_round hg ht s hinv _ h1 h2 h3 h5
      apply ih _ _ _ _ e2
      have := e2.count
      have := hinv.count
      omega

theorem initDense_aux (m : Nat) :
    let s := forLoop (fun i (s : DState) =>
      ({ dist := setAt s.dist i INF, visited := setAt s.visited i false,
         parent := setAt s.parent i (-1) } : DState))
      m { dist := fun _ => 0, visited := fun _ => false, parent := fun _ => 0 }
    (∀ i, 0 ≤ i → i < (m : Int) → s.dist i = INF ∧ s.parent i = -1) ∧
      ∀ i, s.visited i = false := by
  induction m with
  | zero => exact ⟨fun i h0 h1 => by simp at h1; omega, fun _ => rfl⟩
  | succ m ih =>
    simp only [forLoop_succ]
    simp only at ih
    obtain ⟨h1, h2⟩ := ih
    constructor
    · intro i h0 hi
      by_cases e : i = m
      · rw [e]; simp
      · simp only [setAt_ne _ _ e]
        exact h1 i h0 (by push_cast at hi; omega)
    · intro i
      simp only [setAt_apply]
      split_ifs
      · rfl
      · exact h2 i

theorem unsettledCount_all (S : Int → Bool) (m : Nat)
    (h : ∀ i : Int, 0 ≤ i → i < (m : Int) → S i = false) : unsettledCount S m = m := by
  induction m with
  | zero => rfl
  | succ m ih =>
    simp only [unsettledCount]
    rw [ih (fun i h0 h1 => h i h0 (by push_cast; omega)), h m (by omega) (by push_cast; omega)]
    simp

/-- The invariant holds for the initial tables: `INF`/`-1` everywhere, `dist[src] = 0`,
nothing settled. -/
theorem Inv.init {g : Graph} {src : Int} (hg : NonNegWeights g) (hs : 0 ≤ src)
    (hs' : src < g.vertices) (S : Int → Bool) (dist parent : Int → Int)
    (hS : ∀ i, 0 ≤ i → i < g.vertices → S i = false)
    (hd : ∀ i, 0 ≤ i → i < g.vertices → i ≠ src → dist i = INF) (hd0 : dist src = 0)
    (hp : ∀ i, 0 ≤ i → i < g.vertices → parent i = -1) :
    Inv g src S (fun _ => 0) 0 0 g.vertices dist parent := by
  have hSf : ∀ x, 0 ≤ x → x < g.vertices → S x = true → False := by
    intro x hx hx' h
    rw [hS x hx hx'] at h
    exact Bool.noConfusion h
  exact {
    dist_src := hd0
    parent_src := hp src hs hs'
    dist_range := by
      intro v hv hv'
      by_cases e : v = src
      · rw [e, hd0]; decide
      · rw [hd v hv hv' e]; decide
    parent_inf := fun v hv hv' _ => hp v hv hv'
    parent_edge := fun v hv hv' h1 h2 => absurd (hd v hv hv' h2) h1
    time_lt := fun v hv hv' h => (hSf v hv hv' h).elim
    relaxed := fun x hx hx' h => (hSf x hx hx' h).elim
    settled_le := fun x hx hx' h => (hSf x hx hx' h).elim
    latest := fun x hx hx' h => (hSf x hx hx' h).elim
    bound_settled := fun x hx hx' h => (hSf x hx hx' h).elim
    bound_unsettled := by
      intro v hv hv' _ hdv
      have e : v = src := by
        by_contra e
        exact hdv (hd v hv hv' e)
      rw [e, hd0]
      apply sumTo_nonneg
      intro i hi hi'
      split_ifs
      · exact rowWeight_nonneg g hg i hi (by omega)
      · exact le_refl _
    src_first := fun _ v hv hv' e => hd v hv hv' e
    count := by
      rw [unsettledCount_all S _ (fun i h0 h1 => hS i h0 (by omega))]
      rfl }

theorem initDense_inv {g : Graph} {src : Int} (hg : NonNegWeights g) (hs : 0 ≤ src)
    (hs' : src < g.vertices) :
    Inv g src (initDense g src).visited (fun _ => 0) 0 0 g.vertices (initDense g src).dist
      (initDense g src).parent ∧ ∀ i, (initDense g src).visited i = false := by
  have h := initDense_aux g.vertices.toNat
  simp only at h
  obtain ⟨h1, h2⟩ := h
  refine ⟨Inv.init hg hs hs' _ _ _ (fun i _ _ => h2 i) ?_ ?_ ?_, h2⟩
  · intro i hi hi' e
    show setAt _ src 0 i = INF
    rw [setAt_ne _ _ e]
    exact (h1 i hi (by omega)).1
  · show setAt _ src 0 src = 0
    simp
  · intro i hi hi'
    exact (h1 i hi (by omega)).2

/-- Final state of the dense variant: the invariant holds and the run is exhausted. -/
theorem dijkstra_final {g : Graph} {src : Int} (hw : WellFormed g) (hs : 0 ≤ src)
    (hs' : src < g.vertices) :
    ∃ time k u, Inv g src (dijkstra g src).visited time k u g.vertices (dijkstra g src).dist
        (dijkstra g src).parent ∧
      Exhausted g (dijkstra g src).visited (dijkstra g src).dist := by
  obtain ⟨h1, _, hg, ht⟩ := hw
  obtain ⟨hi, hv⟩ := initDense_inv hg hs hs'
  apply dijkstraLoop_spec hg ht _ _ _ _ _ hi
  have := hi.count
  omega

/-! ## Heap variant -/

theorem Inv.relax_guard {g : Graph} {src : Int} {S : Int → Bool} {time : Int → Nat} {k : Nat}
    {u j : Int} {dist parent : Int → Int} (hg : NonNegWeights g) (ht : totalWeight g < INF)
    (hinv : Inv g src S time k u j dist parent)
    (hu : 0 ≤ u) (hu' : u < g.vertices) (hSu : S u = true)
    (hj : 0 ≤ j) (hj' : j < g.vertices)
    (hc : g.adj u j ≠ INF ∧ dist u ≠ INF ∧ addInt (dist u) (g.adj u j) < dist j) :
    S j = false ∧ addInt (dist u) (g.adj u j) = dist u + g.adj u j ∧
      0 ≤ dist u + g.adj u j := by
  obtain ⟨he, hd, hlt⟩ := hc
  obtain ⟨hs0, hsW, hsI, hadd⟩ := hinv.sum_bounds hg ht u hu hu' hSu hd j hj hj' he
  rw [hadd] at hlt
  refine ⟨?_, hadd, hs0⟩
  by_contra hcon
  have hSj : S j = true := by simpa using hcon
  have := hinv.latest j hj hj' hSj
  have := hg u j hu hu' hj hj'
  omega

theorem HeapInv.pos_of_present {g : Graph} {S : Int → Bool} {dist : Int → Int} {h : MinHeap}
    {k : Nat} (hi : HeapInv g S dist h k) {v : Int} (hp : Present h v) :
    0 ≤ h.pos v ∧ h.pos v < h.size ∧ (h.data (h.pos v)).vertex = v := by
  obtain ⟨i, h0, h1, e⟩ := hp
  have := hi.pos_ok i h0 h1
  rw [e] at this
  rw [this]
  exact ⟨h0, h1, e⟩

theorem HeapInv.unsettled_of_present {g : Graph} {S : Int → Bool} {dist : Int → Int}
    {h : MinHeap} {k : Nat} (hi : HeapInv g S dist h k) {v : Int} (hv : 0 ≤ v)
    (hv' : v < g.vertices) (hp : Present h v) : S v = false := by
  have h1 := hi.pos_of_present hp
  cases hS : S v with
  | false => rfl
  | true =>
    have := (hi.settled_iff v hv hv').1 hS
    omega

theorem HeapInv.isInMinHeap_true {g : Graph} {S : Int → Bool} {dist : Int → Int} {h : MinHeap}
    {k : Nat} (hi : HeapInv g S dist h k) (v : Int) (hv : 0 ≤ v) (hv' : v < g.vertices) :
    isInMinHeap h v = true := by
  unfold isInMinHeap
  rw [decide_eq_true_iff]
  cases hS : S v with
  | false =>
    have := hi.pos_of_present (hi.present_of_unsettled v hv hv' hS)
    omega
  | true =>
    have := (hi.settled_iff v hv hv').1 hS
    have := hi.size_nonneg
    omega

/-- Transfer of the heap invariant along a heap operation that keeps the set of stored
vertices. -/
theorem HeapInv.transfer {g : Graph} {S : Int → Bool} {dist dist' : Int → Int}
    {h h' : MinHeap} {k : Nat} (hi : HeapInv g S dist h k)
    (hsz : h'.size = h.size) (hpc : PosConsistent h') (hord : HeapOrder h')
    (hpres : ∀ v, Present h' v ↔ Present h v)
    (habs : ∀ v, ¬ Present h v → h'.pos v = h.pos v)
    (hnode : ∀ i, 0 ≤ i → i < h'.size → 0 ≤ (h'.data i).vertex ∧
      (h'.data i).vertex < g.vertices ∧ (h'.data i).distance = dist' (h'.data i).vertex) :
    HeapInv g S dist' h' k := by
  have hpp : ∀ v, Present h' v → 0 ≤ h'.pos v := by
    rintro v ⟨i, h0, h1, e⟩
    have := hpc i h0 h1
    rw [e] at this
    omega
  exact {
    size_k := by rw [hsz]; exact hi.size_k
    size_nonneg := by rw [hsz]; exact hi.size_nonneg
    pos_ok := hpc
    order := hord
    node_ok := hnode
    settled_iff := by
      intro v hv hv'
      by_cases hp : Present h v
      · have h1 := hi.unsettled_of_present hv hv' hp
        have h2 := hpp v ((hpres v).2 hp)
        rw [h1]
        constructor
        · intro h; exact Bool.noConfusion h
        · intro h; omega
      · rw [habs v hp]
        exact hi.settled_iff v hv hv'
    present_of_unsettled := fun v hv hv' hS =>
      (hpres v).2 (hi.present_of_unsettled v hv hv' hS) }

theorem setKey_setKey (h : MinHeap) (i a : Int) : setKey (setKey h i a) i a = setKey h i a := by
  unfold setKey
  simp only [setAt_same]
  congr 1
  funext k
  simp only [setAt_apply]
  split_ifs <;> rfl

/-- The key decrease performed by a firing relaxation keeps the heap invariant. -/
theorem HeapInv.decreaseKey_inv {g : Graph} {S : Int → Bool} {dist : Int → Int} {h : MinHeap}
    {k : Nat} (hi : HeapInv g S dist h k) (fuel : Nat) (hf : g.vertices.toNat ≤ fuel)
    (v : Int) (hv : 0 ≤ v) (hv' : v < g.vertices) (hS : S v = false) (nd : Int)
    (hnd : nd ≤ dist v) :
    ∃ h', decreaseKey fuel h v nd = some h' ∧ HeapInv g S (setAt dist v nd) h' k := by
  obtain ⟨p0, p1, p2⟩ := hi.pos_of_present (hi.present_of_unsettled v hv hv' hS)
  have hsk := hi.size_k
  rw [decreaseKey_eq]
  obtain ⟨h', e, hsz, hperm, hpc, hpos, hord⟩ :=
    siftUp_spec fuel (setKey h (h.pos v) nd) (h.pos v) p0 p1 (by omega)
  refine ⟨h', e, ?_⟩
  have hkey := (hi.node_ok _ p0 p1).2.2
  rw [p2] at hkey
  apply hi.transfer (by rw [hsz]; rfl) (hpc (setKey_posConsistent h _ _ hi.pos_ok))
    (hord (setKey_orderExceptUp h _ _ p0 p1 (by omega) hi.order))
  · intro w
    rw [present_of_perm hperm w, setKey_present]
  · intro w hw
    rw [hpos w (fun hp => hw ((setKey_present h _ _ w).1 hp))]
    rfl
  · intro i h0 h1
    have hmem : h'.data i ∈ slots h' := mem_slots.2 ⟨i, h0, h1, rfl⟩
    obtain ⟨i0, q0, q1, q2⟩ := mem_slots.1 (hperm.mem_iff.1 hmem)
    rw [← q2]
    have q1' : i0 < h.size := q1
    by_cases e0 : i0 = h.pos v
    · subst e0
      simp only [setKey, setAt_same]
      rw [p2, setAt_same]
      exact ⟨hv, hv', rfl⟩
    · have hne : (h.data i0).vertex ≠ v := by
        intro e1
        have := hi.pos_ok i0 q0 q1'
        rw [e1] at this
        exact e0 this.symm
      simp only [setKey, setAt_ne _ _ e0, setAt_ne _ _ hne]
      exact hi.node_ok i0 q0 q1'

/-- Extraction of the minimum: the extracted vertex is an unsettled vertex of minimum
distance, and the heap invariant holds for the enlarged settled set. -/
theorem HeapInv.extractMin_inv {g : Graph} {S : Int → Bool} {dist : Int → Int} {h : MinHeap}
    {k : Nat} (hi : HeapInv g S dist h k) (fuel : Nat) (hf : g.vertices.toNat ≤ fuel)
    (hs : 0 < h.size) :
    ∃ r, extractMin fuel h = some r ∧
      0 ≤ r.1.vertex ∧ r.1.vertex < g.vertices ∧ S r.1.vertex = false ∧
      (∀ v, 0 ≤ v → v < g.vertices → S v = false → dist r.1.vertex ≤ dist v) ∧
      HeapInv g (setAt S r.1.vertex true) dist r.2 (k + 1) := by
  have hsk := hi.size_k
  obtain ⟨h', e, hsz, hperm, hpc, hpos, hord⟩ := extractMin_spec fuel h hs (by omega)
  obtain ⟨n0, n1, n2⟩ := hi.node_ok 0 (le_refl _) hs
  have hpr0 : Present h (h.data 0).vertex := ⟨0, le_refl _, hs, rfl⟩
  have hSu := hi.unsettled_of_present n0 n1 hpr0
  obtain ⟨hpc', hposu⟩ := hpc hi.pos_ok
  have hpres : ∀ v, v ≠ (h.data 0).vertex → Present h v → Present h' v := by
    rintro v hne ⟨i, h0, h1, e1⟩
    have hmem : h.data i ∈ slots h := mem_slots.2 ⟨i, h0, h1, rfl⟩
    have := hperm.mem_iff.2 hmem
    rcases List.mem_cons.1 this with h2 | h2
    · rw [h2] at e1; exact absurd e1.symm hne
    · obtain ⟨i', q0, q1, q2⟩ := mem_slots.1 h2
      exact ⟨i', q0, q1, by rw [q2]; exact e1⟩
  have hpp : ∀ v, Present h' v → 0 ≤ h'.pos v := by
    rintro v ⟨i, h0, h1, e1⟩
    have := hpc' i h0 h1
    rw [e1] at this
    omega
  refine ⟨(h.data 0, h'), e, n0, n1, hSu, ?_, ?_⟩
  · intro v hv hv' hSv
    obtain ⟨i, h0, h1, e1⟩ := hi.present_of_unsettled v hv hv' hSv
    have := root_le h hi.order i.toNat i (le_refl _) h0 h1
    have := (hi.node_ok i h0 h1).2.2
    rw [e1] at this
    show dist (h.data 0).vertex ≤ dist v
    omega
  · show HeapInv g (setAt S (h.data 0).vertex true) dist h' (k + 1)
    exact {
      size_k := by rw [hsz]; push_cast; omega
      size_nonneg := by rw [hsz]; omega
      pos_ok := hpc'
      order := hord hi.order
      node_ok := by
        intro i h0 h1
        have hmem : h'.data i ∈ slots h' := mem_slots.2 ⟨i, h0, h1, rfl⟩
        have := hperm.mem_iff.1 (List.mem_cons_of_mem _ hmem)
        obtain ⟨i0, q0, q1, q2⟩ := mem_slots.1 this
        rw [← q2]
        exact hi.node_ok i0 q0 q1
      settled_iff := by
        intro v hv hv'
        by_cases hvu : v = (h.data 0).vertex
        · rw [hvu, setAt_same, hposu]
          simp
        · rw [setAt_ne _ _ hvu]
          by_cases hp : Present h v
          · have h1 := hi.unsettled_of_present hv hv' hp
            have h2 := hpp v (hpres v hvu hp)
            rw [h1]
            constructor
            · intro h; exact Bool.noConfusion h
            · intro h; omega
          · rw [hpos v hp]
            exact hi.settled_iff v hv hv'
      present_of_unsettled := by
        intro v hv hv' hSv
        have hvu : v ≠ (h.data 0).vertex := by
          intro e1
          rw [e1, setAt_same] at hSv
          exact Bool.noConfusion hSv
        rw [setAt_ne _ _ hvu] at hSv
        exact hpres v hvu (hi.present_of_unsettled v hv hv' hSv) }

theorem relaxHeap_step {g : Graph} {src : Int} {S : Int → Bool} {time : Int → Nat} {k : Nat}
    {u j : Int} (hg : NonNegWeights g) (ht : totalWeight g < INF) (s : HState)
    (hinv : Inv g src S time k u j s.dist s.parent) (hh : HeapInv g S s.dist s.heap k)
    (hu : 0 ≤ u) (hu' : u < g.vertices) (hSu : S u = true)
    (hj : 0 ≤ j) (hj' : j < g.vertices) (fuel : Nat) (hf : g.vertices.toNat ≤ fuel) :
    ∃ s', relaxHeap fuel g u j (some s) = some s' ∧
      Inv g src S time k u (j + 1) s'.dist s'.parent ∧ HeapInv g S s'.dist s'.heap k := by
  have hin := hh.isInMinHeap_true j hj hj'
  have hrel := (hinv.relax hg ht hu hu' hSu hj hj').1
  by_cases hc : g.adj u j ≠ INF ∧ s.dist u ≠ INF ∧ addInt (s.dist u) (g.adj u j) < s.dist j
  · obtain ⟨hSj, hadd, _⟩ := hinv.relax_guard hg ht hu hu' hSu hj hj' hc
    have hr : relaxCore g u j (s.dist, s.parent)
        = (setAt s.dist j (addInt (s.dist u) (g.adj u j)), setAt s.parent j u) := by
      simp only [relaxCore]
      rw [if_pos hc]
    rw [hr] at hrel
    obtain ⟨h', e, hh'⟩ := hh.decreaseKey_inv fuel hf j hj hj' hSj
      (addInt (s.dist u) (g.adj u j)) (by omega)
    refine ⟨{ dist := setAt s.dist j (addInt (s.dist u) (g.adj u j))
              parent := setAt s.parent j u, heap := h' }, ?_, hrel, hh'⟩
    simp only [relaxHeap, Option.some_bind]
    rw [if_pos ⟨hc.1, hin, hc.2.1, hc.2.2⟩]
    simp only [setAt_same]
    rw [e]
    rfl
  · have hr : relaxCore g u j (s.dist, s.parent) = (s.dist, s.parent) := by
      simp only [relaxCore]
      rw [if_neg hc]
    rw [hr] at hrel
    refine ⟨s, ?_, hrel, hh⟩
    simp only [relaxHeap, Option.some_bind]
    rw [if_neg (fun h => hc ⟨h.1, h.2.2.1, h.2.2.2⟩)]

theorem relaxHeap_loop {g : Graph} {src : Int} {S : Int → Bool} {time : Int → Nat} {k : Nat}
    {u : Int} (hg : NonNegWeights g) (ht : totalWeight g < INF) (s : HState)
    (hinv : Inv g src S time k u 0 s.dist s.parent) (hh : HeapInv g S s.dist s.heap k)
    (hu : 0 ≤ u) (hu' : u < g.vertices) (hSu : S u = true)
    (fuel : Nat) (hf : g.vertices.toNat ≤ fuel) :
    ∀ m : Nat, (m : Int) ≤ g.vertices →
      ∃ s', forLoop (relaxHeap fuel g u) m (some s) = some s' ∧
        Inv g src S time k u (m : Int) s'.dist s'.parent ∧ HeapInv g S s'.dist s'.heap k := by
  intro m
  induction m with
  | zero => intro _; exact ⟨s, rfl, hinv, hh⟩
  | succ m ih =>
    intro hm
    obtain ⟨sm, e, hi, hh'⟩ := ih (by push_cast at hm; omega)
    obtain ⟨s', e', hi', hh''⟩ := relaxHeap_step hg ht sm hi hh' hu hu' hSu (by omega)
      (by push_cast at hm; omega) fuel hf
    refine ⟨s', ?_, ?_, hh''⟩
    · rw [forLoop_succ, e, e']
    · push_cast; exact hi'

theorem heapLoop_spec {g : Graph} {src : Int} (hg : NonNegWeights g)
    (ht : totalWeight g < INF) (hfuel : Nat) (hf : g.vertices.toNat ≤ hfuel) :
    ∀ (fuel : Nat) (s : HState) (S : Int → Bool) (time : Int → Nat) (k : Nat) (u0 : Int),
      Inv g src S time k u0 g.vertices s.dist s.parent → HeapInv g S s.dist s.heap k →
      s.heap.size.toNat < fuel →
      ∃ s' S' time' k' u', heapLoop hfuel g fuel s = some s' ∧
        Inv g src S' time' k' u' g.vertices s'.dist s'.parent ∧
        HeapInv g S' s'.dist s'.heap k' ∧ s'.heap.size = 0 := by
  intro fuel
  induction fuel with
  | zero => intro s S time k u0 _ _ h; omega
  | succ fuel ih =>
    intro s S time k u0 hinv hh hsz
    simp only [heapLoop]
    by_cases hs : s.heap.size > 0
    · rw [if_pos hs]
      obtain ⟨r, e, r0, r1, r2, r3, r4⟩ := hh.extractMin_inv hfuel hf hs
      rw [e, Option.some_bind]
      have hsel := hinv.select hg r.1.vertex r0 r1 r2 r3
      obtain ⟨s1, e1, hi1, hh1⟩ := relaxHeap_loop hg ht { s with heap := r.2 } hsel r4 r0 r1
        (by simp) hfuel hf g.vertices.toNat (by omega)
      rw [e1, Option.some_bind]
      have e2 : ((g.vertices.toNat : Nat) : Int) = g.vertices := by
        have := hh.size_k
        omega
      rw [e2] at hi1
      apply ih s1 _ _ _ _ hi1 hh1
      have := hh1.size_k
      have := hh.size_k
      omega
    · rw [if_neg hs]
      have := hh.size_nonneg
      exact ⟨s, S, time, k, u0, rfl, hinv, hh, by omega⟩

theorem createMinHeap_aux (m : Nat) :
    let h := forLoop (fun i (h : MinHeap) =>
      ({ h with pos := setAt h.pos i i
                data := setAt h.data i { vertex := i, distance := INF } } : MinHeap))
      m { data := fun _ => { vertex := 0, distance := 0 }, size := 0, pos := fun _ => 0 }
    h.size = 0 ∧ ∀ i, 0 ≤ i → i < (m : Int) →
      h.pos i = i ∧ h.data i = { vertex := i, distance := INF } := by
  induction m with
  | zero => exact ⟨rfl, fun i h0 h1 => by simp at h1; omega⟩
  | succ m ih =>
    simp only [forLoop_succ]
    simp only at ih
    obtain ⟨h1, h2⟩ := ih
    refine ⟨h1, ?_⟩
    intro i h0 hi
    by_cases e : i = m
    · rw [e]; simp
    · simp only [setAt_ne _ _ e]
      exact h2 i h0 (by push_cast at hi; omega)

theorem initHeap_aux (h0 : MinHeap) (m : Nat) :
    let s := forLoop (fun v (s : HState) =>
      ({ dist := setAt s.dist v INF
         parent := setAt s.parent v (-1)
         heap := { s.heap with
                   data := setAt s.heap.data v { vertex := v, distance := INF } } } : HState))
      m { dist := fun _ => 0, parent := fun _ => 0, heap := h0 }
    s.heap.size = h0.size ∧ s.heap.pos = h0.pos ∧
      ∀ i, 0 ≤ i → i < (m : Int) → s.dist i = INF ∧ s.parent i = -1 ∧
        s.heap.data i = { vertex := i, distance := INF } := by
  induction m with
  | zero => exact ⟨rfl, rfl, fun i h0 h1 => by simp at h1; omega⟩
  | succ m ih =>
    simp only [forLoop_succ]
    simp only at ih
    obtain ⟨h1, h2, h3⟩ := ih
    refine ⟨h1, h2, ?_⟩
    intro i h0 hi
    by_cases e : i = m
    · rw [e]; simp
    · simp only [setAt_ne _ _ e]
      exact h3 i h0 (by push_cast at hi; omega)

/-- The state at the head of the `while` loop: the heap invariant holds with nothing
settled, and the tables hold `INF`/`-1` except `dist[src] = 0`. -/
theorem initHeap_spec {g : Graph} {src : Int}
    (hs : 0 ≤ src) (hs' : src < g.vertices) (fuel : Nat) (hf : g.vertices.toNat ≤ fuel) :
    ∃ s, initHeap fuel g src = some s ∧
      HeapInv g (fun _ => false) s.dist s.heap 0 ∧ s.dist src = 0 ∧
      (∀ i, 0 ≤ i → i < g.vertices → i ≠ src → s.dist i = INF) ∧
      (∀ i, 0 ≤ i → i < g.vertices → s.parent i = -1) := by
  have hc := createMinHeap_aux g.vertices.toNat
  have ha := initHeap_aux (createMinHeap g.vertices) g.vertices.toNat
  simp only at hc ha
  unfold initHeap
  simp only
  generalize forLoop (fun v (s : HState) =>
      ({ dist := setAt s.dist v INF
         parent := setAt s.parent v (-1)
         heap := { s.heap with
                   data := setAt s.heap.data v { vertex := v, distance := INF } } } : HState))
      g.vertices.toNat
      { dist := fun _ => 0, parent := fun _ => 0, heap := createMinHeap g.vertices } = s0 at ha ⊢
  obtain ⟨-, a2, a3⟩ := ha
  have hpos : ∀ i, 0 ≤ i → i < g.vertices → s0.heap.pos i = i := by
    intro i h0 h1
    rw [a2]
    exact (hc.2 i h0 (by omega)).1
  have hdata : ∀ i, 0 ≤ i → i < g.vertices →
      s0.heap.data i = { vertex := i, distance := INF } :=
    fun i h0 h1 => (a3 i h0 (by omega)).2.2
  have hh0 : HeapInv g (fun _ => false) s0.dist { s0.heap with size := g.vertices } 0 := {
    size_k := by simp
    size_nonneg := by show 0 ≤ g.vertices; omega
    pos_ok := by
      intro i h0 h1
      show s0.heap.pos (s0.heap.data i).vertex = i
      rw [hdata i h0 h1]
      exact hpos i h0 h1
    order := by
      intro p c hp hc' hpc
      show (s0.heap.data p).distance ≤ (s0.heap.data c).distance
      have hc2 : c < g.vertices := hc'
      rw [hdata p hp (by omega), hdata c (by omega) hc2]
    node_ok := by
      intro i h0 h1
      show 0 ≤ (s0.heap.data i).vertex ∧ (s0.heap.data i).vertex < g.vertices ∧
        (s0.heap.data i).distance = s0.dist (s0.heap.data i).vertex
      have h1' : i < g.vertices := h1
      rw [hdata i h0 h1']
      exact ⟨h0, h1', (a3 i h0 (by omega)).1.symm⟩
    settled_iff := by
      intro v hv hv'
      show false = true ↔ s0.heap.pos v = -1
      rw [hpos v hv hv']
      constructor
      · intro h; exact Bool.noConfusion h
      · intro h; omega
    present_of_unsettled := by
      intro v hv hv' _
      exact ⟨v, hv, hv', by show (s0.heap.data v).vertex = v; rw [hdata v hv hv']⟩ }
  obtain ⟨h', e, hh'⟩ := hh0.decreaseKey_inv fuel hf src hs hs' rfl 0
    (by rw [(a3 src hs (by omega)).1]; decide)
  have e' : decreaseKey fuel
      { s0.heap with
        data := setAt s0.heap.data src { vertex := (s0.heap.data src).vertex, distance := 0 }
        size := g.vertices } src 0 = some h' := by
    rw [← e, decreaseKey_eq, decreaseKey_eq]
    show siftUp fuel (setKey (setKey { s0.heap with size := g.vertices } src 0)
      (s0.heap.pos src) 0) (s0.heap.pos src) =
      siftUp fuel (setKey { s0.heap with size := g.vertices } (s0.heap.pos src) 0)
        (s0.heap.pos src)
    rw [hpos src hs hs', setKey_setKey]
  rw [e']
  refine ⟨_, rfl, hh', ?_, ?_, ?_⟩
  · show setAt s0.dist src 0 src = 0
    simp
  · intro i h0 h1 hne
    show setAt s0.dist src 0 i = INF
    rw [setAt_ne _ _ hne]
    exact (a3 i h0 (by omega)).1
  · intro i h0 h1
    exact (a3 i h0 (by omega)).2.1

/-- Final state of the heap variant: the run returns, the invariant holds, and every
vertex has been extracted. -/
theorem dijkstraWithHeap_final {g : Graph} {src : Int} (hw : WellFormed g) (hs : 0 ≤ src)
    (hs' : src < g.vertices) (fuel : Nat) (hf : g.vertices.toNat < fuel) :
    ∃ s S time k u, dijkstraWithHeap fuel g src = some s ∧
      Inv g src S time k u g.vertices s.dist s.parent ∧ Exhausted g S s.dist ∧
      HeapInv g S s.dist s.heap k ∧ s.heap.size = 0 := by
  obtain ⟨h1, _, hg, ht⟩ := hw
  obtain ⟨s0, e0, hh0, d0, d1, d2⟩ := initHeap_spec hs hs' fuel (by omega)
  have hi0 := Inv.init hg hs hs' (fun _ => false) s0.dist s0.parent (fun _ _ _ => rfl) d1 d0 d2
  obtain ⟨s, S, time, k, u, e, hi, hh, hz⟩ := heapLoop_spec hg ht fuel (by omega) fuel s0 _ _ _ _
    hi0 hh0 (by have := hh0.size_k; omega)
  refine ⟨s, S, time, k, u, ?_, hi, Or.inl ?_, hh, hz⟩
  · unfold dijkstraWithHeap
    rw [e0, Option.some_bind, e]
  · intro v hv hv' hS
    obtain ⟨i, h0, h1, _⟩ := hh.present_of_unsettled v hv hv' hS
    omega

/-! ## Specific-pair variant -/

theorem Inv.frontier_lower {g : Graph} {src : Int} {S : Int → Bool} {time : Int → Nat} {k : Nat}
    {u : Int} {dist parent : Int → Int} (hg : NonNegWeights g) (ht : totalWeight g < INF)
    (hinv : Inv g src S time k u g.vertices dist parent) :
    ∀ (p : List Int) (a v : Int), IsWalk g p → p.head? = some a → p.getLast? = some v →
      S a = true → dist a ≠ INF →
      dist v ≤ dist a + walkWeight g p ∨
        ∃ y, 0 ≤ y ∧ y < g.vertices ∧ S y = false ∧ dist y ≤ dist a + walkWeight g p := by
  intro p
  induction p with
  | nil => intro a v hw; exact absurd hw id
  | cons x rest ih =>
    intro a v hw hh hl hSa hd
    simp only [List.head?_cons, Option.some.injEq] at hh
    subst hh
    cases rest with
    | nil =>
      simp only [List.getLast?_singleton, Option.some.injEq] at hl
      subst hl
      left
      simp [walkWeight]
    | cons y rest' =>
      rw [List.getLast?_cons_cons] at hl
      have hy := isWalk_head_range hw.2.2.2 rfl
      obtain ⟨_, _, h3, _⟩ := hinv.sum_bounds hg ht x hw.1 hw.2.1 hSa hd y hy.1 hy.2 hw.2.2.1
      have hrel := hinv.relaxed x hw.1 hw.2.1 hSa hd y hy.1 hy.2 hw.2.2.1 (fun _ => hy.2)
      have hnn := walkWeight_nonneg hg _ hw.2.2.2
      simp only [walkWeight]
      cases hSy : S y with
      | true =>
        rcases ih y v hw.2.2.2 rfl hl hSy (by omega) with h | ⟨z, z0, z1, z2, z3⟩
        · left; omega
        · right; exact ⟨z, z0, z1, z2, by omega⟩
      | false =>
        right
        exact ⟨y, hy.1, hy.2, hSy, by omega⟩

theorem findLoop_spec {g : Graph} {src : Int} (hg : NonNegWeights g)
    (ht : totalWeight g < INF) (dest : Int) :
    ∀ (r : Nat) (s : DState) (time : Int → Nat) (k : Nat) (u0 : Int),
      Inv g src s.visited time k u0 g.vertices s.dist s.parent →
      unsettledCount s.visited g.vertices.toNat ≤ r + 1 →
      ∃ time' k' u', Inv g src (findLoop g dest r s).visited time' k' u' g.vertices
          (findLoop g dest r s).dist (findLoop g dest r s).parent ∧
        (Exhausted g (findLoop g dest r s).visited (findLoop g dest r s).dist ∨
          ((findLoop g dest r s).dist dest ≠ INF ∧
            ∀ v, 0 ≤ v → v < g.vertices → (findLoop g dest r s).visited v = false →
              (findLoop g dest r s).dist dest ≤ (findLoop g dest r s).dist v)) := by
  intro r
  induction r with
  | zero =>
    intro s time k u0 hinv hc
    exact ⟨time, k, u0, hinv, Or.inl (Or.inr hc)⟩
  | succ r ih =>
    intro s time k u0 hinv hc
    simp only [findLoop]
    rcases minDistance_spec s.dist s.visited g.vertices with ⟨h1, h2⟩ | ⟨h1, h2, h3, h4, h5⟩
    · rw [if_pos (Or.inl h1)]
      refine ⟨time, k, u0, hinv, Or.inl (Or.inl ?_)⟩
      intro v hv hv' hS
      have := h2 v hv hv' hS
      have := (hinv.dist_range v hv hv').2
      omega
    · by_cases hd : minDistance s.dist s.visited g.vertices = dest
      · rw [if_pos (Or.inr hd)]
        rw [hd] at h4 h5
        exact ⟨time, k, u0, hinv, Or.inr ⟨by omega, h5⟩⟩
      · rw [if_neg (by
          intro h
          rcases h with h | h
          · omega
          · exact hd h)]
        obtain ⟨e1, e2⟩ := dense_round hg ht s hinv _ h1 h2 h3 h5
        apply ih _ _ _ _ e2
        have := e2.count
        have := hinv.count
        omega

/-- What the selection loop of `findShortestPath` establishes about `dest`. -/
theorem findLoop_dest {g : Graph} {src : Int} (hw : WellFormed g) (hs : 0 ≤ src)
    (hs' : src < g.vertices) (dest : Int) (hd : 0 ≤ dest) (hd' : dest < g.vertices) :
    let s := findLoop g dest (g.vertices - 1).toNat (initDense g src)
    (s.dist dest = INF → ¬ Reachable g src dest) ∧
    (s.dist dest ≠ INF →
      (∀ p, IsPath g src dest p → s.dist dest ≤ walkWeight g p) ∧
      ∃ c, walkBack s.parent MAX_VERTICES.toNat dest = some c ∧
        c.length ≤ g.vertices.toNat ∧ GoodChain g src s.dist dest c) := by
  intro s
  obtain ⟨h1, h100, hg, ht⟩ := hw
  obtain ⟨hi, hv⟩ := initDense_inv hg hs hs'
  obtain ⟨time, k, u, hinv, hend⟩ : ∃ time k u,
      Inv g src s.visited time k u g.vertices s.dist s.parent ∧
        (Exhausted g s.visited s.dist ∨
          (s.dist dest ≠ INF ∧
            ∀ v, 0 ≤ v → v < g.vertices → s.visited v = false → s.dist dest ≤ s.dist v)) :=
    findLoop_spec hg ht dest (g.vertices - 1).toNat
      (initDense g src) _ _ _ hi (by have := hi.count; omega)
  have hchain : s.dist dest ≠ INF →
      ∃ c, walkBack s.parent MAX_VERTICES.toNat dest = some c ∧
        c.length ≤ g.vertices.toNat ∧ GoodChain g src s.dist dest c := by
    intro hfin
    exact hinv.chain_exists hs hs' dest hd hd' hfin _ (by unfold MAX_VERTICES at *; omega)
  rcases hend with hex | ⟨hfin, hmin⟩
  · have hsf := hinv.shortest hg ht hs hs' hex dest hd hd'
    refine ⟨?_, fun hfin => ⟨?_, hchain hfin⟩⟩
    · intro hinf hr
      exact (hsf.1 hr).1 hinf
    · intro p hp
      exact (hsf.1 ⟨p, hp⟩).2.2 p hp
  · refine ⟨fun hinf => absurd hinf hfin, fun _ => ⟨?_, hchain hfin⟩⟩
    intro p hp
    have hnn := walkWeight_nonneg hg p hp.1
    cases hSs : s.visited src with
    | false =>
      by_cases e : dest = src
      · rw [e, hinv.dist_src]; exact hnn
      · exact absurd (hinv.src_first hSs dest hd hd' e) hfin
    | true =>
      have h0 : s.dist src ≠ INF := by rw [hinv.dist_src]; decide
      rcases hinv.frontier_lower hg ht p src dest hp.1 hp.2.1 hp.2.2 hSs h0 with h | ⟨y, y0, y1, y2, y3⟩
      · rw [hinv.dist_src] at h; omega
      · have := hmin y y0 y1 y2
        rw [hinv.dist_src] at y3
        omega

/-! ## Facts about the concrete inputs -/

theorem forceNat_eq {α : Type} (n : Nat) (k : Nat → α) : forceNat n k = k n := by
  cases n <;> rfl

theorem strict_eq {α : Type} (x : Int) (k : Int → α) : strict x k = k x := by
  cases x <;> simp [strict, forceNat_eq]

theorem heapLoop_eq_strict (hfuel : Nat) (g : Graph) :
    ∀ (fuel : Nat) (s : HState), heapLoop hfuel g fuel s = heapLoopStrict hfuel g fuel s := by
  intro fuel
  induction fuel with
  | zero => intro s; rfl
  | succ fuel ih =>
    intro s
    simp only [heapLoop, heapLoopStrict, strict_eq]
    have e : heapLoop hfuel g fuel = heapLoopStrict hfuel g fuel := funext ih
    rw [e]

theorem dijkstraWithHeap_eq_strict (fuel : Nat) (g : Graph) (src : Int) :
    dijkstraWithHeap fuel g src = (initHeap fuel g src).bind (heapLoopStrict fuel g fuel) := by
  unfold dijkstraWithHeap
  have e : heapLoop fuel g fuel = heapLoopStrict fuel g fuel :=
    funext (heapLoop_eq_strict fuel g fuel)
  rw [e]

theorem graph1_wellFormed : WellFormed graph1 := by
  refine ⟨by decide, by decide, ?_, by decide⟩
  intro i j h0 h1 h2 h3
  have h1' : i < 6 := h1
  have h3' : j < 6 := h3
  interval_cases i <;> interval_cases j <;> decide

theorem tieGraph_wellFormed : WellFormed tieGraph := by
  refine ⟨by decide, by decide, ?_, by decide⟩
  intro i j h0 h1 h2 h3
  have h1' : i < 5 := h1
  have h3' : j < 5 := h3
  interval_cases i <;> interval_cases j <;> decide

theorem sampleHeap_order : HeapOrder sampleHeap := by
  intro p c hp hc hpc
  have hc' : c < 3 := hc
  have h0 : p = 0 := by omega
  subst h0
  rcases hpc with e | e <;> subst e <;> decide

theorem sampleHeap_pos : PosConsistent sampleHeap := by
  intro i h0 h1
  have h1' : i < 3 := h1
  interval_cases i <;> decide

/-! ## Shared consequences for the claims -/

theorem Inv.parent_none_iff {g : Graph} {src : Int} {S : Int → Bool} {time : Int → Nat}
    {k : Nat} {u j : Int} {dist parent : Int → Int}
    (hinv : Inv g src S time k u j dist parent) (v : Int) (hv : 0 ≤ v) (hv' : v < g.vertices) :
    parent v = -1 ↔ (v = src ∨ dist v = INF) := by
  constructor
  · intro h
    by_contra hc
    push_neg at hc
    have := (hinv.parent_edge v hv hv' hc.2 hc.1).1
    omega
  · rintro (h | h)
    · rw [h]; exact hinv.parent_src
    · exact hinv.parent_inf v hv hv' h

theorem Inv.parent_valid {g : Graph} {src : Int} {S : Int → Bool} {time : Int → Nat}
    {k : Nat} {u j : Int} {dist parent : Int → Int}
    (hinv : Inv g src S time k u j dist parent) (v : Int) (hv : 0 ≤ v) (hv' : v < g.vertices)
    (hp : parent v ≠ -1) : ValidPred g dist v (parent v) := by
  have h1 : v ≠ src := fun e => hp (by rw [e]; exact hinv.parent_src)
  have h2 : dist v ≠ INF := fun e => hp (hinv.parent_inf v hv hv' e)
  obtain ⟨p0, p1, _, p3, p4, p5, _⟩ := hinv.parent_edge v hv hv' h2 h1
  exact ⟨p0, p1, p3, p4, p5⟩

/-- Both variants return the shortest-path distances; their predecessor tables agree
up to the choice among valid predecessors. -/
theorem variants_agree {g : Graph} {src : Int} (hw : WellFormed g) (hs : 0 ≤ src)
    (hs' : src < g.vertices) (fuel : Nat) (hf : g.vertices.toNat < fuel) :
    ∃ s, dijkstraWithHeap fuel g src = some s ∧
      (∀ v, 0 ≤ v → v < g.vertices → (dijkstra g src).dist v = s.dist v) ∧
      (∀ v, 0 ≤ v → v < g.vertices →
        ((dijkstra g src).parent v = -1 ↔ s.parent v = -1) ∧
        ((dijkstra g src).parent v ≠ -1 →
          ValidPred g (dijkstra g src).dist v ((dijkstra g src).parent v) ∧
          ValidPred g (dijkstra g src).dist v (s.parent v))) := by
  obtain ⟨td, kd, ud, hid, hed⟩ := dijkstra_final hw hs hs'
  obtain ⟨s, S, th, kh, uh, e, hih, heh, _, _⟩ := dijkstraWithHeap_final hw hs hs' fuel hf
  have hsd := hid.shortest hw.2.2.1 hw.2.2.2 hs hs' hed
  have hsh := hih.shortest hw.2.2.1 hw.2.2.2 hs hs' heh
  have hdist : ∀ v, 0 ≤ v → v < g.vertices → (dijkstra g src).dist v = s.dist v :=
    fun v hv hv' => hsd.unique hsh v hv hv'
  refine ⟨s, e, hdist, ?_⟩
  intro v hv hv'
  have hiff : (dijkstra g src).parent v = -1 ↔ s.parent v = -1 := by
    rw [hid.parent_none_iff v hv hv', hih.parent_none_iff v hv hv', hdist v hv hv']
  refine ⟨hiff, fun hp => ⟨hid.parent_valid v hv hv' hp, ?_⟩⟩
  obtain ⟨q0, q1, q2, q3, q4⟩ := hih.parent_valid v hv hv' (fun h => hp (hiff.2 h))
  refine ⟨q0, q1, q2, ?_, ?_⟩
  · rw [hdist _ q0 q1]; exact q3
  · rw [hdist _ q0 q1, hdist v hv hv']; exact q4

/-! ## The claims -/

/-- C1: for every graph with 1 ≤ n ≤ 100 vertices whose adjacency entries are `INF` or
non-negative weights with total below `INT_MAX`, and every source `0 ≤ src < n`,
`dijkstraWithHeap` returns, and the `dist` array it holds when the `while` loop ends is
the shortest-path table: for every vertex `v` reachable from `src`, `dist[v]` is finite
and equals the minimum total weight over all directed paths from `src` to `v`, and
`dist[v] = INF` when no path exists. -/
theorem C1_dijkstraWithHeap_shortest (g : Graph) (src : Int) (fuel : Nat)
    (hw : WellFormed g) (hs : 0 ≤ src) (hs' : src < g.vertices)
    (hf : g.vertices.toNat < fuel) :
    ∃ s, dijkstraWithHeap fuel g src = some s ∧ ShortestFrom g src s.dist := by
  obtain ⟨s, S, time, k, u, e, hi, he, _, _⟩ := dijkstraWithHeap_final hw hs hs' fuel hf
  exact ⟨s, e, hi.shortest hw.2.2.1 hw.2.2.2 hs hs' he⟩

/-- Witness for C1 on the graph of `main`. -/
theorem C1_witness :
    WellFormed graph1 ∧
      ∃ s, dijkstraWithHeap 7 graph1 0 = some s ∧ ShortestFrom graph1 0 s.dist :=
  ⟨graph1_wellFormed,
    C1_dijkstraWithHeap_shortest graph1 0 7 graph1_wellFormed (by decide) (by decide)
      (by decide)⟩

/-- C2: under the same precondition the dense variant `dijkstra` and the heap variant
`dijkstraWithHeap` finish with identical `dist` arrays (`dist[v]` equal for every
`v < n`). -/
theorem C2_dense_heap_same_dist (g : Graph) (src : Int) (fuel : Nat)
    (hw : WellFormed g) (hs : 0 ≤ src) (hs' : src < g.vertices)
    (hf : g.vertices.toNat < fuel) :
    ∃ s, dijkstraWithHeap fuel g src = some s ∧
      ∀ v, 0 ≤ v → v < g.vertices → (dijkstra g src).dist v = s.dist v := by
  obtain ⟨s, e, hd, _⟩ := variants_agree hw hs hs' fuel hf
  exact ⟨s, e, hd⟩

/-- Witness for C2 on the graph of `main`. -/
theorem C2_witness :
    WellFormed graph1 ∧
      ∃ s, dijkstraWithHeap 7 graph1 0 = some s ∧
        ∀ v, 0 ≤ v → v < graph1.vertices → (dijkstra graph1 0).dist v = s.dist v :=
  ⟨graph1_wellFormed,
    C2_dense_heap_same_dist graph1 0 7 graph1_wellFormed (by decide) (by decide) (by decide)⟩

/-- C3, counterexample: on `tieGraph` (well-formed, source 0) the dense variant ends with
`parent[4] = 1` and the heap variant with `parent[4] = 3`. -/
theorem C3_counterexample :
    WellFormed tieGraph ∧ (dijkstra tieGraph 0).parent 4 = 1 ∧
      (dijkstraWithHeap 6 tieGraph 0).map (fun s => s.parent 4) = some 3 := by
  refine ⟨tieGraph_wellFormed, by decide, ?_⟩
  rw [dijkstraWithHeap_eq_strict]
  decide

/-- C3, amended: under the same precondition the two variants finish with `parent`
arrays that agree up to the choice among equal-distance predecessors: for every
`v < n`, `parent[v] = -1` in the dense run iff `parent[v] = -1` in the heap run, and
otherwise both entries are valid predecessors of `v`, i.e. in-range vertices `p` with
`adj[p][v] ≠ INF`, `dist[p] ≠ INF` and `dist[v] = dist[p] + adj[p][v]` for the common
final `dist`. -/
theorem C3_parents_agree_up_to_ties (g : Graph) (src : Int) (fuel : Nat)
    (hw : WellFormed g) (hs : 0 ≤ src) (hs' : src < g.vertices)
    (hf : g.vertices.toNat < fuel) :
    ∃ s, dijkstraWithHeap fuel g src = some s ∧
      ∀ v, 0 ≤ v → v < g.vertices →
        ((dijkstra g src).parent v = -1 ↔ s.parent v = -1) ∧
        ((dijkstra g src).parent v ≠ -1 →
          ValidPred g (dijkstra g src).dist v ((dijkstra g src).parent v) ∧
          ValidPred g (dijkstra g src).dist v (s.parent v)) := by
  obtain ⟨s, e, _, hp⟩ := variants_agree hw hs hs' fuel hf
  exact ⟨s, e, hp⟩

/-- Witness for the amended C3 on `tieGraph`. -/
theorem C3_witness :
    WellFormed tieGraph ∧
      ∃ s, dijkstraWithHeap 6 tieGraph 0 = some s ∧
        ∀ v, 0 ≤ v → v < tieGraph.vertices →
          ((dijkstra tieGraph 0).parent v = -1 ↔ s.parent v = -1) ∧
          ((dijkstra tieGraph 0).parent v ≠ -1 →
            ValidPred tieGraph (dijkstra tieGraph 0).dist v ((dijkstra tieGraph 0).parent v) ∧
            ValidPred tieGraph (dijkstra tieGraph 0).dist v (s.parent v)) :=
  ⟨tieGraph_wellFormed,
    C3_parents_agree_up_to_ties tieGraph 0 6 tieGraph_wellFormed (by decide) (by decide)
      (by decide)⟩

/-- C4: under the same precondition and for in-range `src` and `dest`,
`findShortestPath` returns; it returns `-1` exactly when `dest` is not reachable from
`src`; otherwise it returns a length `L ≥ 1` and writes `path[0..L-1]`, a path from
`src` to `dest` (first entry `src`, last entry `dest`, consecutive entries joined by
adjacency entries other than `INF`) whose total weight is the minimum over all paths
from `src` to `dest`. -/
theorem C4_findShortestPath_correct (g : Graph) (src dest : Int)
    (hw : WellFormed g) (hs : 0 ≤ src) (hs' : src < g.vertices)
    (hd : 0 ≤ dest) (hd' : dest < g.vertices) :
    ∃ L path, findShortestPath g src dest = some (L, path) ∧
      (L = -1 ↔ ¬ Reachable g src dest) ∧
      (L ≠ -1 → 1 ≤ L ∧ (path.length : Int) = L ∧ IsPath g src dest path ∧
        IsMinDist g src dest (walkWeight g path)) := by
  obtain ⟨h1, h2⟩ := findLoop_dest hw hs hs' dest hd hd'
  unfold findShortestPath
  simp only
  by_cases hinf : (findLoop g dest (g.vertices - 1).toNat (initDense g src)).dist dest = INF
  · rw [if_pos hinf]
    refine ⟨-1, [], rfl, ?_, fun h => absurd rfl h⟩
    exact ⟨fun _ => h1 hinf, fun _ => rfl⟩
  · rw [if_neg hinf]
    obtain ⟨hlow, c, hc, hlen, hhead, hpath, hweight⟩ := h2 hinf
    rw [hc]
    have hne : c ≠ [] := by
      intro e; rw [e] at hhead; simp at hhead
    have hpos : 1 ≤ c.length := by
      cases c with
      | nil => exact absurd rfl hne
      | cons a t => simp
    refine ⟨(c.length : Int), c.reverse, rfl, ?_, fun _ => ⟨by omega, by simp, hpath, ?_⟩⟩
    · constructor
      · intro h; omega
      · intro h; exact absurd ⟨c.reverse, hpath⟩ h
    · refine ⟨⟨c.reverse, hpath, rfl⟩, ?_⟩
      intro p hp
      rw [hweight]
      exact hlow p hp

/-- Witness for C4: the call `findShortestPath(graph1, 0, 5, path)` of `main`. -/
theorem C4_witness :
    WellFormed graph1 ∧
      ∃ L path, findShortestPath graph1 0 5 = some (L, path) ∧
        (L = -1 ↔ ¬ Reachable graph1 0 5) ∧
        (L ≠ -1 → 1 ≤ L ∧ (path.length : Int) = L ∧ IsPath graph1 0 5 path ∧
          IsMinDist graph1 0 5 (walkWeight graph1 path)) :=
  ⟨graph1_wellFormed,
    C4_findShortestPath_correct graph1 0 5 graph1_wellFormed (by decide) (by decide)
      (by decide) (by decide)⟩

/-- C5: under the same precondition, after the loop of `dijkstraWithHeap`
`parent[src] = -1`, and for every vertex `v` with `dist[v] ≠ INF` following the parent
links from `v` (the walk `walkBack`) visits at most `n` vertices (at most `n-1` steps),
starts at `v` and ends at `src`; read from `src` to `v` every link `(parent[x], x)` is an
edge with `adj ≠ INF`, and the sum of `adj[parent[x]][x]` along the chain equals
`dist[v]`. -/
theorem C5_heap_parent_chain (g : Graph) (src : Int) (fuel : Nat)
    (hw : WellFormed g) (hs : 0 ≤ src) (hs' : src < g.vertices)
    (hf : g.vertices.toNat < fuel) :
    ∃ s, dijkstraWithHeap fuel g src = some s ∧ s.parent src = -1 ∧
      ∀ v, 0 ≤ v → v < g.vertices → s.dist v ≠ INF →
        ∃ c, walkBack s.parent g.vertices.toNat v = some c ∧
          c.length ≤ g.vertices.toNat ∧ c.head? = some v ∧ c.getLast? = some src ∧
          IsWalk g c.reverse ∧ walkWeight g c.reverse = s.dist v := by
  obtain ⟨s, S, time, k, u, e, hi, _, _, _⟩ := dijkstraWithHeap_final hw hs hs' fuel hf
  refine ⟨s, e, hi.parent_src, ?_⟩
  intro v hv hv' hd
  obtain ⟨c, hc, hlen, hhead, ⟨hwalk, hfirst, _⟩, hweight⟩ :=
    hi.chain_exists hs hs' v hv hv' hd _ (le_refl _)
  refine ⟨c, hc, hlen, hhead, ?_, hwalk, hweight⟩
  rw [List.head?_reverse] at hfirst
  exact hfirst

/-- Witness for C5 on the graph of `main`. -/
theorem C5_witness :
    WellFormed graph1 ∧
      ∃ s, dijkstraWithHeap 7 graph1 0 = some s ∧ s.parent 0 = -1 ∧
        ∀ v, 0 ≤ v → v < graph1.vertices → s.dist v ≠ INF →
          ∃ c, walkBack s.parent graph1.vertices.toNat v = some c ∧
            c.length ≤ graph1.vertices.toNat ∧ c.head? = some v ∧ c.getLast? = some 0 ∧
            IsWalk graph1 c.reverse ∧ walkWeight graph1 c.reverse = s.dist v :=
  ⟨graph1_wellFormed,
    C5_heap_parent_chain graph1 0 7 graph1_wellFormed (by decide) (by decide) (by decide)⟩

/-- C6: under the same precondition, after the loop of the dense variant `dijkstra`
(at most `n-1` selection rounds), `dist[v] ≠ INF` if and only if `v` is reachable from
`src` along edges with `adj ≠ INF`, and every unreachable vertex `v` has
`parent[v] = -1`. -/
theorem C6_dense_reachability (g : Graph) (src : Int)
    (hw : WellFormed g) (hs : 0 ≤ src) (hs' : src < g.vertices) :
    ∀ v, 0 ≤ v → v < g.vertices →
      ((dijkstra g src).dist v ≠ INF ↔ Reachable g src v) ∧
      (¬ Reachable g src v → (dijkstra g src).parent v = -1) := by
  obtain ⟨time, k, u, hi, he⟩ := dijkstra_final hw hs hs'
  have hsf := hi.shortest hw.2.2.1 hw.2.2.2 hs hs' he
  intro v hv hv'
  obtain ⟨h1, h2⟩ := hsf v hv hv'
  refine ⟨⟨fun h => ?_, fun h => (h1 h).1⟩, fun h => hi.parent_inf v hv hv' (h2 h)⟩
  by_contra hr
  exact h (h2 hr)

/-- Witness for C6 on the graph of `main`. -/
theorem C6_witness :
    WellFormed graph1 ∧
      ∀ v, 0 ≤ v → v < graph1.vertices →
        ((dijkstra graph1 0).dist v ≠ INF ↔ Reachable graph1 0 v) ∧
        (¬ Reachable graph1 0 v → (dijkstra graph1 0).parent v = -1) :=
  ⟨graph1_wellFormed, C6_dense_reachability graph1 0 graph1_wellFormed (by decide) (by decide)⟩

/-- C7, the run at the failing input: `wrapGraph` has two vertices and the two
non-negative weights `adj[0][1] = 2^30` and `adj[1][0] = 2^30 + 1`, both below `INF`.
The heap variant from source 0 ends with `dist[0] = -2147483647` and `parent[0] = 1`,
while the dense variant ends with `dist[0] = 0` and `parent[0] = -1`. -/
theorem C7_heap_overwrites_source :
    NonNegWeights wrapGraph ∧ wrapGraph.adj 0 1 < INF ∧ wrapGraph.adj 1 0 < INF ∧
      (dijkstraWithHeap 3 wrapGraph 0).map (fun s => (s.dist 0, s.parent 0))
        = some (-2147483647, 1) ∧
      ((dijkstra wrapGraph 0).dist 0, (dijkstra wrapGraph 0).parent 0) = (0, -1) := by
  refine ⟨?_, by decide, by decide, ?_, by decide⟩
  · intro i j h0 h1 h2 h3
    have h1' : i < 2 := h1
    have h3' : j < 2 := h3
    interval_cases i <;> interval_cases j <;> decide
  · rw [dijkstraWithHeap_eq_strict]
    decide

/-- C8: for every heap with `size ≥ 1` that satisfies heap order on `data[0..size)`,
`extractMin` returns a node whose distance is at most the distance of every node stored
in `data[0..size)` before the call, decreases `size` by exactly one, and leaves in
`data[0..size-1)` exactly the previous nodes minus the returned one (the returned node
together with the new slots is a permutation of the old slots). -/
theorem C8_extractMin_minimum (h : MinHeap) (fuel : Nat) (hs : 1 ≤ h.size)
    (ho : HeapOrder h) (hf : h.size.toNat ≤ fuel) :
    ∃ r h', extractMin fuel h = some (r, h') ∧
      (∀ i, 0 ≤ i → i < h.size → r.distance ≤ (h.data i).distance) ∧
      h'.size = h.size - 1 ∧ (r :: slots h').Perm (slots h) := by
  obtain ⟨h', e, hsz, hperm, _, _, _⟩ := extractMin_spec fuel h (by omega) hf
  exact ⟨h.data 0, h', e, fun i h0 h1 => root_le h ho i.toNat i (le_refl _) h0 h1, hsz, hperm⟩

/-- Witness for C8 on `sampleHeap`. -/
theorem C8_witness :
    (1 ≤ sampleHeap.size ∧ HeapOrder sampleHeap) ∧
      ∃ r h', extractMin 3 sampleHeap = some (r, h') ∧
        (∀ i, 0 ≤ i → i < sampleHeap.size → r.distance ≤ (sampleHeap.data i).distance) ∧
        h'.size = sampleHeap.size - 1 ∧ (r :: slots h').Perm (slots sampleHeap) :=
  ⟨⟨by decide, sampleHeap_order⟩,
    C8_extractMin_minimum sampleHeap 3 (by decide) sampleHeap_order (by decide)⟩

/-- C9: heap order is an invariant of the heap operations.  For every heap that
satisfies heap order and whose `pos` is consistent with `data`: (a) `extractMin` returns
and the heap after it satisfies heap order; (b) for every vertex `v` present in the heap
and every `newDist` not above the current key of `v`, `decreaseKey(heap, v, newDist)`
returns and the heap after it satisfies heap order. -/
theorem C9_heapOrder_invariant (h : MinHeap) (fuel : Nat) (ho : HeapOrder h)
    (hp : PosConsistent h) (hf : h.size.toNat < fuel) :
    (∃ r h', extractMin fuel h = some (r, h') ∧ HeapOrder h') ∧
    (∀ v newDist, Present h v → newDist ≤ (h.data (h.pos v)).distance →
      ∃ h', decreaseKey fuel h v newDist = some h' ∧ HeapOrder h') := by
  constructor
  · by_cases hs : h.size = 0
    · exact ⟨{ vertex := -1, distance := INF }, h, by simp only [extractMin, if_pos hs], ho⟩
    · obtain ⟨h', e, _, _, _, _, hord⟩ := heapify_spec fuel (removeRoot h) 0 (le_refl _)
        (by simp only [removeRoot]; omega)
      refine ⟨h.data 0, h', ?_, hord (removeRoot_orderExceptDown h ho)⟩
      rw [extractMin_eq fuel h hs, e]; rfl
  · rintro v newDist ⟨i, h0, h1, e⟩ hle
    have hpi : h.pos v = i := by rw [← e]; exact hp i h0 h1
    rw [hpi] at hle
    obtain ⟨h', e', _, _, _, _, hord⟩ :=
      siftUp_spec fuel (setKey h i newDist) i h0 h1 (by omega)
    refine ⟨h', ?_, hord (setKey_orderExceptUp h i newDist h0 h1 hle ho)⟩
    rw [decreaseKey_eq, hpi]; exact e'

/-- Witness for C9 on `sampleHeap`. -/
theorem C9_witness :
    (HeapOrder sampleHeap ∧ PosConsistent sampleHeap) ∧
      ((∃ r h', extractMin 4 sampleHeap = some (r, h') ∧ HeapOrder h') ∧
      (∀ v newDist, Present sampleHeap v →
        newDist ≤ (sampleHeap.data (sampleHeap.pos v)).distance →
        ∃ h', decreaseKey 4 sampleHeap v newDist = some h' ∧ HeapOrder h')) :=
  ⟨⟨sampleHeap_order, sampleHeap_pos⟩,
    C9_heapOrder_invariant sampleHeap 4 sampleHeap_order sampleHeap_pos (by decide)⟩

/-- C10: position-index consistency is an invariant of the heap operations.  If
`pos[data[i].vertex] = i` for every slot `i < size` and the vertices in `data[0..size)`
are pairwise distinct, then the same holds (for the new size) after `extractMin`, after
`heapify` at any slot `idx ≥ 0`, and after `decreaseKey(heap, v, newDist)` for any vertex
`v` present in the heap, and each of these calls returns; moreover the heap built by
the initialisation of `dijkstraWithHeap` (`createMinHeap`, `size = vertices`,
`decreaseKey(src, 0)`) satisfies it. -/
theorem C10_posConsistent_invariant (h : MinHeap) (fuel : Nat) (hp : PosConsistent h)
    (hd : DistinctVertices h) (hf : h.size.toNat < fuel) :
    (∃ r h', extractMin fuel h = some (r, h') ∧ PosConsistent h' ∧ DistinctVertices h') ∧
    (∀ idx, 0 ≤ idx →
      ∃ h', heapify fuel h idx = some h' ∧ PosConsistent h' ∧ DistinctVertices h') ∧
    (∀ v newDist, Present h v →
      ∃ h', decreaseKey fuel h v newDist = some h' ∧ PosConsistent h' ∧
        DistinctVertices h') ∧
    (∀ (g : Graph) (src : Int) (f : Nat), 0 ≤ src → src < g.vertices →
      g.vertices.toNat ≤ f →
      ∃ s, initHeap f g src = some s ∧ s.heap.size = g.vertices ∧
        PosConsistent s.heap ∧ DistinctVertices s.heap) := by
  refine ⟨?_, ?_, ?_, ?_⟩
  · by_cases hs : h.size = 0
    · exact ⟨{ vertex := -1, distance := INF }, h, by simp only [extractMin, if_pos hs],
        hp, hd⟩
    · obtain ⟨h', e, _, _, hpc, _, _⟩ := heapify_spec fuel (removeRoot h) 0 (le_refl _)
        (by simp only [removeRoot]; omega)
      have := hpc (removeRoot_posConsistent h hp).1
      refine ⟨h.data 0, h', ?_, this, this.distinct⟩
      rw [extractMin_eq fuel h hs, e]; rfl
  · intro idx hidx
    obtain ⟨h', e, _, _, hpc, _, _⟩ := heapify_spec fuel h idx hidx (by omega)
    exact ⟨h', e, hpc hp, (hpc hp).distinct⟩
  · rintro v newDist ⟨i, h0, h1, e⟩
    have hpi : h.pos v = i := by rw [← e]; exact hp i h0 h1
    obtain ⟨h', e', _, _, hpc, _, _⟩ :=
      siftUp_spec fuel (setKey h i newDist) i h0 h1 (by omega)
    have := hpc (setKey_posConsistent h i newDist hp)
    refine ⟨h', ?_, this, this.distinct⟩
    rw [decreaseKey_eq, hpi]; exact e'
  · intro g src f hs hs' hf'
    obtain ⟨s, e, hh, _, _, _⟩ := initHeap_spec (g := g) hs hs' f hf'
    have := hh.size_k
    exact ⟨s, e, by simpa using this, hh.pos_ok, hh.pos_ok.distinct⟩

/-- Witness for C10 on `sampleHeap`. -/
theorem C10_witness :
    (PosConsistent sampleHeap ∧ DistinctVertices sampleHeap) ∧
      ((∃ r h', extractMin 4 sampleHeap = some (r, h') ∧ PosConsistent h' ∧
          DistinctVertices h') ∧
      (∀ idx, 0 ≤ idx →
        ∃ h', heapify 4 sampleHeap idx = some h' ∧ PosConsistent h' ∧ DistinctVertices h') ∧
      (∀ v newDist, Present sampleHeap v →
        ∃ h', decreaseKey 4 sampleHeap v newDist = some h' ∧ PosConsistent h' ∧
          DistinctVertices h') ∧
      (∀ (g : Graph) (src : Int) (f : Nat), 0 ≤ src → src < g.vertices →
        g.vertices.toNat ≤ f →
        ∃ s, initHeap f g src = some s ∧ s.heap.size = g.vertices ∧
          PosConsistent s.heap ∧ DistinctVertices s.heap)) :=
  ⟨⟨sampleHeap_pos, sampleHeap_pos.distinct⟩,
    C10_posConsistent_invariant sampleHeap 4 sampleHeap_pos sampleHeap_pos.distinct
      (by decide)⟩

/-! ## Graph construction -/

theorem createGraph_row (i : Int) (m : Nat) (adj : Int → Int → Int) :
    let adj' := forLoop (fun j adj => setAt adj i (setAt (adj i) j (if i = j then 0 else INF)))
      m adj
    (∀ j, 0 ≤ j → j < (m : Int) → adj' i j = if i = j then 0 else INF) ∧
      (∀ j, ¬ (0 ≤ j ∧ j < (m : Int)) → adj' i j = adj i j) ∧
      ∀ i', i' ≠ i → adj' i' = adj i' := by
  induction m with
  | zero =>
    exact ⟨fun j h0 h1 => by simp at h1; omega, fun _ _ => rfl, fun _ _ => rfl⟩
  | succ m ih =>
    simp only [forLoop_succ]
    simp only at ih
    obtain ⟨h1, h2, h3⟩ := ih
    refine ⟨?_, ?_, ?_⟩
    · intro j h0 hj
      rw [setAt_same]
      by_cases e : j = m
      · rw [e, setAt_same]
      · rw [setAt_ne _ _ e]
        exact h1 j h0 (by push_cast at hj; omega)
    · intro j hj
      rw [setAt_same]
      have e : j ≠ (m : Int) := by
        intro e; apply hj; rw [e]; push_cast; omega
      rw [setAt_ne _ _ e]
      exact h2 j (fun h => hj ⟨h.1, by push_cast; omega⟩)
    · intro i' hi
      rw [setAt_ne _ _ hi]
      exact h3 i' hi

theorem createGraph_rows (n : Nat) (m : Nat) (mem : Int → Int → Int) :
    let adj' := forLoop (fun i adj =>
        forLoop (fun j adj => setAt adj i (setAt (adj i) j (if i = j then 0 else INF))) n adj)
      m mem
    ∀ i j, 0 ≤ i → i < (m : Int) → 0 ≤ j → j < (n : Int) →
      adj' i j = if i = j then 0 else INF := by
  induction m with
  | zero => intro _ i j h0 h1; simp at h1; omega
  | succ m ih =>
    simp only [forLoop_succ]
    simp only at ih
    intro i j h0 hi hj0 hj
    generalize forLoop (fun i adj =>
        forLoop (fun j adj => setAt adj i (setAt (adj i) j (if i = j then 0 else INF))) n adj)
      m mem = adj0 at ih ⊢
    obtain ⟨r1, _, r3⟩ := createGraph_row (m : Int) n adj0
    by_cases e : i = m
    · rw [e]
      exact r1 j hj0 hj
    · rw [r3 i e]
      exact ih i j h0 (by push_cast at hi; omega) hj0 hj

theorem createGraph_adj (mem : Int → Int → Int) (n : Int) (i j : Int) (hi : 0 ≤ i)
    (hi' : i < n) (hj : 0 ≤ j) (hj' : j < n) :
    (createGraph mem n).adj i j = if i = j then 0 else INF := by
  have h := createGraph_rows n.toNat n.toNat mem
  simp only at h
  exact h i j hi (by omega) hj (by omega)

theorem addEdge_adj (g : Graph) (s d w i j : Int) :
    (addEdge g s d w).adj i j = if i = s ∧ j = d then w else g.adj i j := by
  simp only [addEdge, setAt]
  by_cases h1 : i = s <;> by_cases h2 : j = d <;> simp [h1, h2, setAt]

theorem addUndirectedEdge_adj (g : Graph) (s d w i j : Int) :
    (addUndirectedEdge g s d w).adj i j =
      if (i = s ∧ j = d) ∨ (i = d ∧ j = s) then w else g.adj i j := by
  simp only [addUndirectedEdge, setAt]
  by_cases h1 : i = d <;> by_cases h2 : j = s <;> by_cases h3 : i = s <;>
    by_cases h4 : j = d <;> simp_all [setAt]

theorem applyOp_adj (g : Graph) (op : EdgeOp) (i j : Int) :
    (applyOp g op).adj i j =
      if (i = op.src ∧ j = op.dest) ∨ (op.undirected = true ∧ i = op.dest ∧ j = op.src)
      then op.weight else g.adj i j := by
  unfold applyOp
  by_cases hu : op.undirected = true
  · rw [if_pos hu, addUndirectedEdge_adj]
    simp [hu]
  · rw [if_neg hu, addEdge_adj]
    simp [hu]

theorem applyOps_diag (ops : List EdgeOp) : ∀ (g : Graph) (v : Int), g.adj v v = 0 →
    (∀ op ∈ ops, op.src = op.dest → op.weight = 0) → (applyOps g ops).adj v v = 0 := by
  induction ops with
  | nil => intro g v h _; exact h
  | cons op rest ih =>
    intro g v h hops
    simp only [applyOps]
    apply ih
    · rw [applyOp_adj]
      split_ifs with hc
      · apply hops op (List.mem_cons_self _ _)
        rcases hc with ⟨h1, h2⟩ | ⟨_, h1, h2⟩
        · rw [← h1, ← h2]
        · rw [← h1, ← h2]
      · exact h
    · intro op' hop'
      exact hops op' (List.mem_cons_of_mem _ hop')

theorem applyOps_nonneg (ops : List EdgeOp) : ∀ (g : Graph),
    (∀ i j, 0 ≤ g.adj i j) → (∀ op ∈ ops, 0 ≤ op.weight) →
    ∀ i j, 0 ≤ (applyOps g ops).adj i j := by
  induction ops with
  | nil => intro g h _; exact h
  | cons op rest ih =>
    intro g h hops
    simp only [applyOps]
    apply ih
    · intro i j
      rw [applyOp_adj]
      split_ifs
      · exact hops op (List.mem_cons_self _ _)
      · exact h i j
    · intro op' hop'
      exact hops op' (List.mem_cons_of_mem _ hop')

/-! ## The initial tables of the dense loops -/

theorem initDense_tables (g : Graph) (src : Int) (hs : 0 ≤ src) (hs' : src < g.vertices) :
    (initDense g src).dist src = 0 ∧
      (∀ i, 0 ≤ i → i < g.vertices → i ≠ src → (initDense g src).dist i = INF) ∧
      (∀ i, 0 ≤ i → i < g.vertices → (initDense g src).parent i = -1) ∧
      ∀ i, (initDense g src).visited i = false := by
  have h := initDense_aux g.vertices.toNat
  simp only at h
  obtain ⟨h1, h2⟩ := h
  refine ⟨?_, ?_, ?_, h2⟩
  · show setAt _ src 0 src = 0
    simp
  · intro i hi hi' e
    show setAt _ src 0 i = INF
    rw [setAt_ne _ _ e]
    exact (h1 i hi (by omega)).1
  · intro i hi hi'
    exact (h1 i hi (by omega)).2

theorem minDistance_initDense (g : Graph) (src : Int) (hs : 0 ≤ src) (hs' : src < g.vertices) :
    minDistance (initDense g src).dist (initDense g src).visited g.vertices = src := by
  obtain ⟨d0, d1, _, dv⟩ := initDense_tables g src hs hs'
  rcases minDistance_spec (initDense g src).dist (initDense g src).visited g.vertices with
    ⟨_, h2⟩ | ⟨h1, h2, _, h4, _⟩
  · have := h2 src hs hs' (dv src)
    rw [d0] at this
    exact absurd this (by decide)
  · by_contra hne
    have := d1 _ h1 h2 hne
    omega

/-! ## The heap variant, iteration by iteration -/

theorem heapLoop_succ (hfuel : Nat) (g : Graph) (fuel : Nat) (s : HState) :
    heapLoop hfuel g (fuel + 1) s =
      if s.heap.size > 0 then (heapRound hfuel g s).bind (heapLoop hfuel g fuel)
      else some s := by
  simp only [heapLoop, heapRound, Option.bind_assoc]

theorem loopHead_of_heapLoop (hfuel : Nat) (g : Graph) (src : Int) :
    ∀ (fuel : Nat) (s s' : HState) (k : Nat), loopHead hfuel g src k = some s →
      heapLoop hfuel g fuel s = some s' → ∃ k', loopHead hfuel g src k' = some s' := by
  intro fuel
  induction fuel with
  | zero => intro s s' k _ h; simp [heapLoop] at h
  | succ fuel ih =>
    intro s s' k hk h
    rw [heapLoop_succ] at h
    by_cases hs : s.heap.size > 0
    · rw [if_pos hs] at h
      cases hr : heapRound hfuel g s with
      | none => rw [hr] at h; simp at h
      | some s1 =>
        rw [hr, Option.some_bind] at h
        apply ih s1 s' (k + 1) _ h
        simp only [loopHead, hk, Option.some_bind, if_pos hs, hr]
    · rw [if_neg hs] at h
      simp only [Option.some.injEq] at h
      exact ⟨k, by rw [← h]; exact hk⟩

/-- One iteration of the `while` loop from a state satisfying both invariants. -/
theorem heapRound_spec {g : Graph} {src : Int} {S : Int → Bool} {time : Int → Nat} {k : Nat}
    {u0 : Int} (hg : NonNegWeights g) (ht : totalWeight g < INF) (hfuel : Nat)
    (hf : g.vertices.toNat ≤ hfuel) (s : HState)
    (hinv : Inv g src S time k u0 g.vertices s.dist s.parent)
    (hh : HeapInv g S s.dist s.heap k) (hs : 0 < s.heap.size) :
    ∃ r, extractMin hfuel s.heap = some r ∧ 0 ≤ r.1.vertex ∧ r.1.vertex < g.vertices ∧
      ∀ m : Nat, (m : Int) ≤ g.vertices →
        ∃ t, forLoop (relaxHeap hfuel g r.1.vertex) m (some { s with heap := r.2 }) = some t ∧
          Inv g src (setAt S r.1.vertex true) (setAt time r.1.vertex k) (k + 1) r.1.vertex
            (m : Int) t.dist t.parent ∧
          HeapInv g (setAt S r.1.vertex true) t.dist t.heap (k + 1) := by
  obtain ⟨r, e, r0, r1, r2, r3, r4⟩ := hh.extractMin_inv hfuel hf hs
  refine ⟨r, e, r0, r1, ?_⟩
  have hsel := hinv.select hg r.1.vertex r0 r1 r2 r3
  exact relaxHeap_loop hg ht { s with heap := r.2 } hsel r4 r0 r1 (by simp) hfuel hf

theorem loopHead_spec {g : Graph} {src : Int} (hw : WellFormed g) (hs : 0 ≤ src)
    (hs' : src < g.vertices) (hfuel : Nat) (hf : g.vertices.toNat ≤ hfuel) :
    ∀ k : Nat, k ≤ g.vertices.toNat →
      ∃ s S time u0, loopHead hfuel g src k = some s ∧
        Inv g src S time k u0 g.vertices s.dist s.parent ∧ HeapInv g S s.dist s.heap k := by
  obtain ⟨h1, _, hg, ht⟩ := hw
  intro k
  induction k with
  | zero =>
    intro _
    obtain ⟨s0, e0, hh0, d0, d1, d2⟩ := initHeap_spec hs hs' hfuel hf
    exact ⟨s0, _, _, _, e0,
      Inv.init hg hs hs' (fun _ => false) s0.dist s0.parent (fun _ _ _ => rfl) d1 d0 d2, hh0⟩
  | succ k ih =>
    intro hk
    obtain ⟨s, S, time, u0, e, hinv, hh⟩ := ih (by omega)
    have hsz : 0 < s.heap.size := by have := hh.size_k; omega
    obtain ⟨r, er, _, _, hloop⟩ := heapRound_spec hg ht hfuel hf s hinv hh hsz
    obtain ⟨t, et, hi, hh'⟩ := hloop g.vertices.toNat (by omega)
    have e2 : ((g.vertices.toNat : Nat) : Int) = g.vertices := by omega
    rw [e2] at hi
    refine ⟨t, _, _, _, ?_, hi, hh'⟩
    simp only [loopHead, e, Option.some_bind, if_pos hsz, heapRound, er, et]

/-- At every point `(k, j)` of the run with `k < n` and `j ≤ n` the loop is still
running, and both invariants hold there for the extracted vertex. -/
theorem relaxPoint_spec {g : Graph} {src : Int} (hw : WellFormed g) (hs : 0 ≤ src)
    (hs' : src < g.vertices) (hfuel : Nat) (hf : g.vertices.toNat ≤ hfuel)
    (k j : Nat) (hk : k < g.vertices.toNat) (hj : j ≤ g.vertices.toNat) :
    ∃ u t S time, relaxPoint hfuel g src k j = some (u, t) ∧
      0 ≤ u ∧ u < g.vertices ∧ S u = true ∧
      Inv g src S time (k + 1) u (j : Int) t.dist t.parent ∧
      HeapInv g S t.dist t.heap (k + 1) := by
  obtain ⟨s, S, time, u0, e, hinv, hh⟩ := loopHead_spec hw hs hs' hfuel hf k (by omega)
  have hsz : 0 < s.heap.size := by have := hh.size_k; omega
  obtain ⟨r, er, r0, r1, hloop⟩ :=
    heapRound_spec hw.2.2.1 hw.2.2.2 hfuel hf s hinv hh hsz
  obtain ⟨t, et, hi, hh'⟩ := hloop j (by omega)
  refine ⟨r.1.vertex, t, _, _, ?_, r0, r1, by simp, hi, hh'⟩
  simp only [relaxPoint, e, Option.some_bind, if_pos hsz, er, et, Option.map_some']

/-- At a point of the run, a relaxation test that holds meets the precondition of
`decreaseKey`, and the sums it evaluates do not overflow. -/
theorem relax_call_ok {g : Graph} {src : Int} {S : Int → Bool} {time : Int → Nat} {k : Nat}
    {u j : Int} (hg : NonNegWeights g) (ht : totalWeight g < INF) (t : HState)
    (hinv : Inv g src S time k u j t.dist t.parent) (hh : HeapInv g S t.dist t.heap k)
    (hu : 0 ≤ u) (hu' : u < g.vertices) (hSu : S u = true)
    (hj : 0 ≤ j) (hj' : j < g.vertices) :
    (RelaxTest g t u j → DecreaseKeyPre t.heap j (addInt (t.dist u) (g.adj u j))) ∧
    (g.adj u j ≠ INF → t.dist u ≠ INF → SumOK g t.dist u j) := by
  constructor
  · rintro ⟨h1, _, h3, h4⟩
    obtain ⟨hSj, _, _⟩ := hinv.relax_guard hg ht hu hu' hSu hj hj' ⟨h1, h3, h4⟩
    obtain ⟨p0, p1, p2⟩ := hh.pos_of_present (hh.present_of_unsettled j hj hj' hSj)
    have hkey := (hh.node_ok _ p0 p1).2.2
    rw [p2] at hkey
    exact ⟨p0, p1, p2, by rw [hkey]; exact h4⟩
  · intro h1 h3
    obtain ⟨s0, s1, s2, s3⟩ := hinv.sum_bounds hg ht u hu hu' hSu h3 j hj hj' h1
    have := settledWeight_le_total g hg S
    exact ⟨s0, by omega, s2, s3⟩

theorem relaxHeap_writes (fuel : Nat) (g : Graph) (u v : Int) (t t' : HState)
    (h : relaxHeap fuel g u v (some t) = some t') :
    (t'.dist = t.dist ∧ t'.parent = t.parent) ∨
      (RelaxTest g t u v ∧ ∃ d, d < t.dist v ∧ t'.dist = setAt t.dist v d ∧
        t'.parent = setAt t.parent v u) := by
  simp only [relaxHeap, Option.some_bind] at h
  by_cases hc : g.adj u v ≠ INF ∧ isInMinHeap t.heap v = true ∧ t.dist u ≠ INF ∧
      addInt (t.dist u) (g.adj u v) < t.dist v
  · rw [if_pos hc] at h
    right
    cases hd : decreaseKey fuel t.heap v (setAt t.dist v (addInt (t.dist u) (g.adj u v)) v) with
    | none => rw [hd] at h; simp at h
    | some h' =>
      rw [hd] at h
      simp only [Option.map_some', Option.some.injEq] at h
      subst h
      exact ⟨hc, _, hc.2.2.2, rfl, rfl⟩
  · rw [if_neg hc] at h
    simp only [Option.some.injEq] at h
    subst h
    exact Or.inl ⟨rfl, rfl⟩

theorem relaxHeap_mono (fuel : Nat) (g : Graph) (u v : Int) (t t' : HState)
    (h : relaxHeap fuel g u v (some t) = some t') (x : Int) : t'.dist x ≤ t.dist x := by
  rcases relaxHeap_writes fuel g u v t t' h with ⟨e, _⟩ | ⟨_, d, hd, e, _⟩
  · rw [e]
  · rw [e, setAt_apply]
    split_ifs with hx
    · rw [hx]; omega
    · exact le_refl _

theorem relaxHeap_loop_mono (fuel : Nat) (g : Graph) (u : Int) (s : HState) :
    ∀ (m : Nat) (s' : HState), forLoop (relaxHeap fuel g u) m (some s) = some s' →
      ∀ x, s'.dist x ≤ s.dist x := by
  intro m
  induction m with
  | zero =>
    intro s' h x
    simp only [forLoop, Option.some.injEq] at h
    rw [h]
  | succ m ih =>
    intro s' h x
    rw [forLoop_succ] at h
    cases hm : forLoop (relaxHeap fuel g u) m (some s) with
    | none => rw [hm] at h; simp [relaxHeap] at h
    | some sm =>
      rw [hm] at h
      exact le_trans (relaxHeap_mono fuel g u _ sm s' h x) (ih sm hm x)

theorem heapRound_mono (fuel : Nat) (g : Graph) (s s' : HState)
    (h : heapRound fuel g s = some s') (x : Int) : s'.dist x ≤ s.dist x := by
  unfold heapRound at h
  cases he : extractMin fuel s.heap with
  | none => rw [he] at h; simp at h
  | some r =>
    rw [he, Option.some_bind] at h
    exact relaxHeap_loop_mono fuel g _ _ _ s' h x

/-! ## The dense loops, iteration by iteration -/

theorem relaxDense_writes (g : Graph) (u v : Int) (s : DState) :
    relaxDense g u v s = s ∨
      ∃ d, d < s.dist v ∧ s.visited v = false ∧
        relaxDense g u v s =
          { s with dist := setAt s.dist v d, parent := setAt s.parent v u } := by
  unfold relaxDense
  by_cases hc : s.visited v = false ∧ g.adj u v ≠ INF ∧ s.dist u ≠ INF ∧
      addInt (s.dist u) (g.adj u v) < s.dist v
  · rw [if_pos hc]
    exact Or.inr ⟨_, hc.2.2.2, hc.1, rfl⟩
  · rw [if_neg hc]
    exact Or.inl rfl

theorem relaxDense_frozen (g : Graph) (u v : Int) (s : DState) :
    (relaxDense g u v s).visited = s.visited ∧
      (∀ x, (relaxDense g u v s).dist x ≤ s.dist x) ∧
      ∀ x, s.visited x = true →
        (relaxDense g u v s).dist x = s.dist x ∧ (relaxDense g u v s).parent x = s.parent x := by
  rcases relaxDense_writes g u v s with e | ⟨d, hd, hv, e⟩
  · rw [e]
    exact ⟨rfl, fun _ => le_refl _, fun _ _ => ⟨rfl, rfl⟩⟩
  · rw [e]
    refine ⟨rfl, ?_, ?_⟩
    · intro x
      show setAt s.dist v d x ≤ s.dist x
      rw [setAt_apply]
      split_ifs with hx
      · rw [hx]; omega
      · exact le_refl _
    · intro x hx
      have hxv : x ≠ v := by
        intro e'; rw [e', hv] at hx; exact Bool.noConfusion hx
      exact ⟨setAt_ne _ _ hxv, setAt_ne _ _ hxv⟩

theorem relaxDense_loop_frozen (g : Graph) (u : Int) (s : DState) (m : Nat) :
    (forLoop (relaxDense g u) m s).visited = s.visited ∧
      (∀ x, (forLoop (relaxDense g u) m s).dist x ≤ s.dist x) ∧
      ∀ x, s.visited x = true →
        (forLoop (relaxDense g u) m s).dist x = s.dist x ∧
        (forLoop (relaxDense g u) m s).parent x = s.parent x := by
  induction m with
  | zero => exact ⟨rfl, fun _ => le_refl _, fun _ _ => ⟨rfl, rfl⟩⟩
  | succ m ih =>
    rw [forLoop_succ]
    obtain ⟨h1, h2, h3⟩ := ih
    obtain ⟨f1, f2, f3⟩ := relaxDense_frozen g u (m : Int) (forLoop (relaxDense g u) m s)
    refine ⟨by rw [f1, h1], fun x => le_trans (f2 x) (h2 x), ?_⟩
    intro x hx
    obtain ⟨a, b⟩ := f3 x (by rw [h1]; exact hx)
    obtain ⟨c, d⟩ := h3 x hx
    exact ⟨by rw [a, c], by rw [b, d]⟩

/-- The state after one round of a dense loop that selected `u`. -/
theorem denseRound_frozen (g : Graph) (u : Int) (s : DState) :
    let s' := forLoop (relaxDense g u) g.vertices.toNat
      { s with visited := setAt s.visited u true }
    s'.visited = setAt s.visited u true ∧ (∀ x, s'.dist x ≤ s.dist x) ∧
      ∀ x, (x = u ∨ s.visited x = true) → s'.dist x = s.dist x ∧ s'.parent x = s.parent x := by
  intro s'
  obtain ⟨h1, h2, h3⟩ := relaxDense_loop_frozen g u
    { s with visited := setAt s.visited u true } g.vertices.toNat
  refine ⟨h1, h2, ?_⟩
  intro x hx
  apply h3 x
  show setAt s.visited u true x = true
  rw [setAt_apply]
  split_ifs with e
  · rfl
  · rcases hx with hx | hx
    · exact absurd hx e
    · exact hx

theorem dijkstraLoop_frozen (g : Graph) : ∀ (r : Nat) (s : DState),
    (∀ x, (dijkstraLoop g r s).dist x ≤ s.dist x) ∧
      ∀ x, s.visited x = true →
        (dijkstraLoop g r s).visited x = true ∧ (dijkstraLoop g r s).dist x = s.dist x ∧
        (dijkstraLoop g r s).parent x = s.parent x := by
  intro r
  induction r with
  | zero => intro s; exact ⟨fun _ => le_refl _, fun _ hx => ⟨hx, rfl, rfl⟩⟩
  | succ r ih =>
    intro s
    simp only [dijkstraLoop]
    by_cases hu : minDistance s.dist s.visited g.vertices = -1
    · rw [if_pos hu]
      exact ⟨fun _ => le_refl _, fun _ hx => ⟨hx, rfl, rfl⟩⟩
    · rw [if_neg hu]
      obtain ⟨f1, f2, f3⟩ := denseRound_frozen g (minDistance s.dist s.visited g.vertices) s
      obtain ⟨i1, i2⟩ := ih (forLoop (relaxDense g (minDistance s.dist s.visited g.vertices))
        g.vertices.toNat
        { s with visited := setAt s.visited (minDistance s.dist s.visited g.vertices) true })
      refine ⟨fun x => le_trans (i1 x) (f2 x), ?_⟩
      intro x hx
      obtain ⟨a, b, c⟩ := i2 x (by
        rw [f1, setAt_apply]
        split_ifs
        · rfl
        · exact hx)
      obtain ⟨d, e⟩ := f3 x (Or.inr hx)
      exact ⟨a, by rw [b, d], by rw [c, e]⟩

theorem findLoop_mono (g : Graph) (dest : Int) : ∀ (r : Nat) (s : DState) (x : Int),
    (findLoop g dest r s).dist x ≤ s.dist x := by
  intro r
  induction r with
  | zero => intro s x; exact le_refl _
  | succ r ih =>
    intro s x
    simp only [findLoop]
    by_cases hu : minDistance s.dist s.visited g.vertices = -1 ∨
        minDistance s.dist s.visited g.vertices = dest
    · rw [if_pos hu]
    · rw [if_neg hu]
      obtain ⟨_, f2, _⟩ := denseRound_frozen g (minDistance s.dist s.visited g.vertices) s
      exact le_trans (ih _ x) (f2 x)

theorem dijkstraLoop_comp (g : Graph) : ∀ (k : Nat) (s : DState),
    dijkstraLoop g (k + 1) s = dijkstraLoop g 1 (dijkstraLoop g k s) := by
  intro k
  induction k with
  | zero => intro s; rfl
  | succ k ih =>
    intro s
    by_cases hu : minDistance s.dist s.visited g.vertices = -1
    · have e : ∀ r, dijkstraLoop g (r + 1) s = s := by
        intro r; simp only [dijkstraLoop, if_pos hu]
      rw [e (k + 1), e k, e 0]
    · have e : ∀ r, dijkstraLoop g (r + 1) s = dijkstraLoop g r
          (forLoop (relaxDense g (minDistance s.dist s.visited g.vertices)) g.vertices.toNat
            { s with visited :=
                setAt s.visited (minDistance s.dist s.visited g.vertices) true }) := by
        intro r; simp only [dijkstraLoop, if_neg hu]
      rw [e (k + 1), e k, ih]

theorem findLoop_comp (g : Graph) (dest : Int) : ∀ (k : Nat) (s : DState),
    findLoop g dest (k + 1) s = findLoop g dest 1 (findLoop g dest k s) := by
  intro k
  induction k with
  | zero => intro s; rfl
  | succ k ih =>
    intro s
    by_cases hu : minDistance s.dist s.visited g.vertices = -1 ∨
        minDistance s.dist s.visited g.vertices = dest
    · have e : ∀ r, findLoop g dest (r + 1) s = s := by
        intro r; simp only [findLoop, if_pos hu]
      rw [e (k + 1), e k, e 0]
    · have e : ∀ r, findLoop g dest (r + 1) s = findLoop g dest r
          (forLoop (relaxDense g (minDistance s.dist s.visited g.vertices)) g.vertices.toNat
            { s with visited :=
                setAt s.visited (minDistance s.dist s.visited g.vertices) true }) := by
        intro r; simp only [findLoop, if_neg hu]
      rw [e (k + 1), e k, ih]

theorem dijkstraLoop_inv {g : Graph} {src : Int} (hg : NonNegWeights g)
    (ht : totalWeight g < INF) :
    ∀ (r : Nat) (s : DState) (time : Int → Nat) (k : Nat) (u0 : Int),
      Inv g src s.visited time k u0 g.vertices s.dist s.parent →
      ∃ time' k' u', Inv g src (dijkstraLoop g r s).visited time' k' u' g.vertices
          (dijkstraLoop g r s).dist (dijkstraLoop g r s).parent := by
  intro r
  induction r with
  | zero => intro s time k u0 hinv; exact ⟨time, k, u0, hinv⟩
  | succ r ih =>
    intro s time k u0 hinv
    simp only [dijkstraLoop]
    rcases minDistance_spec s.dist s.visited g.vertices with ⟨h1, _⟩ | ⟨h1, h2, h3, _, h5⟩
    · rw [if_pos h1]
      exact ⟨time, k, u0, hinv⟩
    · rw [if_neg (by omega)]
      obtain ⟨_, e2⟩ := dense_round hg ht s hinv _ h1 h2 h3 h5
      exact ih _ _ _ _ e2

theorem findLoop_inv {g : Graph} {src : Int} (hg : NonNegWeights g)
    (ht : totalWeight g < INF) (dest : Int) :
    ∀ (r : Nat) (s : DState) (time : Int → Nat) (k : Nat) (u0 : Int),
      Inv g src s.visited time k u0 g.vertices s.dist s.parent →
      ∃ time' k' u', Inv g src (findLoop g dest r s).visited time' k' u' g.vertices
          (findLoop g dest r s).dist (findLoop g dest r s).parent := by
  intro r
  induction r with
  | zero => intro s time k u0 hinv; exact ⟨time, k, u0, hinv⟩
  | succ r ih =>
    intro s time k u0 hinv
    simp only [findLoop]
    rcases minDistance_spec s.dist s.visited g.vertices with ⟨h1, _⟩ | ⟨h1, h2, h3, _, h5⟩
    · rw [if_pos (Or.inl h1)]
      exact ⟨time, k, u0, hinv⟩
    · by_cases hd : minDistance s.dist s.visited g.vertices = dest
      · rw [if_pos (Or.inr hd)]
        exact ⟨time, k, u0, hinv⟩
      · rw [if_neg (by
          intro h
          rcases h with h | h
          · omega
          · exact hd h)]
        obtain ⟨_, e2⟩ := dense_round hg ht s hinv _ h1 h2 h3 h5
        exact ih _ _ _ _ e2

/-- In a dense round started from a state satisfying the invariant, every sum the inner
loop evaluates is free of overflow, and no distance in the table is negative. -/
theorem dense_point_ok {g : Graph} {src : Int} {time : Int → Nat} {k : Nat} {u0 : Int}
    (hg : NonNegWeights g) (ht : totalWeight g < INF) (s : DState)
    (hinv : Inv g src s.visited time k u0 g.vertices s.dist s.parent)
    (hu : minDistance s.dist s.visited g.vertices ≠ -1) (j : Nat)
    (hj : (j : Int) < g.vertices) :
    let u := minDistance s.dist s.visited g.vertices
    let t := forLoop (relaxDense g u) j { s with visited := setAt s.visited u true }
    (g.adj u j ≠ INF → t.dist u ≠ INF → SumOK g t.dist u j) ∧
      ∀ v, 0 ≤ v → v < g.vertices → 0 ≤ t.dist v := by
  intro u t
  rcases minDistance_spec s.dist s.visited g.vertices with ⟨h1, _⟩ | ⟨h1, h2, h3, _, h5⟩
  · exact absurd h1 hu
  · have hsel := hinv.select hg u h1 h2 h3 h5
    obtain ⟨hv, hi⟩ := relaxDense_loop hg ht { s with visited := setAt s.visited u true }
      hsel h1 h2 (by simp) j (by omega)
    have hi' : Inv g src (setAt s.visited u true) (setAt time u k) (k + 1) u (j : Int)
        t.dist t.parent := hi
    refine ⟨?_, fun v hv0 hv1 => (hi'.dist_range v hv0 hv1).1⟩
    intro he hd
    obtain ⟨s0, s1, s2, s3⟩ := hi'.sum_bounds hg ht u h1 h2 (by simp) hd j (by omega) hj he
    have := settledWeight_le_total g hg (setAt s.visited u true)
    exact ⟨s0, by omega, s2, s3⟩

/-! ## Early termination against the full dense run -/

theorem find_vs_dense (g : Graph) (dest : Int) : ∀ (r : Nat) (s : DState),
    findLoop g dest r s = dijkstraLoop g r s ∨
      (minDistance (findLoop g dest r s).dist (findLoop g dest r s).visited g.vertices = dest ∧
        dest ≠ -1 ∧
        ∃ r', dijkstraLoop g r s = dijkstraLoop g (r' + 1) (findLoop g dest r s)) := by
  intro r
  induction r with
  | zero => intro s; exact Or.inl rfl
  | succ r ih =>
    intro s
    by_cases hu : minDistance s.dist s.visited g.vertices = -1
    · left
      simp only [findLoop, dijkstraLoop, if_pos hu, if_pos (Or.inl hu)]
    · by_cases hd : minDistance s.dist s.visited g.vertices = dest
      · right
        have e : findLoop g dest (r + 1) s = s := by
          simp only [findLoop, if_pos (Or.inr hd)]
        rw [e]
        exact ⟨hd, by rw [← hd]; exact hu, r, rfl⟩
      · have e1 : findLoop g dest (r + 1) s = findLoop g dest r
            (forLoop (relaxDense g (minDistance s.dist s.visited g.vertices)) g.vertices.toNat
              { s with visited :=
                  setAt s.visited (minDistance s.dist s.visited g.vertices) true }) := by
          simp only [findLoop]
          rw [if_neg (by
            intro h
            rcases h with h | h
            · exact hu h
            · exact hd h)]
        have e2 : dijkstraLoop g (r + 1) s = dijkstraLoop g r
            (forLoop (relaxDense g (minDistance s.dist s.visited g.vertices)) g.vertices.toNat
              { s with visited :=
                  setAt s.visited (minDistance s.dist s.visited g.vertices) true }) := by
          simp only [dijkstraLoop, if_neg hu]
        rw [e1, e2]
        exact ih _

/-- The full dense run agrees with the early-terminated one on `dest` and on every
vertex the early-terminated run has visited. -/
theorem dense_agrees (g : Graph) (dest : Int) (r : Nat) (s : DState) (x : Int)
    (hx : x = dest ∨ (findLoop g dest r s).visited x = true) :
    (dijkstraLoop g r s).dist x = (findLoop g dest r s).dist x ∧
      (dijkstraLoop g r s).parent x = (findLoop g dest r s).parent x := by
  rcases find_vs_dense g dest r s with e | ⟨hmin, hne, r', e⟩
  · rw [e]; exact ⟨rfl, rfl⟩
  · rw [e]
    generalize findLoop g dest r s = sf at hx hmin
    simp only [dijkstraLoop]
    rw [if_neg (by rw [hmin]; exact hne), hmin]
    obtain ⟨f1, _, f3⟩ := denseRound_frozen g dest sf
    obtain ⟨a, b⟩ := f3 x hx
    obtain ⟨_, c, d⟩ := (dijkstraLoop_frozen g r'
      (forLoop (relaxDense g dest) g.vertices.toNat
        { sf with visited := setAt sf.visited dest true })).2 x (by
          rw [f1, setAt_apply]
          split_ifs with e'
          · rfl
          · rcases hx with hx | hx
            · exact absurd hx e'
            · exact hx)
    exact ⟨by rw [c, a], by rw [d, b]⟩

theorem walkBack_congr (P : Int → Prop) (p1 p2 : Int → Int)
    (hP : ∀ x, P x → p1 x = p2 x ∧ (p1 x ≠ -1 → P (p1 x))) :
    ∀ (fuel : Nat) (v : Int), (v ≠ -1 → P v) → walkBack p1 fuel v = walkBack p2 fuel v := by
  intro fuel
  induction fuel with
  | zero => intro v _; rfl
  | succ fuel ih =>
    intro v hv
    simp only [walkBack]
    by_cases e : v ≠ -1
    · rw [if_pos e, if_pos e]
      obtain ⟨h1, h2⟩ := hP v (hv e)
      rw [← h1, ih (p1 v) h2]
    · rw [if_neg e, if_neg e]

/-- Under the contract precondition `findShortestPath` computes exactly what the walk
over the tables of the full dense run computes. -/
theorem findShortestPath_eq_dense {g : Graph} {src : Int} (hw : WellFormed g) (hs : 0 ≤ src)
    (hs' : src < g.vertices) (dest : Int) (hd : 0 ≤ dest) (hd' : dest < g.vertices) :
    findShortestPath g src dest =
      if (dijkstra g src).dist dest = INF then some (-1, [])
      else (walkBack (dijkstra g src).parent MAX_VERTICES.toNat dest).map
        (fun tempPath => ((tempPath.length : Int), tempPath.reverse)) := by
  obtain ⟨_, _, hg, ht⟩ := hw
  obtain ⟨hi, _⟩ := initDense_inv hg hs hs'
  obtain ⟨time, k, u, hinv⟩ := findLoop_inv hg ht dest (g.vertices - 1).toNat
    (initDense g src) _ _ _ hi
  have hag := dense_agrees g dest (g.vertices - 1).toNat (initDense g src)
  unfold findShortestPath dijkstra
  simp only
  generalize findLoop g dest (g.vertices - 1).toNat (initDense g src) = sf at hinv hag
  generalize dijkstraLoop g (g.vertices - 1).toNat (initDense g src) = sd at hag
  rw [(hag dest (Or.inl rfl)).1]
  have hwalk : walkBack sf.parent MAX_VERTICES.toNat dest
      = walkBack sd.parent MAX_VERTICES.toNat dest := by
    apply walkBack_congr
      (fun x => (0 ≤ x ∧ x < g.vertices) ∧ (x = dest ∨ sf.visited x = true))
    · rintro x ⟨⟨x0, x1⟩, hx⟩
      refine ⟨((hag x hx).2).symm, ?_⟩
      intro hp
      have h1 : x ≠ src := fun e => hp (by rw [e]; exact hinv.parent_src)
      have h2 : sf.dist x ≠ INF := fun e => hp (hinv.parent_inf x x0 x1 e)
      obtain ⟨p0, p1, p2, _⟩ := hinv.parent_edge x x0 x1 h2 h1
      exact ⟨⟨p0, p1⟩, Or.inr p2⟩
    · intro _
      exact ⟨⟨hd, hd'⟩, Or.inl rfl⟩
  rw [hwalk]

/-! ## The run of the heap variant as the last loop head -/

theorem loopHead_stable (hfuel : Nat) (g : Graph) (src : Int) (k : Nat) (s : HState)
    (hk : loopHead hfuel g src k = some s) (hs : ¬ s.heap.size > 0) :
    ∀ m, loopHead hfuel g src (k + m) = some s := by
  intro m
  induction m with
  | zero => exact hk
  | succ m ih =>
    show loopHead hfuel g src ((k + m) + 1) = some s
    simp only [loopHead, ih, Option.some_bind, if_neg hs]

theorem heapLoop_to_loopHead (hfuel : Nat) (g : Graph) (src : Int) :
    ∀ (fuel : Nat) (s s' : HState) (k : Nat), loopHead hfuel g src k = some s →
      heapLoop hfuel g fuel s = some s' →
      ∃ m, loopHead hfuel g src (k + m) = some s' ∧ ¬ s'.heap.size > 0 := by
  intro fuel
  induction fuel with
  | zero => intro s s' k _ h; simp [heapLoop] at h
  | succ fuel ih =>
    intro s s' k hk h
    rw [heapLoop_succ] at h
    by_cases hs : s.heap.size > 0
    · rw [if_pos hs] at h
      cases hr : heapRound hfuel g s with
      | none => rw [hr] at h; simp at h
      | some s1 =>
        rw [hr, Option.some_bind] at h
        obtain ⟨m, e, hz⟩ := ih s1 s' (k + 1) (by
          simp only [loopHead, hk, Option.some_bind, if_pos hs, hr]) h
        refine ⟨m + 1, ?_, hz⟩
        have : k + (m + 1) = k + 1 + m := by omega
        rw [this]; exact e
    · rw [if_neg hs] at h
      simp only [Option.some.injEq] at h
      exact ⟨0, by rw [← h]; exact hk, by rw [← h]; exact hs⟩

/-- Under the contract precondition the `while` loop runs exactly `n` times: the state
`dijkstraWithHeap` ends in is the loop head number `n`. -/
theorem dijkstraWithHeap_eq_loopHead {g : Graph} {src : Int} (hw : WellFormed g)
    (hs : 0 ≤ src) (hs' : src < g.vertices) (fuel : Nat) (hf : g.vertices.toNat < fuel) :
    dijkstraWithHeap fuel g src = loopHead fuel g src g.vertices.toNat := by
  obtain ⟨s, _, _, _, _, e, _, _, _, _⟩ := dijkstraWithHeap_final hw hs hs' fuel hf
  rw [e]
  unfold dijkstraWithHeap at e
  cases h0 : initHeap fuel g src with
  | none => rw [h0] at e; simp at e
  | some s0 =>
    rw [h0, Option.some_bind] at e
    obtain ⟨m, em, hz⟩ := heapLoop_to_loopHead fuel g src fuel s0 s 0 h0 e
    rw [Nat.zero_add] at em
    obtain ⟨sn, _, _, _, en, _, hhn⟩ :=
      loopHead_spec hw hs hs' fuel (by omega) g.vertices.toNat (le_refl _)
    have hzn := hhn.size_k
    by_cases hm : m ≤ g.vertices.toNat
    · obtain ⟨sm, _, _, _, em', _, hhm⟩ := loopHead_spec hw hs hs' fuel (by omega) m hm
      rw [em] at em'
      simp only [Option.some.injEq] at em'
      subst em'
      have := hhm.size_k
      have : m = g.vertices.toNat := by omega
      rw [← this]; exact em.symm
    · have := loopHead_stable fuel g src g.vertices.toNat sn en (by omega)
        (m - g.vertices.toNat)
      have e2 : g.vertices.toNat + (m - g.vertices.toNat) = m := by omega
      rw [e2, em] at this
      rw [en]; exact this

/-! ## Extracted vertices stay out of the heap -/

theorem HeapInv.not_present_iff {g : Graph} {S : Int → Bool} {dist : Int → Int}
    {h : MinHeap} {k : Nat} (hi : HeapInv g S dist h k) (x : Int) :
    ¬ Present h x ↔ (0 ≤ x → x < g.vertices → S x = true) := by
  constructor
  · intro hp hx hx'
    cases hS : S x with
    | true => rfl
    | false => exact absurd (hi.present_of_unsettled x hx hx' hS) hp
  · rintro hS ⟨i, h0, h1, e⟩
    obtain ⟨n0, n1, _⟩ := hi.node_ok i h0 h1
    rw [e] at n0 n1
    have := hi.unsettled_of_present n0 n1 ⟨i, h0, h1, e⟩
    rw [hS n0 n1] at this
    exact Bool.noConfusion this

theorem relaxPoint_succ (fuel : Nat) (g : Graph) (src : Int) (k j : Nat) :
    relaxPoint fuel g src k (j + 1) =
      (relaxPoint fuel g src k j).bind fun p =>
        (relaxHeap fuel g p.1 (j : Int) (some p.2)).map (fun t => (p.1, t)) := by
  unfold relaxPoint
  cases loopHead fuel g src k with
  | none => rfl
  | some s =>
    simp only [Option.some_bind]
    by_cases hs : s.heap.size > 0
    · simp only [if_pos hs]
      cases extractMin fuel s.heap with
      | none => rfl
      | some r =>
        simp only [Option.some_bind, forLoop_succ]
        cases forLoop (relaxHeap fuel g r.1.vertex) j (some { s with heap := r.2 }) with
        | none => simp [relaxHeap]
        | some t => simp
    · simp only [if_neg hs]; rfl

theorem relaxPoint_last (fuel : Nat) (g : Graph) (src : Int) (k : Nat) (s : HState)
    (hk : loopHead fuel g src k = some s) (hs : s.heap.size > 0) :
    (relaxPoint fuel g src k g.vertices.toNat).map Prod.snd = loopHead fuel g src (k + 1) := by
  simp only [relaxPoint, loopHead, hk, Option.some_bind, if_pos hs, heapRound]
  cases extractMin fuel s.heap with
  | none => rfl
  | some r =>
    simp only [Option.some_bind]
    cases forLoop (relaxHeap fuel g r.1.vertex) g.vertices.toNat
        (some { s with heap := r.2 }) with
    | none => rfl
    | some t => rfl

/-- The extraction that opens iteration `k`: tables unchanged, and whatever was out of
the heap before stays out. -/
theorem relaxPoint_zero {g : Graph} {src : Int} (hw : WellFormed g) (hs : 0 ≤ src)
    (hs' : src < g.vertices) (fuel : Nat) (hf : g.vertices.toNat ≤ fuel)
    (k : Nat) (hk : k < g.vertices.toNat) :
    ∃ s u t, loopHead fuel g src k = some s ∧ relaxPoint fuel g src k 0 = some (u, t) ∧
      (relaxPoint fuel g src k g.vertices.toNat).map Prod.snd = loopHead fuel g src (k + 1) ∧
      t.dist = s.dist ∧ t.parent = s.parent ∧ Present s.heap u ∧ ¬ Present t.heap u ∧
      ∀ x, ¬ Present s.heap x → ¬ Present t.heap x := by
  obtain ⟨s, S, time, u0, e, hinv, hh⟩ := loopHead_spec hw hs hs' fuel hf k (by omega)
  have hsz : 0 < s.heap.size := by have := hh.size_k; omega
  obtain ⟨r, er, r0, r1, r2, _, r4⟩ := hh.extractMin_inv fuel hf hsz
  refine ⟨s, r.1.vertex, { s with heap := r.2 }, e, ?_, relaxPoint_last fuel g src k s e hsz,
    rfl, rfl, hh.present_of_unsettled _ r0 r1 r2, ?_, ?_⟩
  · simp only [relaxPoint, e, Option.some_bind, if_pos hsz, er, forLoop, Option.map_some']
  · exact (r4.not_present_iff _).2 (fun _ _ => by simp)
  · intro x hx
    apply (r4.not_present_iff x).2
    intro x0 x1
    have := (hh.not_present_iff x).1 hx x0 x1
    rw [setAt_apply]
    split_ifs
    · rfl
    · exact this

/-- One pass through the body of the relaxation loop at the point `(k, j)`. -/
theorem relaxPoint_step {g : Graph} {src : Int} (hw : WellFormed g) (hs : 0 ≤ src)
    (hs' : src < g.vertices) (fuel : Nat) (hf : g.vertices.toNat ≤ fuel)
    (k j : Nat) (hk : k < g.vertices.toNat) (hj : j < g.vertices.toNat) :
    ∃ u t t', relaxPoint fuel g src k j = some (u, t) ∧
      relaxHeap fuel g u j (some t) = some t' ∧
      relaxPoint fuel g src k (j + 1) = some (u, t') ∧
      (RelaxTest g t u j → DecreaseKeyPre t.heap j (addInt (t.dist u) (g.adj u j))) ∧
      (g.adj u j ≠ INF → t.dist u ≠ INF → SumOK g t.dist u j) ∧
      (∀ v, 0 ≤ v → v < g.vertices → 0 ≤ t.dist v) ∧
      ¬ Present t.heap u ∧
      (¬ Present t.heap j → ¬ RelaxTest g t u j) ∧
      (∀ x, ¬ Present t.heap x →
        ¬ Present t'.heap x ∧ t'.dist x = t.dist x ∧ t'.parent x = t.parent x) := by
  obtain ⟨u, t, S, time, e, u0, u1, hSu, hinv, hh⟩ :=
    relaxPoint_spec hw hs hs' fuel hf k j hk (by omega)
  obtain ⟨t', e', _, hh'⟩ := relaxHeap_step hw.2.2.1 hw.2.2.2 t hinv hh u0 u1 hSu
    (by omega) (by omega) fuel hf
  obtain ⟨c1, c2⟩ := relax_call_ok hw.2.2.1 hw.2.2.2 t hinv hh u0 u1 hSu
    (by omega : (0 : Int) ≤ (j : Int)) (by omega)
  have hpre : RelaxTest g t u j → Present t.heap j := by
    intro h
    obtain ⟨p0, p1, p2, _⟩ := c1 h
    exact ⟨_, p0, p1, p2⟩
  refine ⟨u, t, t', e, e', ?_, c1, c2, fun v v0 v1 => (hinv.dist_range v v0 v1).1, ?_, ?_, ?_⟩
  · rw [relaxPoint_succ, e, Option.some_bind]
    show (relaxHeap fuel g u j (some t)).map (fun t => (u, t)) = some (u, t')
    rw [e']; rfl
  · exact (hh.not_present_iff u).2 (fun _ _ => hSu)
  · exact fun hn h => hn (hpre h)
  · intro x hx
    refine ⟨(hh'.not_present_iff x).2 ((hh.not_present_iff x).1 hx), ?_⟩
    rcases relaxHeap_writes fuel g u j t t' e' with ⟨a, b⟩ | ⟨h, d, _, a, b⟩
    · rw [a, b]; exact ⟨rfl, rfl⟩
    · have hne : x ≠ (j : Int) := by
        intro hxj
        rw [hxj] at hx
        exact hx (hpre h)
      rw [a, b, setAt_ne _ _ hne, setAt_ne _ _ hne]
      exact ⟨rfl, rfl⟩

/-! ## The parent chain under arbitrary weights -/

theorem PInv.init_dense (g : Graph) (src : Int) (hs : 0 ≤ src) (hs' : src < g.vertices) :
    PInv g src (initDense g src).visited (fun _ => 0) 0 (initDense g src).dist
      (initDense g src).parent := by
  obtain ⟨d0, d1, dp, dv⟩ := initDense_tables g src hs hs'
  refine ⟨d0, dp src hs hs', ?_, fun _ => d1, ?_, ?_, ?_, ?_⟩
  · intro v hv hv'
    by_cases e : v = src
    · rw [e, d0]; decide
    · rw [d1 v hv hv' e]
  · intro v hv hv' e hd
    exact absurd (d1 v hv hv' e) hd
  · intro v _ _ h
    rw [dv v] at h
    exact Bool.noConfusion h
  · intro v _ _ h
    rw [dv v] at h
    exact Bool.noConfusion h
  · rw [unsettledCount_all _ _ (fun i _ _ => dv i)]
    rfl

theorem PInv.src_settled {g : Graph} {src : Int} {S : Int → Bool} {time : Int → Nat}
    {k : Nat} {dist parent : Int → Int} (hp : PInv g src S time k dist parent)
    (u : Int) (hu : 0 ≤ u) (hu' : u < g.vertices) (hSu : S u = true) : S src = true := by
  cases hS : S src with
  | true => rfl
  | false =>
    have h1 := hp.settled_finite u hu hu' hSu
    by_cases e : u = src
    · rw [e, hS] at hSu
      exact Bool.noConfusion hSu
    · exact absurd (hp.src_first hS u hu hu' e) h1

theorem PInv.select_step {g : Graph} {src : Int} {S : Int → Bool} {time : Int → Nat}
    {k : Nat} {dist parent : Int → Int} (hp : PInv g src S time k dist parent)
    (u : Int) (hu : 0 ≤ u) (hu' : u < g.vertices) (hS : S u = false) (hd : dist u < INF) :
    PInv g src (setAt S u true) (setAt time u k) (k + 1) dist parent := by
  have hSne : ∀ x, S x = true → x ≠ u := by
    intro x hx e
    rw [e, hS] at hx
    exact Bool.noConfusion hx
  have hS' : ∀ x, setAt S u true x = true → x ≠ u → S x = true := by
    intro x hx hxu
    rw [setAt_ne _ _ hxu] at hx
    exact hx
  refine ⟨hp.dist_src, hp.parent_src, hp.dist_le, ?_, ?_, ?_, ?_, ?_⟩
  · intro h v hv hv' e
    by_cases hus : src = u
    · rw [hus] at h
      simp [setAt] at h
    · rw [setAt_ne _ _ hus] at h
      have := hp.src_first h u hu hu' (fun e' => hus e'.symm)
      omega
  · intro v hv hv' e hdv
    obtain ⟨p0, p1, p2, p3⟩ := hp.parent_some v hv hv' e hdv
    have hpu := hSne _ p2
    refine ⟨p0, p1, by rw [setAt_ne _ _ hpu]; exact p2, ?_⟩
    intro hSv
    rw [setAt_ne _ _ hpu]
    by_cases hvu : v = u
    · have e : setAt time u k v = k := by rw [hvu]; simp [setAt]
      rw [e]
      exact hp.time_lt _ p0 p1 p2
    · rw [setAt_ne _ _ hvu]
      exact p3 (hS' v hSv hvu)
  · intro v hv hv' hSv
    by_cases hvu : v = u
    · rw [hvu]; omega
    · exact hp.settled_finite v hv hv' (hS' v hSv hvu)
  · intro v hv hv' hSv
    by_cases hvu : v = u
    · rw [hvu]
      simp only [setAt, if_true]
      omega
    · rw [setAt_ne _ _ hvu]
      have := hp.time_lt v hv hv' (hS' v hSv hvu)
      omega
  · have h := unsettledCount_settle S u hu hS g.vertices.toNat
    have hc := hp.count
    rw [if_pos (by omega)] at h
    omega

theorem PInv.relax_step {g : Graph} {src : Int} {time : Int → Nat} {k : Nat} (s : DState)
    (hp : PInv g src s.visited time k s.dist s.parent)
    (u : Int) (hu : 0 ≤ u) (hu' : u < g.vertices) (hSu : s.visited u = true)
    (j : Int) (hj : 0 ≤ j) (hj' : j < g.vertices) :
    (relaxDense g u j s).visited = s.visited ∧
      PInv g src s.visited time k (relaxDense g u j s).dist (relaxDense g u j s).parent := by
  rcases relaxDense_writes g u j s with e | ⟨d, hd, hvj, e⟩
  · rw [e]; exact ⟨rfl, hp⟩
  · rw [e]
    refine ⟨rfl, ?_⟩
    have hsrc := hp.src_settled u hu hu' hSu
    have hjs : j ≠ src := by
      intro e'
      rw [e', hsrc] at hvj
      exact Bool.noConfusion hvj
    have hle := hp.dist_le j hj hj'
    refine ⟨?_, ?_, ?_, ?_, ?_, ?_, hp.time_lt, hp.count⟩
    · show setAt s.dist j d src = 0
      rw [setAt_ne _ _ (fun e' => hjs e'.symm)]
      exact hp.dist_src
    · show setAt s.parent j u src = -1
      rw [setAt_ne _ _ (fun e' => hjs e'.symm)]
      exact hp.parent_src
    · intro v hv hv'
      show setAt s.dist j d v ≤ INF
      rw [setAt_apply]
      split_ifs
      · omega
      · exact hp.dist_le v hv hv'
    · intro h
      rw [hsrc] at h
      exact Bool.noConfusion h
    · intro v hv hv' hvs hdv
      show 0 ≤ setAt s.parent j u v ∧ setAt s.parent j u v < g.vertices ∧
        s.visited (setAt s.parent j u v) = true ∧
        (s.visited v = true → time (setAt s.parent j u v) < time v)
      by_cases hvj' : v = j
      · rw [hvj']
        simp only [setAt, if_true]
        refine ⟨hu, hu', hSu, ?_⟩
        intro h
        rw [hvj] at h
        exact Bool.noConfusion h
      · rw [setAt_ne _ _ hvj']
        have hdv' : s.dist v ≠ INF := by
          have : setAt s.dist j d v ≠ INF := hdv
          rw [setAt_ne _ _ hvj'] at this
          exact this
        exact hp.parent_some v hv hv' hvs hdv'
    · intro v hv hv' hSv
      show setAt s.dist j d v ≠ INF
      have hvj' : v ≠ j := by
        intro e'
        rw [e', hvj] at hSv
        exact Bool.noConfusion hSv
      rw [setAt_ne _ _ hvj']
      exact hp.settled_finite v hv hv' hSv

theorem PInv.relax_loop {g : Graph} {src : Int} {time : Int → Nat} {k : Nat} (s : DState)
    (hp : PInv g src s.visited time k s.dist s.parent)
    (u : Int) (hu : 0 ≤ u) (hu' : u < g.vertices) (hSu : s.visited u = true) :
    ∀ m : Nat, (m : Int) ≤ g.vertices →
      (forLoop (relaxDense g u) m s).visited = s.visited ∧
      PInv g src s.visited time k (forLoop (relaxDense g u) m s).dist
        (forLoop (relaxDense g u) m s).parent := by
  intro m
  induction m with
  | zero => intro _; exact ⟨rfl, hp⟩
  | succ m ih =>
    intro hm
    obtain ⟨hv, hi⟩ := ih (by push_cast at hm; omega)
    rw [forLoop_succ]
    generalize forLoop (relaxDense g u) m s = sm at hv hi ⊢
    rw [← hv] at hi hSu
    obtain ⟨h1, h2⟩ := PInv.relax_step sm hi u hu hu' hSu (m : Int) (by omega)
      (by push_cast at hm; omega)
    rw [hv] at h1 h2
    exact ⟨h1, h2⟩

theorem PInv.findLoop_keeps {g : Graph} {src : Int} (dest : Int) :
    ∀ (r : Nat) (s : DState) (time : Int → Nat) (k : Nat),
      PInv g src s.visited time k s.dist s.parent →
      ∃ time' k', PInv g src (findLoop g dest r s).visited time' k'
          (findLoop g dest r s).dist (findLoop g dest r s).parent := by
  intro r
  induction r with
  | zero => intro s time k hp; exact ⟨time, k, hp⟩
  | succ r ih =>
    intro s time k hp
    simp only [Dijkstra.findLoop]
    rcases minDistance_spec s.dist s.visited g.vertices with ⟨h1, _⟩ | ⟨h1, h2, h3, h4, _⟩
    · rw [if_pos (Or.inl h1)]
      exact ⟨time, k, hp⟩
    · by_cases hd : minDistance s.dist s.visited g.vertices = dest
      · rw [if_pos (Or.inr hd)]
        exact ⟨time, k, hp⟩
      · rw [if_neg (by
          intro h
          rcases h with h | h
          · omega
          · exact hd h)]
        have hsel := hp.select_step _ h1 h2 h3 h4
        obtain ⟨e1, e2⟩ := PInv.relax_loop
          { s with visited := setAt s.visited (minDistance s.dist s.visited g.vertices) true }
          hsel _ h1 h2 (by simp [setAt]) g.vertices.toNat (by omega)
        apply ih _ _ _
        rw [e1]
        exact e2

theorem walkBack_stop (parent : Int → Int) (fuel : Nat) : walkBack parent fuel (-1) = some [] := by
  cases fuel with
  | zero => simp [walkBack]
  | succ f => simp [walkBack]

/-- The chain from a visited vertex: it ends at `src`, and its vertices are pairwise
distinct, in range, visited, and selected no later than its first vertex. -/
theorem PInv.chain_settled {g : Graph} {src : Int} {S : Int → Bool} {time : Int → Nat}
    {k : Nat} {dist parent : Int → Int} (hp : PInv g src S time k dist parent) :
    ∀ (t : Nat) (v : Int), 0 ≤ v → v < g.vertices → S v = true → time v ≤ t →
      ∃ c, walkBack parent (t + 1) v = some c ∧ c.head? = some v ∧
        c.getLast? = some src ∧ c.Nodup ∧
        ∀ x ∈ c, 0 ≤ x ∧ x < g.vertices ∧ S x = true ∧ time x ≤ time v := by
  intro t
  induction t with
  | zero =>
    intro v hv hv' hSv ht
    have hvs : v = src := by
      by_contra hne
      obtain ⟨_, _, _, p3⟩ :=
        hp.parent_some v hv hv' hne (hp.settled_finite v hv hv' hSv)
      have := p3 hSv
      omega
    refine ⟨[v], ?_, rfl, by rw [hvs]; rfl, List.nodup_singleton _, ?_⟩
    · rw [walkBack, if_pos (by omega), hvs, hp.parent_src, walkBack_stop]; rfl
    · intro x hx
      rw [List.mem_singleton] at hx
      rw [hx]
      exact ⟨hv, hv', hSv, le_refl _⟩
  | succ t ih =>
    intro v hv hv' hSv ht
    by_cases hvs : v = src
    · refine ⟨[v], ?_, rfl, by rw [hvs]; rfl, List.nodup_singleton _, ?_⟩
      · rw [walkBack, if_pos (by omega), hvs, hp.parent_src, walkBack_stop]; rfl
      · intro x hx
        rw [List.mem_singleton] at hx
        rw [hx]
        exact ⟨hv, hv', hSv, le_refl _⟩
    · obtain ⟨p0, p1, p2, p3⟩ :=
        hp.parent_some v hv hv' hvs (hp.settled_finite v hv hv' hSv)
      have hlt := p3 hSv
      obtain ⟨c, hc, hh, hl, hn, hall⟩ := ih (parent v) p0 p1 p2 (by omega)
      refine ⟨v :: c, ?_, rfl, ?_, ?_, ?_⟩
      · rw [walkBack, if_pos (by omega), hc]; rfl
      · cases c with
        | nil => simp at hh
        | cons a c' => rw [List.getLast?_cons_cons]; exact hl
      · rw [List.nodup_cons]
        refine ⟨fun hmem => ?_, hn⟩
        have := (hall v hmem).2.2.2
        omega
      · intro x hx
        rw [List.mem_cons] at hx
        rcases hx with hx | hx
        · rw [hx]; exact ⟨hv, hv', hSv, le_refl _⟩
        · obtain ⟨a, b, c', d⟩ := hall x hx
          exact ⟨a, b, c', by omega⟩

/-- The chain from any in-range vertex with a finite distance: the walk ends within `n`
cells, at `src`, after pairwise distinct in-range vertices. -/
theorem PInv.chain_bounded {g : Graph} {src : Int} {S : Int → Bool} {time : Int → Nat}
    {k : Nat} {dist parent : Int → Int} (hp : PInv g src S time k dist parent)
    (hs : 0 ≤ src) (hs' : src < g.vertices)
    (v : Int) (hv : 0 ≤ v) (hv' : v < g.vertices) (hd : dist v ≠ INF) :
    ∃ c, walkBack parent g.vertices.toNat v = some c ∧ c.head? = some v ∧
      c.getLast? = some src ∧ c.Nodup ∧ (∀ x ∈ c, 0 ≤ x ∧ x < g.vertices) ∧
      1 ≤ c.length ∧ c.length ≤ g.vertices.toNat := by
  have hcount := hp.count
  have key : ∃ c, walkBack parent g.vertices.toNat v = some c ∧ c.head? = some v ∧
      c.getLast? = some src ∧ c.Nodup ∧ (∀ x ∈ c, 0 ≤ x ∧ x < g.vertices) := by
    by_cases hSv : S v = true
    · have ht := hp.time_lt v hv hv' hSv
      obtain ⟨c, hc, hh, hl, hn, hall⟩ := hp.chain_settled (k - 1) v hv hv' hSv (by omega)
      refine ⟨c, walkBack_mono _ _ _ _ hc _ (by omega), hh, hl, hn,
        fun x hx => ⟨(hall x hx).1, (hall x hx).2.1⟩⟩
    · have hSv' : S v = false := by simpa using hSv
      have hpos := unsettledCount_pos S g.vertices.toNat v hv (by omega) hSv'
      by_cases hvs : v = src
      · refine ⟨[v], ?_, rfl, by rw [hvs]; rfl, List.nodup_singleton _, ?_⟩
        · have e : g.vertices.toNat = (g.vertices.toNat - 1) + 1 := by omega
          rw [e, walkBack, if_pos (by omega), hvs, hp.parent_src, walkBack_stop]; rfl
        · intro x hx
          rw [List.mem_singleton] at hx
          rw [hx]
          exact ⟨hv, hv'⟩
      · obtain ⟨p0, p1, p2, _⟩ := hp.parent_some v hv hv' hvs hd
        have ht := hp.time_lt _ p0 p1 p2
        obtain ⟨c, hc, hh, hl, hn, hall⟩ :=
          hp.chain_settled (k - 1) (parent v) p0 p1 p2 (by omega)
        refine ⟨v :: c, ?_, rfl, ?_, ?_, ?_⟩
        · have e : g.vertices.toNat = (g.vertices.toNat - 1) + 1 := by omega
          rw [e, walkBack, if_pos (by omega),
            walkBack_mono _ _ _ _ hc (g.vertices.toNat - 1) (by omega)]
          rfl
        · cases c with
          | nil => simp at hh
          | cons a c' => rw [List.getLast?_cons_cons]; exact hl
        · rw [List.nodup_cons]
          refine ⟨fun hmem => ?_, hn⟩
          have := (hall v hmem).2.2.1
          rw [hSv'] at this
          exact Bool.noConfusion this
        · intro x hx
          rw [List.mem_cons] at hx
          rcases hx with hx | hx
          · rw [hx]; exact ⟨hv, hv'⟩
          · exact ⟨(hall x hx).1, (hall x hx).2.1⟩
  obtain ⟨c, hc, hh, hl, hn, hall⟩ := key
  refine ⟨c, hc, hh, hl, hn, hall, ?_, walkBack_length _ _ _ _ hc⟩
  cases c with
  | nil => simp at hh
  | cons a c' => simp

/-! ## The claims, continued -/

/-- C11, the heap after the first extraction on the graph of `main`: `extractMin`
returns vertex 0 and sets `pos[0] = -1`; the five slots that remain hold the vertices
5, 1, 2, 3, 4, so vertex 0 is no longer stored, and `isInMinHeap(heap, 0)` is `true`. -/
theorem C11_isInMinHeap_after_extract :
    ((initHeap 7 graph1 0).bind (fun s => extractMin 7 s.heap)).map
        (fun r => (r.1.vertex, r.2.size, r.2.pos 0, (slots r.2).map (fun x => x.vertex),
          isInMinHeap r.2 0))
      = some (0, 5, -1, [5, 1, 2, 3, 4], true) := by
  decide

/-- C12: for every heap with `size = 0`, `extractMin` returns the sentinel node
(`vertex = -1`, `distance = INF`) and leaves the heap (`size`, `data` and `pos`)
unchanged. -/
theorem C12_extractMin_empty (fuel : Nat) (h : MinHeap) (hs : h.size = 0) :
    extractMin fuel h = some ({ vertex := -1, distance := INF }, h) := by
  simp only [extractMin, if_pos hs]

/-- Witness for C12 on the empty heap obtained from `sampleHeap` by `size = 0`. -/
theorem C12_witness :
    extractMin 0 { sampleHeap with size := 0 }
      = some ({ vertex := -1, distance := INF }, { sampleHeap with size := 0 }) :=
  C12_extractMin_empty 0 { sampleHeap with size := 0 } rfl

/-- C13, counterexample: `addEdge(g, 0, 1, -5)` on a fresh two-vertex graph stores `-5`
in `adj[0][1]`, `addUndirectedEdge(g, 0, 1, -5)` stores it in `adj[1][0]` as well, and
the relaxation loop of `dijkstra` reads it (`dist[1]` ends as `-5`). -/
theorem C13_counterexample :
    negGraph.adj 0 1 = -5 ∧
      (addUndirectedEdge (createGraph (fun _ _ => 0) 2) 0 1 (-5)).adj 1 0 = -5 ∧
      (dijkstra negGraph 0).dist 1 = -5 := by
  decide

/-- C13, amended: `addEdge` and `addUndirectedEdge` perform no check and report nothing.
For every graph with `n ≤ MAX_VERTICES` vertices, in-range `u` and `v`
(`0 ≤ u, v < n`) and every weight, negative ones included: after
`addEdge(graph, u, v, weight)` the entry `adj[u][v]` is `weight`, and the vertex count
and every other cell of the matrix `adj[0..MAX_VERTICES)[0..MAX_VERTICES)` are
unchanged; after `addUndirectedEdge(graph, u, v, weight)` both `adj[u][v]` and
`adj[v][u]` are `weight` and everything else is unchanged.  Keeping the entries
non-negative is left to the caller: if all in-range entries are non-negative before
the call, they are all non-negative after it exactly when `weight ≥ 0`. -/
theorem C13_addEdge_stores_any_weight (g : Graph) (u v w : Int)
    (_hn : g.vertices ≤ MAX_VERTICES) (hu : 0 ≤ u) (hu' : u < g.vertices)
    (hv : 0 ≤ v) (hv' : v < g.vertices) :
    ((addEdge g u v w).vertices = g.vertices ∧ (addEdge g u v w).adj u v = w ∧
      ∀ i j, 0 ≤ i → i < MAX_VERTICES → 0 ≤ j → j < MAX_VERTICES → ¬ (i = u ∧ j = v) →
        (addEdge g u v w).adj i j = g.adj i j) ∧
    ((addUndirectedEdge g u v w).vertices = g.vertices ∧
      (addUndirectedEdge g u v w).adj u v = w ∧ (addUndirectedEdge g u v w).adj v u = w ∧
      ∀ i j, 0 ≤ i → i < MAX_VERTICES → 0 ≤ j → j < MAX_VERTICES →
        ¬ (i = u ∧ j = v) → ¬ (i = v ∧ j = u) →
        (addUndirectedEdge g u v w).adj i j = g.adj i j) ∧
    (NonNegWeights g →
      (NonNegWeights (addEdge g u v w) ↔ 0 ≤ w) ∧
        (NonNegWeights (addUndirectedEdge g u v w) ↔ 0 ≤ w)) := by
  refine ⟨⟨rfl, ?_, ?_⟩, ⟨rfl, ?_, ?_, ?_⟩, ?_⟩
  · rw [addEdge_adj]; simp
  · intro i j _ _ _ _ h; rw [addEdge_adj, if_neg h]
  · rw [addUndirectedEdge_adj]; simp
  · rw [addUndirectedEdge_adj]; simp
  · intro i j _ _ _ _ h1 h2
    rw [addUndirectedEdge_adj, if_neg (by tauto)]
  · intro hg
    constructor
    · constructor
      · intro h
        have h' : 0 ≤ (addEdge g u v w).adj u v := h u v hu hu' hv hv'
        rw [addEdge_adj, if_pos ⟨rfl, rfl⟩] at h'
        exact h'
      · intro hw i j h0 h1 h2 h3
        rw [addEdge_adj]
        split_ifs
        · exact hw
        · exact hg i j h0 h1 h2 h3
    · constructor
      · intro h
        have h' : 0 ≤ (addUndirectedEdge g u v w).adj u v := h u v hu hu' hv hv'
        rw [addUndirectedEdge_adj, if_pos (Or.inl ⟨rfl, rfl⟩)] at h'
        exact h'
      · intro hw i j h0 h1 h2 h3
        rw [addUndirectedEdge_adj]
        split_ifs
        · exact hw
        · exact hg i j h0 h1 h2 h3

/-- Witness for the amended C13: the call `addEdge(graph1, 4, 5, 3)` of `main` on the
graph built so far (6 vertices, endpoints 4 and 5 in range). -/
theorem C13_witness :
    (graph1.vertices ≤ MAX_VERTICES ∧ (0 : Int) ≤ 4 ∧ 4 < graph1.vertices ∧
      (0 : Int) ≤ 5 ∧ 5 < graph1.vertices ∧ NonNegWeights graph1) ∧
    (NonNegWeights (addEdge graph1 4 5 3) ↔ (0 : Int) ≤ 3) ∧
      (NonNegWeights (addUndirectedEdge graph1 4 5 3) ↔ (0 : Int) ≤ 3) :=
  ⟨⟨by decide, by decide, by decide, by decide, by decide, graph1_wellFormed.2.2.1⟩,
    (C13_addEdge_stores_any_weight graph1 4 5 3 (by decide) (by decide) (by decide)
      (by decide) (by decide)).2.2 graph1_wellFormed.2.2.1⟩

/-- C14, counterexample: the single call `addEdge(g, 0, 0, 5)` on `createGraph(1)` has
in-range endpoints and a non-negative weight, and leaves `adj[0][0] = 5`. -/
theorem C14_counterexample :
    (applyOps (createGraph (fun _ _ => 0) 1)
        [{ undirected := false, src := 0, dest := 0, weight := 5 }]).adj 0 0 = 5 := by
  decide

/-- C14, amended: for every `n` with `0 ≤ n ≤ 100`, `createGraph(n)` yields
`adj[i][j] = 0` when `i = j` and `INF` otherwise for all `i, j < n`; and for every graph
obtained from `createGraph(n)` by a sequence of `addEdge` and `addUndirectedEdge` calls
with in-range endpoints and non-negative weights in which every call with
`src = dest` passes weight 0, `adj[v][v] = 0` for every `v < n`. -/
theorem C14_diagonal_zero (mem : Int → Int → Int) (n : Int) (ops : List EdgeOp)
    (_hn : 0 ≤ n) (_hn' : n ≤ MAX_VERTICES)
    (hops : ∀ op ∈ ops, 0 ≤ op.src ∧ op.src < n ∧ 0 ≤ op.dest ∧ op.dest < n ∧
      0 ≤ op.weight ∧ (op.src = op.dest → op.weight = 0)) :
    (∀ i j, 0 ≤ i → i < n → 0 ≤ j → j < n →
      (createGraph mem n).adj i j = if i = j then 0 else INF) ∧
    ∀ v, 0 ≤ v → v < n → (applyOps (createGraph mem n) ops).adj v v = 0 := by
  refine ⟨fun i j hi hi' hj hj' => createGraph_adj mem n i j hi hi' hj hj', ?_⟩
  intro v hv hv'
  apply applyOps_diag
  · rw [createGraph_adj mem n v v hv hv' hv hv', if_pos rfl]
  · intro op hop
    exact (hops op hop).2.2.2.2.2

/-- Witness for the amended C14: the construction of `graph1` in `main`. -/
theorem C14_witness :
    (∀ i j, 0 ≤ i → i < 6 → 0 ≤ j → j < 6 →
      (createGraph (fun _ _ => 0) 6).adj i j = if i = j then 0 else INF) ∧
    ∀ v, 0 ≤ v → v < 6 → (applyOps (createGraph (fun _ _ => 0) 6) graph1Ops).adj v v = 0 :=
  C14_diagonal_zero (fun _ _ => 0) 6 graph1Ops (by decide) (by decide) (by decide)

/-- C15: early termination in `findShortestPath` does not change the answer.  For every
graph with `1 ≤ n ≤ 100`, non-negative weights of total below `INT_MAX`, and in-range
`src`, `dest`: `findShortestPath` returns; it returns `-1` exactly when the full dense
run `dijkstra(graph, src)` ends with `dist[dest] = INF`; otherwise the walk over the
final parent array of the full dense run from `dest` ends (at `src`, within the
`MAX_VERTICES` cells), the sequence written to `path` is that walk reversed, and the
returned length is its length. -/
theorem C15_early_termination_same_answer (g : Graph) (src dest : Int) (hw : WellFormed g)
    (hs : 0 ≤ src) (hs' : src < g.vertices) (hd : 0 ≤ dest) (hd' : dest < g.vertices) :
    ∃ L path, findShortestPath g src dest = some (L, path) ∧
      (L = -1 ↔ (dijkstra g src).dist dest = INF) ∧
      ((dijkstra g src).dist dest = INF → path = []) ∧
      ((dijkstra g src).dist dest ≠ INF →
        ∃ c, walkBack (dijkstra g src).parent MAX_VERTICES.toNat dest = some c ∧
          c.head? = some dest ∧ c.getLast? = some src ∧
          path = c.reverse ∧ L = (c.length : Int)) := by
  rw [findShortestPath_eq_dense hw hs hs' dest hd hd']
  by_cases he : (dijkstra g src).dist dest = INF
  · rw [if_pos he]
    exact ⟨-1, [], rfl, ⟨fun _ => he, fun _ => rfl⟩, fun _ => rfl, fun h => absurd he h⟩
  · rw [if_neg he]
    obtain ⟨time, k, u, hinv, _⟩ := dijkstra_final hw hs hs'
    obtain ⟨c, hc, _, hhead, ⟨_, hsrc, _⟩, _⟩ := hinv.chain_exists hs hs' dest hd hd' he
      MAX_VERTICES.toNat (by have := hw.2.1; omega)
    have hlast : c.getLast? = some src := by
      rw [List.head?_reverse] at hsrc
      exact hsrc
    refine ⟨(c.length : Int), c.reverse, by rw [hc]; rfl, ⟨fun h => ?_, fun h => absurd h he⟩,
      fun h => absurd h he, fun _ => ⟨c, hc, hhead, hlast, rfl, rfl⟩⟩
    have : (0 : Int) ≤ (c.length : Int) := Int.natCast_nonneg _
    omega

/-- Witness for C15 on the graph of `main`, from vertex 0 to vertex 5. -/
theorem C15_witness :
    ∃ L path, findShortestPath graph1 0 5 = some (L, path) ∧
      (L = -1 ↔ (dijkstra graph1 0).dist 5 = INF) ∧
      ((dijkstra graph1 0).dist 5 = INF → path = []) ∧
      ((dijkstra graph1 0).dist 5 ≠ INF →
        ∃ c, walkBack (dijkstra graph1 0).parent MAX_VERTICES.toNat 5 = some c ∧
          c.head? = some 5 ∧ c.getLast? = some 0 ∧
          path = c.reverse ∧ L = (c.length : Int)) :=
  C15_early_termination_same_answer graph1 0 5 graph1_wellFormed (by decide) (by decide)
    (by decide) (by decide)

/-- C16: in `dijkstraWithHeap`, for every graph with `1 ≤ n ≤ 100`, non-negative weights
of total below `INT_MAX` and every in-range source, at every pass `(k, j)` through the
body of the relaxation loop (`k`-th iteration of the `while` loop, inner index `v = j`)
the loop is running, and if the test passes, so that `decreaseKey(heap, j, d)` is called
with `d = dist[u] + adj[u][j]`, then `0 ≤ pos[j] < size`, `data[pos[j]]` holds `j`, and
`d` is strictly less than the key of `j`.  The extracted vertex `u` is no longer stored
in the heap; a vertex that is not stored in the heap does not pass the test, stays out
of the heap, and its `dist` and `parent` entries are unchanged by the pass.  The
extraction that opens the iteration leaves `dist` and `parent` unchanged and keeps out
of the heap whatever was out of it, and the run of `dijkstraWithHeap` is the sequence
of these `n` iterations. -/
theorem C16_decreaseKey_precondition (g : Graph) (src : Int) (fuel : Nat)
    (hw : WellFormed g) (hs : 0 ≤ src) (hs' : src < g.vertices)
    (hf : g.vertices.toNat < fuel) (k j : Nat) (hk : k < g.vertices.toNat)
    (hj : j < g.vertices.toNat) :
    dijkstraWithHeap fuel g src = loopHead fuel g src g.vertices.toNat ∧
    (∃ s u t, loopHead fuel g src k = some s ∧ relaxPoint fuel g src k 0 = some (u, t) ∧
      (relaxPoint fuel g src k g.vertices.toNat).map Prod.snd = loopHead fuel g src (k + 1) ∧
      t.dist = s.dist ∧ t.parent = s.parent ∧ Present s.heap u ∧ ¬ Present t.heap u ∧
      ∀ x, ¬ Present s.heap x → ¬ Present t.heap x) ∧
    ∃ u t t', relaxPoint fuel g src k j = some (u, t) ∧
      relaxHeap fuel g u j (some t) = some t' ∧
      relaxPoint fuel g src k (j + 1) = some (u, t') ∧
      (RelaxTest g t u j → DecreaseKeyPre t.heap j (addInt (t.dist u) (g.adj u j))) ∧
      ¬ Present t.heap u ∧
      (¬ Present t.heap j → ¬ RelaxTest g t u j) ∧
      (∀ x, ¬ Present t.heap x →
        ¬ Present t'.heap x ∧ t'.dist x = t.dist x ∧ t'.parent x = t.parent x) := by
  refine ⟨dijkstraWithHeap_eq_loopHead hw hs hs' fuel hf,
    relaxPoint_zero hw hs hs' fuel (by omega) k hk, ?_⟩
  obtain ⟨u, t, t', e, e', e'', c1, _, _, c4, c5, c6⟩ :=
    relaxPoint_step hw hs hs' fuel (by omega) k j hk hj
  exact ⟨u, t, t', e, e', e'', c1, c4, c5, c6⟩

/-- Witness for C16 on the graph of `main`: source 0, second iteration of the `while`
loop, inner index 3. -/
theorem C16_witness :
    dijkstraWithHeap 7 graph1 0 = loopHead 7 graph1 0 graph1.vertices.toNat ∧
    (∃ s u t, loopHead 7 graph1 0 1 = some s ∧ relaxPoint 7 graph1 0 1 0 = some (u, t) ∧
      (relaxPoint 7 graph1 0 1 graph1.vertices.toNat).map Prod.snd = loopHead 7 graph1 0 (1 + 1) ∧
      t.dist = s.dist ∧ t.parent = s.parent ∧ Present s.heap u ∧ ¬ Present t.heap u ∧
      ∀ x, ¬ Present s.heap x → ¬ Present t.heap x) ∧
    ∃ u t t', relaxPoint 7 graph1 0 1 3 = some (u, t) ∧
      relaxHeap 7 graph1 u (3 : Nat) (some t) = some t' ∧
      relaxPoint 7 graph1 0 1 (3 + 1) = some (u, t') ∧
      (RelaxTest graph1 t u (3 : Nat) →
        DecreaseKeyPre t.heap (3 : Nat) (addInt (t.dist u) (graph1.adj u (3 : Nat)))) ∧
      ¬ Present t.heap u ∧
      (¬ Present t.heap (3 : Nat) → ¬ RelaxTest graph1 t u (3 : Nat)) ∧
      (∀ x, ¬ Present t.heap x →
        ¬ Present t'.heap x ∧ t'.dist x = t.dist x ∧ t'.parent x = t.parent x) :=
  C16_decreaseKey_precondition graph1 0 7 graph1_wellFormed (by decide) (by decide)
    (by decide) 1 3 (by decide) (by decide)

/-- C17: for every graph (any edge weights) and every vertex `s < n`,
`findShortestPath(graph, s, s, path)` returns 1 and sets `path[0] = s`: the result is
the single-element sequence `[s]`, not the no-path result `-1`. -/
theorem C17_findShortestPath_same_vertex (g : Graph) (s : Int) (hs : 0 ≤ s)
    (hs' : s < g.vertices) : findShortestPath g s s = some (1, [s]) := by
  obtain ⟨d0, _, dp, _⟩ := initDense_tables g s hs hs'
  have hloop : findLoop g s (g.vertices - 1).toNat (initDense g s) = initDense g s := by
    cases (g.vertices - 1).toNat with
    | zero => rfl
    | succ r =>
      simp only [findLoop]
      rw [if_pos (Or.inr (minDistance_initDense g s hs hs'))]
  unfold findShortestPath
  simp only [hloop]
  rw [if_neg (by rw [d0]; decide)]
  have hw : walkBack (initDense g s).parent MAX_VERTICES.toNat s = some [s] := by
    show walkBack (initDense g s).parent (99 + 1) s = some [s]
    rw [walkBack, if_pos (by omega), dp s hs hs']
    rfl
  rw [hw]
  rfl

/-- Witness for C17 on the graph of `main` with `s = 3`. -/
theorem C17_witness : findShortestPath graph1 3 3 = some (1, [3]) :=
  C17_findShortestPath_same_vertex graph1 3 (by decide) (by decide)

/-- C18: distances are monotonically non-increasing during a run.  For every graph with
`1 ≤ n ≤ 100`, non-negative weights of total below `INT_MAX` and every in-range source
(and every `dest`): after the initialisation `dist[src] = 0` and every other entry is
`INF`; in `dijkstra` and in `findShortestPath` the state after `k + 1` iterations of the
main loop is one iteration applied to the state after `k`, and every `dist[v]` in it is
at most its value after `k` iterations; in `dijkstraWithHeap` each of the `n`
iterations of the `while` loop returns, and every `dist[v]` at the next loop head is at
most its value at this one; and every pass through the body of a relaxation loop either
leaves `dist` and `parent` as they are or writes to `dist[v]` a value strictly below
the old one together with `parent[v] = u`. -/
theorem C18_dist_monotone (g : Graph) (src dest : Int) (fuel : Nat) (hw : WellFormed g)
    (hs : 0 ≤ src) (hs' : src < g.vertices) (hf : g.vertices.toNat < fuel) :
    ((initDense g src).dist src = 0 ∧
      ∀ i, 0 ≤ i → i < g.vertices → i ≠ src → (initDense g src).dist i = INF) ∧
    (∀ k, dijkstraLoop g (k + 1) (initDense g src)
          = dijkstraLoop g 1 (dijkstraLoop g k (initDense g src)) ∧
        ∀ v, (dijkstraLoop g (k + 1) (initDense g src)).dist v
          ≤ (dijkstraLoop g k (initDense g src)).dist v) ∧
    (∀ k, findLoop g dest (k + 1) (initDense g src)
          = findLoop g dest 1 (findLoop g dest k (initDense g src)) ∧
        ∀ v, (findLoop g dest (k + 1) (initDense g src)).dist v
          ≤ (findLoop g dest k (initDense g src)).dist v) ∧
    (∃ s0, loopHead fuel g src 0 = some s0 ∧ s0.dist src = 0 ∧
      ∀ i, 0 ≤ i → i < g.vertices → i ≠ src → s0.dist i = INF) ∧
    (dijkstraWithHeap fuel g src = loopHead fuel g src g.vertices.toNat ∧
      ∀ k, k < g.vertices.toNat →
        ∃ s s', loopHead fuel g src k = some s ∧ heapRound fuel g s = some s' ∧
          loopHead fuel g src (k + 1) = some s' ∧ ∀ v, s'.dist v ≤ s.dist v) ∧
    (∀ u v s, relaxDense g u v s = s ∨
      ∃ d, d < s.dist v ∧
        relaxDense g u v s = { s with dist := setAt s.dist v d, parent := setAt s.parent v u }) ∧
    (∀ u v t t', relaxHeap fuel g u v (some t) = some t' →
      (t'.dist = t.dist ∧ t'.parent = t.parent) ∨
        ∃ d, d < t.dist v ∧ t'.dist = setAt t.dist v d ∧ t'.parent = setAt t.parent v u) := by
  refine ⟨?_, ?_, ?_, ?_, ⟨dijkstraWithHeap_eq_loopHead hw hs hs' fuel hf, ?_⟩, ?_, ?_⟩
  · obtain ⟨a, b, _, _⟩ := initDense_tables g src hs hs'
    exact ⟨a, b⟩
  · intro k
    refine ⟨dijkstraLoop_comp g k _, fun v => ?_⟩
    rw [dijkstraLoop_comp]
    exact (dijkstraLoop_frozen g 1 _).1 v
  · intro k
    refine ⟨findLoop_comp g dest k _, fun v => ?_⟩
    rw [findLoop_comp]
    exact findLoop_mono g dest 1 _ v
  · obtain ⟨s0, e0, _, d0, d1, _⟩ := initHeap_spec hs hs' fuel (by omega : g.vertices.toNat ≤ fuel)
    exact ⟨s0, e0, d0, d1⟩
  · intro k hk
    obtain ⟨s, _, _, _, e, _, hh⟩ := loopHead_spec hw hs hs' fuel (by omega) k (by omega)
    obtain ⟨s', _, _, _, e', _, _⟩ := loopHead_spec hw hs hs' fuel (by omega) (k + 1) (by omega)
    have hsz : s.heap.size > 0 := by have := hh.size_k; omega
    have hr : heapRound fuel g s = some s' := by
      rw [← e']
      simp only [loopHead, e, Option.some_bind, if_pos hsz]
    exact ⟨s, s', e, hr, e', heapRound_mono fuel g s s' hr⟩
  · intro u v s
    rcases relaxDense_writes g u v s with h | ⟨d, h1, _, h2⟩
    · exact Or.inl h
    · exact Or.inr ⟨d, h1, h2⟩
  · intro u v t t' h
    rcases relaxHeap_writes fuel g u v t t' h with h | ⟨_, d, h1, h2, h3⟩
    · exact Or.inl h
    · exact Or.inr ⟨d, h1, h2, h3⟩

/-- Witness for C18 on the graph of `main`, source 0, destination 5. -/
theorem C18_witness :
    ((initDense graph1 0).dist 0 = 0 ∧
      ∀ i, 0 ≤ i → i < graph1.vertices → i ≠ 0 → (initDense graph1 0).dist i = INF) ∧
    (∀ k, dijkstraLoop graph1 (k + 1) (initDense graph1 0)
          = dijkstraLoop graph1 1 (dijkstraLoop graph1 k (initDense graph1 0)) ∧
        ∀ v, (dijkstraLoop graph1 (k + 1) (initDense graph1 0)).dist v
          ≤ (dijkstraLoop graph1 k (initDense graph1 0)).dist v) ∧
    (∀ k, findLoop graph1 5 (k + 1) (initDense graph1 0)
          = findLoop graph1 5 1 (findLoop graph1 5 k (initDense graph1 0)) ∧
        ∀ v, (findLoop graph1 5 (k + 1) (initDense graph1 0)).dist v
          ≤ (findLoop graph1 5 k (initDense graph1 0)).dist v) ∧
    (∃ s0, loopHead 7 graph1 0 0 = some s0 ∧ s0.dist 0 = 0 ∧
      ∀ i, 0 ≤ i → i < graph1.vertices → i ≠ 0 → s0.dist i = INF) ∧
    (dijkstraWithHeap 7 graph1 0 = loopHead 7 graph1 0 graph1.vertices.toNat ∧
      ∀ k, k < graph1.vertices.toNat →
        ∃ s s', loopHead 7 graph1 0 k = some s ∧ heapRound 7 graph1 s = some s' ∧
          loopHead 7 graph1 0 (k + 1) = some s' ∧ ∀ v, s'.dist v ≤ s.dist v) ∧
    (∀ u v s, relaxDense graph1 u v s = s ∨
      ∃ d, d < s.dist v ∧
        relaxDense graph1 u v s
          = { s with dist := setAt s.dist v d, parent := setAt s.parent v u }) ∧
    (∀ u v t t', relaxHeap 7 graph1 u v (some t) = some t' →
      (t'.dist = t.dist ∧ t'.parent = t.parent) ∨
        ∃ d, d < t.dist v ∧ t'.dist = setAt t.dist v d ∧ t'.parent = setAt t.parent v u) :=
  C18_dist_monotone graph1 0 5 7 graph1_wellFormed (by decide) (by decide) (by decide)

/-- C19: path reconstruction in `findShortestPath` terminates within bounds.  For every
graph with `1 ≤ n ≤ 100` and arbitrary adjacency entries (negative ones included, the
sums taken modulo `2^32`), and every in-range `src` and `dest` with `dist[dest] ≠ INF`
after the selection loop: the walk `while (current != -1)` over the parent array built
by the loop ends within `n` cells of `tempPath`; the vertices it visits are pairwise
distinct and in range, the first is `dest` and the last is `src`; and
`findShortestPath` returns their number `pathLength`, with `1 ≤ pathLength ≤ n`, and
writes them to `path` in reverse order. -/
theorem C19_path_reconstruction_terminates (g : Graph) (src dest : Int)
    (h1 : 1 ≤ g.vertices) (h100 : g.vertices ≤ MAX_VERTICES)
    (hs : 0 ≤ src) (hs' : src < g.vertices) (hd : 0 ≤ dest) (hd' : dest < g.vertices)
    (hfin : (findLoop g dest (g.vertices - 1).toNat (initDense g src)).dist dest ≠ INF) :
    ∃ c, walkBack (findLoop g dest (g.vertices - 1).toNat (initDense g src)).parent
          g.vertices.toNat dest = some c ∧
      c.head? = some dest ∧ c.getLast? = some src ∧ c.Nodup ∧
      (∀ x ∈ c, 0 ≤ x ∧ x < g.vertices) ∧
      1 ≤ c.length ∧ c.length ≤ g.vertices.toNat ∧
      findShortestPath g src dest = some ((c.length : Int), c.reverse) := by
  obtain ⟨time, k, hp⟩ := PInv.findLoop_keeps dest (g.vertices - 1).toNat (initDense g src) _ _
    (PInv.init_dense g src hs hs')
  obtain ⟨c, hc, hh, hl, hn, hall, l1, l2⟩ := hp.chain_bounded hs hs' dest hd hd' hfin
  refine ⟨c, hc, hh, hl, hn, hall, l1, l2, ?_⟩
  unfold findShortestPath
  simp only
  rw [if_neg hfin, walkBack_mono _ _ _ _ hc MAX_VERTICES.toNat (by omega)]
  rfl

/-- Witness for C19 on the two-vertex graph with the single edge `0 → 1` of weight
`-5`. -/
theorem C19_witness :
    (findLoop negGraph 1 (negGraph.vertices - 1).toNat (initDense negGraph 0)).dist 1 ≠ INF ∧
    ∃ c, walkBack (findLoop negGraph 1 (negGraph.vertices - 1).toNat (initDense negGraph 0)).parent
          negGraph.vertices.toNat 1 = some c ∧
      c.head? = some 1 ∧ c.getLast? = some 0 ∧ c.Nodup ∧
      (∀ x ∈ c, 0 ≤ x ∧ x < negGraph.vertices) ∧
      1 ≤ c.length ∧ c.length ≤ negGraph.vertices.toNat ∧
      findShortestPath negGraph 0 1 = some ((c.length : Int), c.reverse) :=
  ⟨by decide, C19_path_reconstruction_terminates negGraph 0 1 (by decide) (by decide)
    (by decide) (by decide) (by decide) (by decide) (by decide)⟩

/-- C20: no `int` overflow under a bounded total weight.  For every graph with
`1 ≤ n ≤ 100` whose entries are `INF` or non-negative with the sum of all non-`INF`
entries below `INT_MAX`, every in-range source and every `dest`: at every pass of the
relaxation loops of `dijkstra` and `findShortestPath` (state after any number `k` of
main-loop iterations, selected vertex `u ≠ -1`, inner index `j < n`) and of
`dijkstraWithHeap` (iteration `k < n`, inner index `j < n`), if `adj[u][j] ≠ INF` and
`dist[u] ≠ INF` then the sum `dist[u] + adj[u][j]` is non-negative, at most the total
weight, below `INT_MAX`, and equal to its 32-bit value; and every in-range `dist` entry
is non-negative there. -/
theorem C20_no_overflow (g : Graph) (src dest : Int) (fuel : Nat) (hw : WellFormed g)
    (hs : 0 ≤ src) (hs' : src < g.vertices) (hf : g.vertices.toNat < fuel) :
    (∀ k j : Nat, (j : Int) < g.vertices →
      let s := dijkstraLoop g k (initDense g src)
      let u := minDistance s.dist s.visited g.vertices
      let t := forLoop (relaxDense g u) j { s with visited := setAt s.visited u true }
      u ≠ -1 →
        (g.adj u j ≠ INF → t.dist u ≠ INF → SumOK g t.dist u j) ∧
          ∀ v, 0 ≤ v → v < g.vertices → 0 ≤ t.dist v) ∧
    (∀ k j : Nat, (j : Int) < g.vertices →
      let s := findLoop g dest k (initDense g src)
      let u := minDistance s.dist s.visited g.vertices
      let t := forLoop (relaxDense g u) j { s with visited := setAt s.visited u true }
      u ≠ -1 →
        (g.adj u j ≠ INF → t.dist u ≠ INF → SumOK g t.dist u j) ∧
          ∀ v, 0 ≤ v → v < g.vertices → 0 ≤ t.dist v) ∧
    (dijkstraWithHeap fuel g src = loopHead fuel g src g.vertices.toNat ∧
      ∀ k j : Nat, k < g.vertices.toNat → j < g.vertices.toNat →
        ∃ u t, relaxPoint fuel g src k j = some (u, t) ∧
          (g.adj u j ≠ INF → t.dist u ≠ INF → SumOK g t.dist u j) ∧
          ∀ v, 0 ≤ v → v < g.vertices → 0 ≤ t.dist v) := by
  obtain ⟨hi, _⟩ := initDense_inv hw.2.2.1 hs hs'
  refine ⟨?_, ?_, dijkstraWithHeap_eq_loopHead hw hs hs' fuel hf, ?_⟩
  · intro k j hj s u t hu
    obtain ⟨time, k', u', hinv⟩ := dijkstraLoop_inv hw.2.2.1 hw.2.2.2 k _ _ _ _ hi
    exact dense_point_ok hw.2.2.1 hw.2.2.2 s hinv hu j hj
  · intro k j hj s u t hu
    obtain ⟨time, k', u', hinv⟩ := findLoop_inv hw.2.2.1 hw.2.2.2 dest k _ _ _ _ hi
    exact dense_point_ok hw.2.2.1 hw.2.2.2 s hinv hu j hj
  · intro k j hk hj
    obtain ⟨u, t, _, e, _, _, _, c2, c3, _⟩ :=
      relaxPoint_step hw hs hs' fuel (by omega) k j hk hj
    exact ⟨u, t, e, c2, c3⟩

/-- Witness for C20 on the graph of `main`, source 0, destination 5. -/
theorem C20_witness :
    (∀ k j : Nat, (j : Int) < graph1.vertices →
      let s := dijkstraLoop graph1 k (initDense graph1 0)
      let u := minDistance s.dist s.visited graph1.vertices
      let t := forLoop (relaxDense graph1 u) j { s with visited := setAt s.visited u true }
      u ≠ -1 →
        (graph1.adj u j ≠ INF → t.dist u ≠ INF → SumOK graph1 t.dist u j) ∧
          ∀ v, 0 ≤ v → v < graph1.vertices → 0 ≤ t.dist v) ∧
    (∀ k j : Nat, (j : Int) < graph1.vertices →
      let s := findLoop graph1 5 k (initDense graph1 0)
      let u := minDistance s.dist s.visited graph1.vertices
      let t := forLoop (relaxDense graph1 u) j { s with visited := setAt s.visited u true }
      u ≠ -1 →
        (graph1.adj u j ≠ INF → t.dist u ≠ INF → SumOK graph1 t.dist u j) ∧
          ∀ v, 0 ≤ v → v < graph1.vertices → 0 ≤ t.dist v) ∧
    (dijkstraWithHeap 7 graph1 0 = loopHead 7 graph1 0 graph1.vertices.toNat ∧
      ∀ k j : Nat, k < graph1.vertices.toNat → j < graph1.vertices.toNat →
        ∃ u t, relaxPoint 7 graph1 0 k j = some (u, t) ∧
          (graph1.adj u j ≠ INF → t.dist u ≠ INF → SumOK graph1 t.dist u j) ∧
          ∀ v, 0 ≤ v → v < graph1.vertices → 0 ≤ t.dist v) :=
  C20_no_overflow graph1 0 5 7 graph1_wellFormed (by decide) (by decide) (by decide)

end Dijkstra
